import Mathlib

/-!
# Scene-graph entity hierarchy (runtime/World/Entity.cpp)

A shallow embedding of the entity hierarchy: every `Entity*`, `shared_ptr<Entity>` and
`weak_ptr<Entity>` of the source becomes a handle (a natural number) into a `World`, the
registry that owns the entities.  Functions of the source that recurse through the pointer
graph (`UpdateTransform`, `IsDescendantOf`, `GetActive`) take a recursion budget and return
`none` when the budget is exhausted, which is how a call that never returns shows up here.

Floats are modelled by rationals (finite values only, no NaN).
-/

namespace Spartan

/-- Modelled from the spec: Math/Vector3.h is not part of the sources; a 3D vector of floats,
compared component-wise by `operator==`. -/
structure Vector3 where
  x : ℚ
  y : ℚ
  z : ℚ
deriving DecidableEq, Repr

/-- Modelled from the spec: Math/Quaternion.h is not part of the sources; four floats,
compared component-wise by `operator==`. -/
structure Quaternion where
  x : ℚ
  y : ℚ
  z : ℚ
  w : ℚ
deriving DecidableEq, Repr

/-- Modelled from the spec: Math/Matrix.h is not part of the sources.  Matrix construction
from position, rotation and scale and the matrix product are abstract operations, so a matrix
value is kept as the expression that computes it. -/
inductive Matrix where
  | Identity : Matrix
  | trs (position : Vector3) (rotation : Quaternion) (scale : Vector3) : Matrix
  | mul (a b : Matrix) : Matrix
deriving DecidableEq, Repr

/-- The value of `numeric_limits<float>::min()`, the smallest positive normal float. -/
def FLT_MIN : ℚ := 1 / 2 ^ 126

/-- Modelled from the spec: Components/Component.h is not part of the sources.  The kinds of
attached behavior, as the switch of `Entity::AddComponent` lists them; the kind is the index
of the slot. -/
inductive ComponentType where
  | AudioSource : ComponentType
  | Camera : ComponentType
  | Light : ComponentType
  | Renderable : ComponentType
  | Physics : ComponentType
  | Terrain : ComponentType
deriving DecidableEq, Repr

/-- The slot of a kind in `m_components`. -/
def ComponentType.index : ComponentType → Nat
  | AudioSource => 0
  | Camera => 1
  | Light => 2
  | Renderable => 3
  | Physics => 4
  | Terrain => 5

/-- Modelled from the spec: an attached behavior is known to the entity by its kind and by
the attribute bag it exposes, an opaque snapshot of its state. -/
structure Component where
  type : ComponentType
  attributes : List (String × ℚ)
deriving DecidableEq, Repr

/-- The data members of `Entity` used by Entity.cpp.  `m_parent` is a handle or nothing,
`m_children` a sequence of handles.  Default values are those of a newly constructed entity
(Entity.h is not part of the sources: position zero, identity rotation, unit scale and
identity matrices are modelled from the spec).  `m_components` is the table of slots, all
empty in a new entity. -/
structure Entity where
  object_id : Nat := 0
  object_name : String := "Entity"
  is_active : Bool := true
  position_local : Vector3 := ⟨0, 0, 0⟩
  rotation_local : Quaternion := ⟨0, 0, 0, 1⟩
  scale_local : Vector3 := ⟨1, 1, 1⟩
  matrix_local : Matrix := Matrix.Identity
  matrix : Matrix := Matrix.Identity
  time_since_last_transform_sec : ℚ := 0
  parent : Option Nat := none
  children : List Nat := []
  components : List (Option Component) := [none, none, none, none, none, none]
deriving DecidableEq, Repr

/-- The registry: `size` entities are registered, with handles `0 .. size - 1` in registry
order; `get` gives the entity behind a handle and `next_id` is the state of the identity
generator. -/
structure World where
  size : Nat
  get : Nat → Entity
  next_id : Nat

/-- Store `e` behind handle `k` (a write through a pointer). -/
def World.set (w : World) (k : Nat) (e : Entity) : World :=
  { w with get := fun j => if j = k then e else w.get j }

/-- A registry with no entity. -/
def World.empty : World := { size := 0, get := fun _ => {}, next_id := 0 }

/-- Run `f` for each handle of a list in order, threading the world (a range-for loop whose
body may not return); `none` as soon as one iteration does not return. -/
def forEachM (f : World → Nat → Option World) : List Nat → World → Option World
  | [], w => some w
  | c :: cs, w =>
    match f w c with
    | none => none
    | some w1 => forEachM f cs w1

/-- A range-for loop that returns `true` at the first element for which `f` is `true`, and
`false` after the last one. -/
def anyChildM (f : Nat → Option Bool) : List Nat → Option Bool
  | [] => some false
  | c :: cs =>
    match f c with
    | none => none
    | some true => some true
    | some false => anyChildM f cs

/-- `Entity::UpdateTransform` (the direction vectors, which no modelled operation reads, are
left out). -/
def UpdateTransform : Nat → World → Nat → Option World
  | 0, _, _ => none
  | fuel + 1, w, self =>
    let e := w.get self
    let matrix_local := Matrix.trs e.position_local e.rotation_local e.scale_local
    let matrix :=
      match e.parent with
      | some p => Matrix.mul matrix_local (w.get p).matrix
      | none => matrix_local
    let w1 := w.set self
      { e with matrix_local := matrix_local, matrix := matrix, time_since_last_transform_sec := 0 }
    forEachM (UpdateTransform fuel) (w1.get self).children w1

/-- `Entity::Tick`, without the components: the counter advances by the frame time. -/
def Tick (w : World) (self : Nat) (delta_time_sec : ℚ) : World :=
  w.set self { w.get self with
    time_since_last_transform_sec := (w.get self).time_since_last_transform_sec + delta_time_sec }

/-- `Entity::GetActive`. -/
def GetActive : Nat → World → Nat → Option Bool
  | 0, _, _ => none
  | fuel + 1, w, self =>
    match (w.get self).parent with
    | some parent => if (w.get self).is_active then GetActive fuel w parent else some false
    | none => some (w.get self).is_active

/-- Modelled from the spec: `Entity::SetActive` is declared in Entity.h, which is not part of
the sources; it stores the flag. -/
def SetActive (w : World) (self : Nat) (active : Bool) : World :=
  w.set self { w.get self with is_active := active }

/-- `Entity::SetPositionLocal`. -/
def SetPositionLocal (fuel : Nat) (w : World) (self : Nat) (position : Vector3) : Option World :=
  if (w.get self).position_local = position then some w
  else UpdateTransform fuel (w.set self { w.get self with position_local := position }) self

/-- `Entity::SetRotationLocal`. -/
def SetRotationLocal (fuel : Nat) (w : World) (self : Nat) (rotation : Quaternion) :
    Option World :=
  if (w.get self).rotation_local = rotation then some w
  else UpdateTransform fuel (w.set self { w.get self with rotation_local := rotation }) self

/-- `Entity::SetScaleLocal`. -/
def SetScaleLocal (fuel : Nat) (w : World) (self : Nat) (scale : Vector3) : Option World :=
  if (w.get self).scale_local = scale then some w
  else
    let x := if scale.x = 0 then FLT_MIN else scale.x
    let y := if scale.y = 0 then FLT_MIN else scale.y
    let z := if scale.z = 0 then FLT_MIN else scale.z
    UpdateTransform fuel (w.set self { w.get self with scale_local := ⟨x, y, z⟩ }) self

/-- `Entity::IsDescendantOf`. -/
def IsDescendantOf : Nat → World → Nat → Nat → Option Bool
  | 0, _, _, _ => none
  | fuel + 1, w, self, transform =>
    match (w.get self).parent with
    | none => some false
    | some parent =>
      if (w.get parent).object_id = (w.get transform).object_id then some true
      else anyChildM (fun child => IsDescendantOf fuel w self child) (w.get transform).children

/-- `Entity::AddChild`. -/
def AddChild (w : World) (self child : Nat) : World :=
  if (w.get child).object_id = (w.get self).object_id then w
  else if child ∈ (w.get self).children then w
  else w.set self { w.get self with children := (w.get self).children ++ [child] }

/-- `Entity::RemoveChild` called with `update_child_with_null_parent = false`, as `SetParent`
calls it: the identity check and the erase. -/
def RemoveChild_false (w : World) (self child : Nat) : World :=
  if (w.get child).object_id = (w.get self).object_id then w
  else w.set self { w.get self with
    children := (w.get self).children.filter
      (fun vec_transform => (w.get vec_transform).object_id ≠ (w.get child).object_id) }

/-- The loop of `Entity::SetParent` that runs when the new parent is a descendant: every
child gets this entity's parent and is updated, then the children list is cleared. -/
def SetParent_promote (fuel : Nat) (w : World) (self : Nat) : Option World :=
  match forEachM
      (fun w1 child =>
        UpdateTransform fuel
          (w1.set child { w1.get child with parent := (w1.get self).parent }) child)
      (w.get self).children w with
  | none => none
  | some w1 => some (w1.set self { w1.get self with children := [] })

/-- The statements of `Entity::SetParent` after the `if (new_parent)` block: leave the old
parent (`parent` is the value `m_parent` had on entry), join the new one, store the parent
and update. -/
def SetParent_relink (fuel : Nat) (w : World) (self : Nat) (parent new_parent_in : Option Nat) :
    Option World :=
  let w1 :=
    match parent with
    | some p => RemoveChild_false w p self
    | none => w
  let w2 :=
    match new_parent_in with
    | some new_parent => AddChild w1 new_parent self
    | none => w1
  UpdateTransform fuel (w2.set self { w2.get self with parent := new_parent_in }) self

/-- `Entity::SetParent`. -/
def SetParent (fuel : Nat) (w : World) (self : Nat) (new_parent_in : Option Nat) : Option World :=
  let parent := (w.get self).parent
  match new_parent_in with
  | none => SetParent_relink fuel w self parent new_parent_in
  | some new_parent =>
    if (w.get self).object_id = (w.get new_parent).object_id then some w
    else if (match parent with
        | some p => decide ((w.get p).object_id = (w.get new_parent).object_id)
        | none => false) then some w
    else
      match IsDescendantOf fuel w new_parent self with
      | none => none
      | some true =>
        match SetParent_promote fuel w self with
        | none => none
        | some w1 => SetParent_relink fuel w1 self parent new_parent_in
      | some false => SetParent_relink fuel w self parent new_parent_in

/-! ## Lock scopes -/

/-- The two mutexes of an entity: `m_mutex_parent` and `m_mutex_children`. -/
inductive LockKind where
  | parent : LockKind
  | children : LockKind
deriving DecidableEq, Repr

/-- What a `lock_guard` does to a mutex of an entity: the mutex is taken where the guard is
declared and given back where the scope of the guard ends. -/
inductive LockEvent where
  | acquire (entity : Nat) (kind : LockKind) : LockEvent
  | release (entity : Nat) (kind : LockKind) : LockEvent
deriving DecidableEq, Repr

/-- The scope of a `lock_guard` on a mutex of `entity`: the events of the statements in the
scope, between taking the mutex and giving it back. -/
def guarded (entity : Nat) (kind : LockKind) (body : List LockEvent) : List LockEvent :=
  LockEvent.acquire entity kind :: body ++ [LockEvent.release entity kind]

/-- The lock events of `Entity::AddChild`: the guard on `m_mutex_children` is declared before
the identity check, its scope is the rest of the function, in which nothing is called that
takes a lock. -/
def AddChild_locks (self : Nat) : List LockEvent :=
  guarded self LockKind.children []

/-- The lock events of `Entity::RemoveChild` called with the flag off: the identity check
returns before the guard on `m_mutex_children` is declared; the scope of the guard is the
erase. -/
def RemoveChild_false_locks (w : World) (self child : Nat) : List LockEvent :=
  if (w.get child).object_id = (w.get self).object_id then []
  else guarded self LockKind.children []

/-- The lock events of the statements of `Entity::SetParent` after the `if (new_parent)`
block: the calls of `RemoveChild` on the old parent and of `AddChild` on the new one
(`UpdateTransform` takes no lock). -/
def SetParent_relink_locks (w : World) (self : Nat) (parent new_parent_in : Option Nat) :
    List LockEvent :=
  (match parent with
    | some p => RemoveChild_false_locks w p self
    | none => []) ++
  (match new_parent_in with
    | some new_parent => AddChild_locks new_parent
    | none => [])

/-- The lock events of `Entity::SetParent`, `none` when the call does not return: the guard
on `m_mutex_parent` is declared first and its scope is the whole function, early exits
included (`IsDescendantOf` and the promotion loop take no lock). -/
def SetParent_locks (fuel : Nat) (w : World) (self : Nat) (new_parent_in : Option Nat) :
    Option (List LockEvent) :=
  let parent := (w.get self).parent
  match new_parent_in with
  | none =>
    (SetParent_relink fuel w self parent new_parent_in).map fun _ =>
      guarded self LockKind.parent (SetParent_relink_locks w self parent new_parent_in)
  | some new_parent =>
    if (w.get self).object_id = (w.get new_parent).object_id then
      some (guarded self LockKind.parent [])
    else if (match parent with
        | some p => decide ((w.get p).object_id = (w.get new_parent).object_id)
        | none => false) then some (guarded self LockKind.parent [])
    else
      match IsDescendantOf fuel w new_parent self with
      | none => none
      | some true =>
        match SetParent_promote fuel w self with
        | none => none
        | some w1 =>
          (SetParent_relink fuel w1 self parent new_parent_in).map fun _ =>
            guarded self LockKind.parent (SetParent_relink_locks w1 self parent new_parent_in)
      | some false =>
        (SetParent_relink fuel w self parent new_parent_in).map fun _ =>
          guarded self LockKind.parent (SetParent_relink_locks w self parent new_parent_in)

/-- The locks held after a sequence of events, the latest first, starting from `held`;
`none` when a lock is taken that is held already, or a lock is given back that is not the
latest one taken. -/
def locksHeld (held : List (Nat × LockKind)) : List LockEvent → Option (List (Nat × LockKind))
  | [] => some held
  | LockEvent.acquire entity kind :: rest =>
    if (entity, kind) ∈ held then none else locksHeld ((entity, kind) :: held) rest
  | LockEvent.release entity kind :: rest =>
    match held with
    | [] => none
    | top :: below => if top = (entity, kind) then locksHeld below rest else none

/-- How a call ends: it returns a value, it is stopped by a failed assertion, it reads
through a null pointer, or it takes a mutex that the calling thread holds already.  The type
of the mutexes is declared in Entity.h, which is not part of the sources: a call that takes
a mutex twice completes only when that type is recursive, and `value` is what it returns
then. -/
inductive Outcome (α : Type) where
  | returned (value : α) : Outcome α
  | assertion_failed : Outcome α
  | null_dereference : Outcome α
  | relocked (value : α) : Outcome α

/-- `Entity::RemoveChild`, called by a thread that holds no lock.  The identity check returns
before the guard on `m_mutex_children` is declared; the scope of the guard is the rest of
the function, so the mutex is held while `child->SetParent(null)` runs.  The call is
`relocked` when the events of that `SetParent` take a mutex that is held. -/
def RemoveChild (fuel : Nat) (w : World) (self child : Nat)
    (update_child_with_null_parent : Bool) : Option (Outcome World) :=
  if (w.get child).object_id = (w.get self).object_id then some (Outcome.returned w)
  else
    let held := [(self, LockKind.children)]
    let w1 := w.set self { w.get self with
      children := (w.get self).children.filter
        (fun vec_transform => (w.get vec_transform).object_id ≠ (w.get child).object_id) }
    if update_child_with_null_parent then
      match SetParent fuel w1 child none, SetParent_locks fuel w1 child none with
      | some w2, some events =>
        match locksHeld held events with
        | some _ => some (Outcome.returned w2)
        | none => some (Outcome.relocked w2)
      | _, _ => none
    else some (Outcome.returned w1)

/-- `SpartanObject::GenerateObjectId`.  Modelled from the spec: the generator is not part of
the sources; identities are process-unique, so it hands out the next unused number. -/
def GenerateObjectId (w : World) : World × Nat :=
  ({ w with next_id := w.next_id + 1 }, w.next_id)

/-- `Entity::Initialize`. -/
def Initialize (fuel : Nat) (w : World) (self : Nat) : Option World :=
  UpdateTransform fuel w self

/-- `World::CreateEntity`.  Modelled from the spec: World.cpp is not part of the sources; the
registry constructs an empty entity with a fresh identity, initializes it and registers it
behind the next handle. -/
def CreateEntity (fuel : Nat) (w : World) : Option (World × Nat) :=
  let (w1, id) := GenerateObjectId w
  let handle := w1.size
  let w2 : World := { w1 with size := w1.size + 1 }
  match Initialize fuel (w2.set handle { object_id := id }) handle with
  | none => none
  | some w3 => some (w3, handle)

/-- `World::GetEntityById`.  Modelled from the spec: World.cpp is not part of the sources; the
first registered entity with the identity, or nothing. -/
def GetEntityById (w : World) (id : Nat) : Option Nat :=
  (List.range w.size).find? (fun handle => (w.get handle).object_id = id)

/-- The attribute record of one entity and the records of its children, as `Entity::Save`
writes them and `Entity::Load` reads them (the `pugi::xml_node`, with the attribute strings
already converted to values). -/
inductive Record where
  | mk (name : String) (id : Nat) (active : Bool) (position : Vector3)
      (rotation : Quaternion) (scale : Vector3) (children : List Record) : Record

mutual
/-- `Entity::Load`. -/
def Load (fuel : Nat) (w : World) (self : Nat) : Record → Option World
  | Record.mk name id active position rotation scale children =>
    let w1 := w.set self { w.get self with
      is_active := active, object_id := id, object_name := name,
      position_local := position, rotation_local := rotation, scale_local := scale }
    Load_children fuel w1 self children
/-- The loop of `Entity::Load` over the child records. -/
def Load_children (fuel : Nat) (w : World) (self : Nat) : List Record → Option World
  | [] => some w
  | child_node :: rest =>
    match CreateEntity fuel w with
    | none => none
    | some (w1, child) =>
      match Load fuel w1 child child_node with
      | none => none
      | some w2 =>
        match SetParent fuel w2 child (GetEntityById w2 (w2.get self).object_id) with
        | none => none
        | some w3 => Load_children fuel w3 self rest
end

/-! ## Trees -/

/-- Walking parent references from `n` reaches an entity with no parent in at most `k`
steps. -/
def reachesRoot (w : World) : Nat → Nat → Bool
  | 0, n => (w.get n).parent.isNone
  | k + 1, n =>
    match (w.get n).parent with
    | none => true
    | some p => reachesRoot w k p

/-- The number of parent steps from `n` up to its root, counted up to `k` steps. -/
def depth (w : World) : Nat → Nat → Nat
  | 0, _ => 0
  | k + 1, n =>
    match (w.get n).parent with
    | none => 0
    | some p => depth w k p + 1

/-- `IsAncestor w a x`: walking parent references from `x` arrives at `a` after one step or
more (`a` is a proper ancestor of `x`, `x` a proper descendant of `a`). -/
inductive IsAncestor (w : World) : Nat → Nat → Prop
  | parent {a x : Nat} : (w.get x).parent = some a → IsAncestor w a x
  | step {a p x : Nat} : (w.get x).parent = some p → IsAncestor w a p → IsAncestor w a x

/-- Every parent reference and every children entry of a registered entity is a registered
entity. -/
def World.ValidHandles (w : World) : Prop :=
  ∀ a, a < w.size →
    (∀ p ∈ (w.get a).parent, p < w.size) ∧ ∀ c ∈ (w.get a).children, c < w.size

/-- Registered entities have pairwise distinct identities. -/
def World.DistinctIds (w : World) : Prop :=
  ∀ a, a < w.size → ∀ b, b < w.size → (w.get a).object_id = (w.get b).object_id → a = b

/-- Invariant I1: `b` is the parent of `a` exactly when `a` is in the children list of `b`. -/
def World.Consistent (w : World) : Prop :=
  ∀ a, a < w.size → ∀ b, b < w.size → ((w.get a).parent = some b ↔ a ∈ (w.get b).children)

/-- Invariant I2: from every registered entity the walk up the parent references ends at a
root within as many steps as there are entities. -/
def World.Acyclic (w : World) : Prop :=
  ∀ n, n < w.size → reachesRoot w w.size n = true

instance (w : World) : Decidable w.ValidHandles := by
  unfold World.ValidHandles; infer_instance

instance (w : World) : Decidable w.DistinctIds := by
  unfold World.DistinctIds; infer_instance

instance (w : World) : Decidable w.Consistent := by
  unfold World.Consistent; infer_instance

instance (w : World) : Decidable w.Acyclic := by
  unfold World.Acyclic; infer_instance

/-- The rank used for recursions that go down the children lists: entities nearer to the
root rank higher. -/
def World.height (w : World) (n : Nat) : Nat := w.size - depth w w.size n

/-- The entity `e2` differs from `e1` at most in its two matrices and its counter. -/
def Entity.SameButTransform (e1 e2 : Entity) : Prop :=
  e2 = { e1 with
    matrix_local := e2.matrix_local, matrix := e2.matrix,
    time_since_last_transform_sec := e2.time_since_last_transform_sec }

/-- The world `w2` has the entities of `w1`, each changed at most in its matrices and its
counter. -/
def World.SameButTransform (w1 w2 : World) : Prop :=
  w2.size = w1.size ∧ w2.next_id = w1.next_id ∧ ∀ k, (w1.get k).SameButTransform (w2.get k)

/-- The children lists form a forest: `rank` strictly decreases from every entity to each
entry of its children list, so no walk down the lists comes back to where it started. -/
def World.ChildrenRanked (w : World) (rank : Nat → Nat) : Prop :=
  ∀ a c, c ∈ (w.get a).children → rank c < rank a

/-! ## Example worlds -/

/-- A chain of three entities: 0 is the root, 1 its child, 2 the child of 1. -/
def chain3 : World where
  size := 3
  next_id := 3
  get := fun k =>
    if k = 0 then { object_id := 0, children := [1] }
    else if k = 1 then { object_id := 1, parent := some 0, children := [2] }
    else if k = 2 then { object_id := 2, parent := some 1, is_active := false }
    else {}

/-- Three newly created entities, with handles 0, 1 and 2. -/
def threeEntities : Option World :=
  (CreateEntity 1 World.empty).bind fun r1 =>
    (CreateEntity 1 r1.1).bind fun r2 =>
      (CreateEntity 1 r2.1).map fun r3 => r3.1

/-- The chain 0 - 1 - 2 built by two `SetParent` calls, then `SetParent` of 1 onto its
child 2. -/
def afterPromotion : Option World :=
  threeEntities.bind fun w0 =>
    (SetParent 3 w0 1 (some 0)).bind fun w1 =>
      (SetParent 3 w1 2 (some 1)).bind fun w2 =>
        SetParent 3 w2 1 (some 2)

/-! ## World-space setters -/

/-- Modelled from the spec: the operations of Math/Matrix.h, Math/Quaternion.h and
Math/Vector3.h that the world-space setters use.  None is part of the sources, so they are
parameters: what a matrix decomposes to, the inverse of a matrix, a vector times a matrix,
the product and inverse of rotations and the component-wise quotient of vectors. -/
structure MathOps where
  GetTranslation : Matrix → Vector3
  GetRotation : Matrix → Quaternion
  GetScale : Matrix → Vector3
  Inverted : Matrix → Matrix
  transform : Vector3 → Matrix → Vector3
  rotation_mul : Quaternion → Quaternion → Quaternion
  rotation_inverse : Quaternion → Quaternion
  scale_div : Vector3 → Vector3 → Vector3

/-- The matrix of an entity without parent that was moved and rotated but never scaled reads
back position zero before the move, the identity rotation before the rotation, and unit
scale: what decomposing a composed matrix gives. -/
def MathOps.ReadsBack (ops : MathOps) : Prop :=
  ops.GetTranslation (Matrix.trs ⟨0, 0, 0⟩ ⟨0, 0, 0, 1⟩ ⟨1, 1, 1⟩) = ⟨0, 0, 0⟩ ∧
  (∀ p, ops.GetRotation (Matrix.trs p ⟨0, 0, 0, 1⟩ ⟨1, 1, 1⟩) = ⟨0, 0, 0, 1⟩) ∧
  (∀ p r, ops.GetScale (Matrix.trs p r ⟨1, 1, 1⟩) = ⟨1, 1, 1⟩)

/-- An instance of the operations for evaluating examples: a composed matrix decomposes to
what it was composed from (and a product to what its left factor gives); the remaining
operations return their first argument. -/
def exampleOps : MathOps where
  GetTranslation := fun m =>
    match m with
    | Matrix.trs p _ _ => p
    | Matrix.mul (Matrix.trs p _ _) _ => p
    | _ => ⟨0, 0, 0⟩
  GetRotation := fun m =>
    match m with
    | Matrix.trs _ r _ => r
    | Matrix.mul (Matrix.trs _ r _) _ => r
    | _ => ⟨0, 0, 0, 1⟩
  GetScale := fun m =>
    match m with
    | Matrix.trs _ _ s => s
    | Matrix.mul (Matrix.trs _ _ s) _ => s
    | _ => ⟨1, 1, 1⟩
  Inverted := fun m => m
  transform := fun v _ => v
  rotation_mul := fun q _ => q
  rotation_inverse := fun q => q
  scale_div := fun v _ => v

/-- `Entity::SetPosition`. -/
def SetPosition (ops : MathOps) (fuel : Nat) (w : World) (self : Nat) (position : Vector3) :
    Option World :=
  if ops.GetTranslation (w.get self).matrix = position then some w
  else
    SetPositionLocal fuel w self
      (match (w.get self).parent with
      | none => position
      | some parent => ops.transform position (ops.Inverted (w.get parent).matrix))

/-- `Entity::SetRotation`. -/
def SetRotation (ops : MathOps) (fuel : Nat) (w : World) (self : Nat) (rotation : Quaternion) :
    Option World :=
  if ops.GetRotation (w.get self).matrix = rotation then some w
  else
    SetRotationLocal fuel w self
      (match (w.get self).parent with
      | none => rotation
      | some parent =>
        ops.rotation_mul rotation (ops.rotation_inverse (ops.GetRotation (w.get parent).matrix)))

/-- `Entity::SetScale`. -/
def SetScale (ops : MathOps) (fuel : Nat) (w : World) (self : Nat) (scale : Vector3) :
    Option World :=
  if ops.GetScale (w.get self).matrix = scale then some w
  else
    SetScaleLocal fuel w self
      (match (w.get self).parent with
      | none => scale
      | some parent => ops.scale_div scale (ops.GetScale (w.get parent).matrix))

/-! ## Components -/

/-- Modelled from the spec: `SpartanObject::SetObjectId` is not part of the sources; it
stores the identity. -/
def SetObjectId (w : World) (self : Nat) (id : Nat) : World :=
  w.set self { w.get self with object_id := id }

/-- Modelled from the spec: `SpartanObject::SetObjectName` is not part of the sources; it
stores the name. -/
def SetObjectName (w : World) (self : Nat) (name : String) : World :=
  w.set self { w.get self with object_name := name }

/-- `Entity::AddComponent(ComponentType)`.  Modelled from the spec: the template it
dispatches to is in Entity.h, which is not part of the sources; a slot holds at most one
instance per kind, so an occupied slot is kept and an empty one gets a new component, whose
attribute bag starts empty. -/
def AddComponent (w : World) (self : Nat) (type : ComponentType) : World :=
  match (w.get self).components.getD type.index none with
  | some _ => w
  | none =>
    w.set self { w.get self with
      components := (w.get self).components.set type.index
        (some { type := type, attributes := [] }) }

/-- Modelled from the spec: `Component::SetAttributes` is not part of the sources; the
component in the slot takes the bag. -/
def SetAttributes (w : World) (self : Nat) (type : ComponentType)
    (attributes : List (String × ℚ)) : World :=
  match (w.get self).components.getD type.index none with
  | none => w
  | some c =>
    w.set self { w.get self with
      components := (w.get self).components.set type.index
        (some { c with attributes := attributes }) }

/-! ## Cloning -/

/-- The loop of `clone_entity` over the components of the original. -/
def clone_components (entity_components : List (Option Component)) (w : World) (clone : Nat) :
    World :=
  entity_components.foldl
    (fun w1 component_original =>
      match component_original with
      | none => w1
      | some c => SetAttributes (AddComponent w1 clone c.type) clone c.type c.attributes)
    w

/-- The function `clone_entity`: a new entity with a new identity and the name, activity,
position, rotation, scale and components of `entity`; the result is the world and the
handle of the clone. -/
def clone_entity (ops : MathOps) (fuel : Nat) (w : World) (entity : Nat) :
    Option (World × Nat) :=
  match CreateEntity fuel w with
  | none => none
  | some (w1, clone) =>
    let w2 := SetObjectId (GenerateObjectId w1).1 clone (GenerateObjectId w1).2
    let w3 := SetObjectName w2 clone (w2.get entity).object_name
    match GetActive fuel w3 entity with
    | none => none
    | some active =>
      let w4 := SetActive w3 clone active
      match SetPosition ops fuel w4 clone (w4.get entity).position_local with
      | none => none
      | some w5 =>
        match SetRotation ops fuel w5 clone (w5.get entity).rotation_local with
        | none => none
        | some w6 =>
          match SetScale ops fuel w6 clone (w6.get entity).scale_local with
          | none => none
          | some w7 => some (clone_components (w7.get entity).components w7 clone, clone)

/-- The loop of `clone_entity_and_descendants`: `f` clones a child with its descendants and
`g` is `clone_child->SetParent(clone_self)`. -/
def forEachCloneM (f : World → Nat → Option (World × Nat)) (g : World → Nat → Option World) :
    List Nat → World → Option World
  | [], w => some w
  | child_transform :: rest, w =>
    match f w child_transform with
    | none => none
    | some (w1, clone_child) =>
      match g w1 clone_child with
      | none => none
      | some w2 => forEachCloneM f g rest w2

/-- The function `clone_entity_and_descendants`. -/
def clone_entity_and_descendants (ops : MathOps) : Nat → World → Nat → Option (World × Nat)
  | 0, _, _ => none
  | fuel + 1, w, entity =>
    match clone_entity ops fuel w entity with
    | none => none
    | some (w1, clone_self) =>
      match forEachCloneM (clone_entity_and_descendants ops fuel)
          (fun w2 clone_child => SetParent fuel w2 clone_child (some clone_self))
          (w1.get entity).children w1 with
      | none => none
      | some w3 => some (w3, clone_self)

/-- `Entity::Clone`. -/
def Clone (ops : MathOps) (fuel : Nat) (w : World) (self : Nat) : Option (World × Nat) :=
  clone_entity_and_descendants ops fuel w self

/-! ## Saving -/

/-- The value of the decimal text that `ss << x` writes for a positive float: a stream
formats a float with six significant digits unless told otherwise.  The mantissa is brought
between 10^5 and 10^6 and rounded to an integer (a tie, which needs a seven-digit value
ending in 5, rounds up). -/
def streamedPositive : Nat → ℚ → ℚ
  | 0, m => m
  | fuel + 1, m =>
    if 1000000 ≤ m then 10 * streamedPositive fuel (m / 10)
    else if m < 100000 then streamedPositive fuel (m * 10) / 10
    else ((⌊m + 1 / 2⌋ : ℤ) : ℚ)

/-- The value of the decimal text that `ss << x` writes for a float `x`. -/
def streamed (x : ℚ) : ℚ :=
  if x = 0 then 0
  else if 0 < x then streamedPositive 100 x
  else -streamedPositive 100 (-x)

/-- Run `f` on every handle of a list and collect the results; `none` as soon as one call
does not return. -/
def collectM {α : Type} (f : Nat → Option α) : List Nat → Option (List α)
  | [] => some []
  | c :: cs =>
    match f c with
    | none => none
    | some r =>
      match collectM f cs with
      | none => none
      | some rs => some (r :: rs)

/-- `Entity::Save`: the record written for the entity, with the records of its children
nested in children-list order. -/
def Save : Nat → World → Nat → Option Record
  | 0, _, _ => none
  | fuel + 1, w, self =>
    let e := w.get self
    match collectM (Save fuel w) e.children with
    | none => none
    | some children =>
      some (Record.mk e.object_name e.object_id e.is_active
        ⟨streamed e.position_local.x, streamed e.position_local.y, streamed e.position_local.z⟩
        ⟨streamed e.rotation_local.x, streamed e.rotation_local.y, streamed e.rotation_local.z,
          streamed e.rotation_local.w⟩
        ⟨streamed e.scale_local.x, streamed e.scale_local.y, streamed e.scale_local.z⟩
        children)

/-! ## Queries -/

/-- `Entity::GetChildByName`, by the loop over the children list `cs`. -/
def GetChildByName_loop (w : World) (name : String) : List Nat → Option Nat
  | [] => none
  | child :: cs =>
    if (w.get child).object_name = name then some child else GetChildByName_loop w name cs

/-- `Entity::GetChildByName`. -/
def GetChildByName (w : World) (self : Nat) (name : String) : Option Nat :=
  GetChildByName_loop w name (w.get self).children

/-- A range-for loop that threads the output vector. -/
def forEachOutM (f : List Nat → Nat → Option (List Nat)) :
    List Nat → List Nat → Option (List Nat)
  | [], out => some out
  | c :: cs, out =>
    match f out c with
    | none => none
    | some out1 => forEachOutM f cs out1

/-- `Entity::GetDescendants`; `descendants` is the vector the caller passes in. -/
def GetDescendants : Nat → World → Nat → List Nat → Option (List Nat)
  | 0, _, _, _ => none
  | fuel + 1, w, self, descendants =>
    forEachOutM
      (fun out child =>
        if (w.get child).children ≠ [] then GetDescendants fuel w child (out ++ [child])
        else some (out ++ [child]))
      (w.get self).children descendants

/-- `Entity::GetDescendantByName`: `none` when the call does not return, `some none` for the
null result. -/
def GetDescendantByName (fuel : Nat) (w : World) (self : Nat) (name : String) :
    Option (Option Nat) :=
  match GetDescendants fuel w self [] with
  | none => none
  | some descendants => some (GetChildByName_loop w name descendants)

/-! ## Reference notions for the queries and the clone -/

/-- The reference definition of `isDescendantOf` in the words of the spec: walk up the parent
references from `x`, at most `k` steps, comparing identities with `c`. -/
def IsDescendantOf_walkUp (w : World) : Nat → Nat → Nat → Bool
  | 0, _, _ => false
  | k + 1, x, c =>
    match (w.get x).parent with
    | none => false
    | some p =>
      if (w.get p).object_id = (w.get c).object_id then true
      else IsDescendantOf_walkUp w k p c

/-- `IsListedBelow w n x`: `x` is reached from `n` by going down children lists, one step
or more. -/
inductive IsListedBelow (w : World) : Nat → Nat → Prop
  | child {n x : Nat} : x ∈ (w.get n).children → IsListedBelow w n x
  | step {n p x : Nat} : IsListedBelow w n p → x ∈ (w.get p).children → IsListedBelow w n x

/-- The depth-first pre-order listing of what is below `n`, to depth `d`: each child, at once
followed by the listing of what is below it, the children in list order. -/
def preorder (w : World) : Nat → Nat → List Nat
  | 0, _ => []
  | d + 1, n => (w.get n).children.flatMap (fun c => c :: preorder w d c)

/-- The children lists form a tree: they are ranked, no list repeats an entry and no entity
is in two lists. -/
def World.ChildrenTree (w : World) (rank : Nat → Nat) : Prop :=
  w.ChildrenRanked rank ∧ (∀ a, (w.get a).children.Nodup) ∧
    ∀ a b c, c ∈ (w.get a).children → c ∈ (w.get b).children → a = b

/-- A tree of values, one per entity. -/
inductive Tree (α : Type) where
  | node (value : α) (children : List (Tree α)) : Tree α

/-- The tree below `n`, read through the children lists to depth `d`, with the value `f`
takes at every entity. -/
def treeOf {α : Type} (f : Entity → α) (w : World) : Nat → Nat → Option (Tree α)
  | 0, _ => none
  | d + 1, n =>
    match collectM (treeOf f w d) (w.get n).children with
    | none => none
    | some ts => some (Tree.node (f (w.get n)) ts)

/-- An inactive root 0 with an active child 1. -/
def inactiveRoot : World where
  size := 2
  next_id := 2
  get := fun k =>
    if k = 0 then { object_id := 0, is_active := false, children := [1] }
    else if k = 1 then { object_id := 1, parent := some 0 }
    else {}

/-- A root 0 with the children 1 and 3, where 2 is the child of 1; the entities 2 and 3 are
both named x. -/
def namedTree : World where
  size := 4
  next_id := 4
  get := fun k =>
    if k = 0 then { object_id := 0, object_name := "root", children := [1, 3] }
    else if k = 1 then { object_id := 1, object_name := "a", parent := some 0, children := [2] }
    else if k = 2 then { object_id := 2, object_name := "x", parent := some 1 }
    else if k = 3 then { object_id := 3, object_name := "x", parent := some 0 }
    else {}

/-- A root 0 with two children 1 and 2 that are both named x. -/
def twins : World where
  size := 3
  next_id := 3
  get := fun k =>
    if k = 0 then { object_id := 0, object_name := "root", children := [1, 2] }
    else if k = 1 then { object_id := 1, object_name := "x", parent := some 0 }
    else if k = 2 then { object_id := 2, object_name := "x", parent := some 0 }
    else {}

/-- One newly created entity whose position has seven significant digits. -/
def farEntity : Option World :=
  (CreateEntity 1 World.empty).bind fun r => SetPositionLocal 1 r.1 0 ⟨1234567, 0, 0⟩

/-- The scale that `SetScaleLocal` stores for a request: zero components replaced. -/
def storedScale (s : Vector3) : Vector3 :=
  ⟨if s.x = 0 then FLT_MIN else s.x, if s.y = 0 then FLT_MIN else s.y,
    if s.z = 0 then FLT_MIN else s.z⟩

/-- What a clone call that starts in `w` and ends in `w1` has done: it has added entities
behind new handles, the first of which has no parent, and advanced the identity generator;
the old entities are as they were, the children of a new entity are new entities with larger
handles, and the new identities are distinct values the generator handed out in between. -/
structure CloneFrame (w w1 : World) : Prop where
  size_lt : w.size < w1.size
  next_id_lt : w.next_id < w1.next_id
  old : ∀ k, k < w.size → w1.get k = w.get k
  root : (w1.get w.size).parent = none
  new_children : ∀ k, w.size ≤ k → k < w1.size →
    ∀ c ∈ (w1.get k).children, k < c ∧ c < w1.size
  new_ids : ∀ k, w.size ≤ k → k < w1.size →
    w.next_id ≤ (w1.get k).object_id ∧ (w1.get k).object_id < w1.next_id
  ids_inj : ∀ k1 k2, w.size ≤ k1 → k1 < w1.size → w.size ≤ k2 → k2 < w1.size →
    (w1.get k1).object_id = (w1.get k2).object_id → k1 = k2

/-- The state of the loop of `clone_entity_and_descendants`: `wb` is the world right after
`clone_entity` made the clone `c0`, `wc` the current world and `dn` the clones of the
children handled so far, which are the children of `c0`. -/
structure CloneLoopInv (wb wc : World) (c0 : Nat) (dn : List Nat) : Prop where
  size_lt : c0 < wc.size
  next_id_le : wb.next_id ≤ wc.next_id
  old : ∀ k, k < c0 → wc.get k = wb.get k
  self : wc.get c0 = { wb.get c0 with children := dn }
  done_lt : ∀ x ∈ dn, c0 < x ∧ x < wc.size
  new_children : ∀ k, c0 < k → k < wc.size → ∀ c ∈ (wc.get k).children, k < c ∧ c < wc.size
  new_ids : ∀ k, c0 < k → k < wc.size →
    wb.next_id ≤ (wc.get k).object_id ∧ (wc.get k).object_id < wc.next_id
  ids_inj : ∀ k1 k2, c0 < k1 → k1 < wc.size → c0 < k2 → k2 < wc.size →
    (wc.get k1).object_id = (wc.get k2).object_id → k1 = k2

/-- The value `f` reads from an entity depends neither on its parent reference and children
list nor on its matrices and counter. -/
def IgnoresLinks {α : Type} (f : Entity → α) : Prop :=
  ∀ (e : Entity) (par : Option Nat) (ch : List Nat) (ml m : Matrix) (t : ℚ),
    f { e with
      parent := par
      children := ch
      matrix_local := ml
      matrix := m
      time_since_last_transform_sec := t } = f e

/-! ## Null arguments -/

/-- Modelled from the spec: the macro `SP_ASSERT` is not part of the sources.  A failed
assertion trips in a build that has assertions enabled and is skipped otherwise; the value is
whether execution goes on to the next statement. -/
def SP_ASSERT (enabled : Bool) (expression : Bool) : Bool :=
  expression || !enabled

/-- `Entity::AddChild` with its pointer argument, which may be null: the assertion, then the
body, whose first statement reads `child->GetObjectId()`. -/
def AddChild_ptr (enabled : Bool) (w : World) (self : Nat) (child : Option Nat) :
    Outcome World :=
  if SP_ASSERT enabled child.isSome then
    match child with
    | none => Outcome.null_dereference
    | some c => Outcome.returned (AddChild w self c)
  else Outcome.assertion_failed

/-- `Entity::RemoveChild` with its pointer argument, which may be null: the assertion, then
the body, whose first statement reads `child->GetObjectId()`. -/
def RemoveChild_ptr (enabled : Bool) (fuel : Nat) (w : World) (self : Nat) (child : Option Nat)
    (update_child_with_null_parent : Bool) : Option (Outcome World) :=
  if SP_ASSERT enabled child.isSome then
    match child with
    | none => some Outcome.null_dereference
    | some c => RemoveChild fuel w self c update_child_with_null_parent
  else some Outcome.assertion_failed

/-- `Entity::IsDescendantOf` with its pointer argument, which may be null: the assertion,
then the body, which returns `false` for an entity without parent before it reads
`transform->GetObjectId()`. -/
def IsDescendantOf_ptr (enabled : Bool) (fuel : Nat) (w : World) (self : Nat)
    (transform : Option Nat) : Option (Outcome Bool) :=
  if SP_ASSERT enabled transform.isSome then
    match transform with
    | some t => (IsDescendantOf fuel w self t).map Outcome.returned
    | none =>
      match (w.get self).parent with
      | none => some (Outcome.returned false)
      | some _ => some Outcome.null_dereference
  else some Outcome.assertion_failed

/-! ## The post-condition of `UpdateTransform` -/

/-- The matrices of entity `k` are up to date and its counter is zero: the local matrix is
composed from the local position, rotation and scale, and the world matrix is the local
matrix times the world matrix of the parent (the local matrix when there is no parent). -/
def World.JustUpdated (w : World) (k : Nat) : Prop :=
  (w.get k).matrix_local =
      Matrix.trs (w.get k).position_local (w.get k).rotation_local (w.get k).scale_local ∧
    (w.get k).matrix =
      (match (w.get k).parent with
      | some p => Matrix.mul (w.get k).matrix_local (w.get p).matrix
      | none => (w.get k).matrix_local) ∧
    (w.get k).time_since_last_transform_sec = 0

/-- A root 0 that lists 1 and 2 as its children while the parent reference of 1 is 2: the
children lists form a tree.  It is the state in which `SetPositionLocal` calls
`UpdateTransform` on 0 after three new entities went through `1.SetParent(2)`,
`2.RemoveChild(1, false)`, `0.AddChild(1)`, `2.SetParent(0)` and the position of 0 was set
to (1, 0, 0). -/
def crossLinked : World where
  size := 3
  next_id := 3
  get := fun k =>
    if k = 0 then
      { object_id := 0, position_local := ⟨1, 0, 0⟩, children := [1, 2],
        matrix_local := Matrix.trs ⟨0, 0, 0⟩ ⟨0, 0, 0, 1⟩ ⟨1, 1, 1⟩,
        matrix := Matrix.trs ⟨0, 0, 0⟩ ⟨0, 0, 0, 1⟩ ⟨1, 1, 1⟩ }
    else if k = 1 then
      { object_id := 1, parent := some 2,
        matrix_local := Matrix.trs ⟨0, 0, 0⟩ ⟨0, 0, 0, 1⟩ ⟨1, 1, 1⟩,
        matrix := Matrix.mul (Matrix.trs ⟨0, 0, 0⟩ ⟨0, 0, 0, 1⟩ ⟨1, 1, 1⟩)
          (Matrix.trs ⟨0, 0, 0⟩ ⟨0, 0, 0, 1⟩ ⟨1, 1, 1⟩) }
    else if k = 2 then
      { object_id := 2, parent := some 0,
        matrix_local := Matrix.trs ⟨0, 0, 0⟩ ⟨0, 0, 0, 1⟩ ⟨1, 1, 1⟩,
        matrix := Matrix.mul (Matrix.trs ⟨0, 0, 0⟩ ⟨0, 0, 0, 1⟩ ⟨1, 1, 1⟩)
          (Matrix.trs ⟨0, 0, 0⟩ ⟨0, 0, 0, 1⟩ ⟨1, 1, 1⟩) }
    else {}

/-! ## What `SetParent` leaves alone -/

/-- The entity `e2` differs from `e1` at most in its parent reference, its children list,
its two matrices and its counter. -/
def Entity.SameButLinks (e1 e2 : Entity) : Prop :=
  e2 = { e1 with
    parent := e2.parent, children := e2.children,
    matrix_local := e2.matrix_local, matrix := e2.matrix,
    time_since_last_transform_sec := e2.time_since_last_transform_sec }

/-- The world `w2` has the entities of `w1`, each changed at most in its links, its matrices
and its counter. -/
def World.SameButLinks (w1 w2 : World) : Prop :=
  w2.size = w1.size ∧ w2.next_id = w1.next_id ∧ ∀ k, (w1.get k).SameButLinks (w2.get k)

/-- The world in which `SetParent_relink` calls `UpdateTransform`: the entity has left the
children list of the old parent, joined that of the new one and stored the new parent. -/
def relinked (w : World) (self : Nat) (parent new_parent_in : Option Nat) : World :=
  let w1 :=
    match parent with
    | some p => RemoveChild_false w p self
    | none => w
  let w2 :=
    match new_parent_in with
    | some new_parent => AddChild w1 new_parent self
    | none => w1
  w2.set self { w2.get self with parent := new_parent_in }

/-! ## States reached by `SetParent` -/

/-- The children lists hold registered entities, each entry has its lister as parent
reference, no list repeats an entry, and the lists are ranked; identities are distinct and
parent references are registered entities. -/
structure World.ListsForest (w : World) : Prop where
  distinct : w.DistinctIds
  entries_lt : ∀ a c, c ∈ (w.get a).children → c < w.size
  parents_lt : ∀ a p, (w.get a).parent = some p → p < w.size
  back : ∀ a c, c ∈ (w.get a).children → (w.get c).parent = some a
  nodup : ∀ a, (w.get a).children.Nodup
  ranked : ∃ rank, w.ChildrenRanked rank

/-- The states reached from entities without parent and without children, with pairwise
distinct identities, by `SetParent` calls on registered entities with a registered entity or
nothing as the new parent. -/
inductive SetParentReachable : World → Prop
  | init (w : World) : w.DistinctIds →
      (∀ k, (w.get k).parent = none ∧ (w.get k).children = []) → SetParentReachable w
  | step (w w1 : World) (fuel N : Nat) (Q : Option Nat) : SetParentReachable w → N < w.size →
      (∀ q, Q = some q → q < w.size) → SetParent fuel w N Q = some w1 → SetParentReachable w1

/-- Three entities with the identities 0, 1 and 2, without parent and without children. -/
def threeRoots : World where
  size := 3
  next_id := 3
  get := fun k =>
    if k = 0 then { object_id := 0 }
    else if k = 1 then { object_id := 1 }
    else if k = 2 then { object_id := 2 }
    else {}

/-! ## Rebuilding the children lists -/

/-- `Entity::AcquireChildren`; the scan goes over the handles of the registry in registry
order. -/
def AcquireChildren : Nat → World → Nat → Option World
  | 0, _, _ => none
  | fuel + 1, w, self =>
    let w1 := w.set self { w.get self with children := [] }
    forEachM
      (fun w2 possible_child =>
        match (w2.get possible_child).parent with
        | none => some w2
        | some parent =>
          if (w2.get possible_child).object_id = (w2.get self).object_id then some w2
          else if (w2.get parent).object_id = (w2.get self).object_id then
            AcquireChildren fuel
              (w2.set self { w2.get self with
                children := (w2.get self).children ++ [possible_child] })
              possible_child
          else some w2)
      (List.range w1.size) w1

/-- Whether `k` is another entity than `x` whose parent has the identity of `x`. -/
def isChildByParent (w : World) (x k : Nat) : Bool :=
  decide (k ≠ x) &&
    match (w.get k).parent with
    | some p => decide ((w.get p).object_id = (w.get x).object_id)
    | none => false

/-- The children of `x` as the parent references give them: the registered entities other
than `x` whose parent has the identity of `x`, in registry order. -/
def childrenByParent (w : World) (x : Nat) : List Nat :=
  (List.range w.size).filter (isChildByParent w x)

/-- Every parent reference of a registered entity is a registered entity. -/
def World.ValidParents (w : World) : Prop :=
  ∀ a, a < w.size → ∀ p ∈ (w.get a).parent, p < w.size

instance (w : World) : Decidable w.ValidParents := by
  unfold World.ValidParents; infer_instance

/-- The world `w` has the size, the parent references and the identities of `w0`. -/
def SameParents (w0 w : World) : Prop :=
  w.size = w0.size ∧
    ∀ k, (w.get k).parent = (w0.get k).parent ∧ (w.get k).object_id = (w0.get k).object_id

/-- The entity `e2` differs from `e1` at most in its children list. -/
def Entity.SameButChildren (e1 e2 : Entity) : Prop :=
  e2 = { e1 with children := e2.children }

/-! ## The slot table -/

/-- The slot table is well formed: it has six slots and a component sits in the slot of its
kind. -/
def SlotsWellFormed (slots : List (Option Component)) : Prop :=
  slots.length = 6 ∧ ∀ i, i < 6 → ∀ comp ∈ slots.getD i none, comp.type.index = i

instance (slots : List (Option Component)) : Decidable (SlotsWellFormed slots) := by
  unfold SlotsWellFormed; infer_instance

/-- The state of the registry while a record is loaded, `B` being the first handle created
by the load: children lists of registered entities hold registered entities, and the list of
an entity created by the load holds entities created after it. -/
structure LoadInv (B : Nat) (w : World) : Prop where
  entries_lt : ∀ k, k < w.size → ∀ c ∈ (w.get k).children, c < w.size
  fresh_up : ∀ k, B ≤ k → k < w.size → ∀ c ∈ (w.get k).children, k < c

mutual
/-- The number of records in a record tree: the record itself and all nested records. -/
def Record.count : Record → Nat
  | Record.mk _ _ _ _ _ _ children => 1 + Record.countList children
/-- The number of records in a list of record trees. -/
def Record.countList : List Record → Nat
  | [] => 0
  | r :: rs => r.count + Record.countList rs
end

mutual
/-- The identities stored in a record tree: that of the record and those of all nested
records. -/
def Record.ids : Record → List Nat
  | Record.mk _ id _ _ _ _ children => id :: Record.idsList children
/-- The identities stored in a list of record trees. -/
def Record.idsList : List Record → List Nat
  | [] => []
  | r :: rs => r.ids ++ Record.idsList rs
end

/-- The name, identity, activity flag and local position, rotation and scale stored in a
record. -/
def Record.values : Record → String × Nat × Bool × Vector3 × Quaternion × Vector3
  | Record.mk name id active position rotation scale _ =>
    (name, id, active, position, rotation, scale)

/-- The name, identity, stored activity flag and local position, rotation and scale of an
entity. -/
def Entity.loadedValues (e : Entity) : String × Nat × Bool × Vector3 × Quaternion × Vector3 :=
  (e.object_name, e.object_id, e.is_active, e.position_local, e.rotation_local, e.scale_local)

/-- The handles of the entities that the loop of `Load` creates for the child records, in
record order, `base` being the size of the registry when the loop starts: every child
record is followed by the entities of its own nested records. -/
def childHandles : Nat → List Record → List Nat
  | _, [] => []
  | base, r :: rs => base :: childHandles (base + r.count) rs

/-- What a run of the loop of `Load` that starts in `w` and ends in `w1` leaves of the
entities registered in `w`: they change in links and matrices only, keep their parent, get
at most new entities appended to their children list, and keep the list when their identity
is none of `ids`. -/
structure LoadFrame (w w1 : World) (ids : List Nat) : Prop where
  links : ∀ k, k < w.size → (w.get k).SameButLinks (w1.get k)
  parent_eq : ∀ k, k < w.size → (w1.get k).parent = (w.get k).parent
  children_ext : ∀ k, k < w.size →
    ∃ extra, (w1.get k).children = (w.get k).children ++ extra ∧ ∀ c ∈ extra, w.size ≤ c
  untouched : ∀ k, k < w.size → (w.get k).object_id ∉ ids →
    (w1.get k).children = (w.get k).children

/-! ## Lock scopes of `AcquireChildren` -/

/-- The lock events of `Entity::AcquireChildren`, `none` when the call does not return: the
guard on `m_mutex_children` is declared first and its scope is the whole function, the
recursive calls included.  The scan reads parent references and identities only, which
`AcquireChildren` does not write, so the events are read off the world the call starts
in. -/
def AcquireChildren_locks : Nat → World → Nat → Option (List LockEvent)
  | 0, _, _ => none
  | fuel + 1, w, self =>
    match collectM
        (fun possible_child =>
          match (w.get possible_child).parent with
          | none => some []
          | some parent =>
            if (w.get possible_child).object_id = (w.get self).object_id then some []
            else if (w.get parent).object_id = (w.get self).object_id then
              AcquireChildren_locks fuel w possible_child
            else some [])
        (List.range w.size) with
    | none => none
    | some events => some (guarded self LockKind.children events.flatten)

/-- The largest number of locks held at one time during a sequence of events that starts
with `depth` locks held. -/
def maxHeld : Nat → List LockEvent → Nat
  | depth, [] => depth
  | depth, LockEvent.acquire _ _ :: rest => maxHeld (depth + 1) rest
  | depth, LockEvent.release _ _ :: rest => max depth (maxHeld (depth - 1) rest)

/-! # Supporting lemmas -/

/-! ## The registry as a store -/

@[simp] theorem World.get_set (w : World) (k j : Nat) (e : Entity) :
    (w.set k e).get j = if j = k then e else w.get j := rfl

@[simp] theorem World.size_set (w : World) (k : Nat) (e : Entity) :
    (w.set k e).size = w.size := rfl

@[simp] theorem World.next_id_set (w : World) (k : Nat) (e : Entity) :
    (w.set k e).next_id = w.next_id := rfl

theorem Entity.SameButTransform.refl_entity (e : Entity) : e.SameButTransform e := by
  cases e; rfl

theorem Entity.SameButTransform.trans_entity {e1 e2 e3 : Entity} (h12 : e1.SameButTransform e2)
    (h23 : e2.SameButTransform e3) : e1.SameButTransform e3 := by
  unfold Entity.SameButTransform at *
  cases e1; cases e2; cases e3
  simp only [Entity.mk.injEq] at *
  simp [h12, h23]

theorem Entity.SameButTransform.parent_eq {e1 e2 : Entity} (h : e1.SameButTransform e2) :
    e2.parent = e1.parent := by
  unfold Entity.SameButTransform at h
  cases e1; cases e2
  simp only [Entity.mk.injEq] at h
  simp [h]

theorem Entity.SameButTransform.children_eq {e1 e2 : Entity} (h : e1.SameButTransform e2) :
    e2.children = e1.children := by
  unfold Entity.SameButTransform at h
  cases e1; cases e2
  simp only [Entity.mk.injEq] at h
  simp [h]

theorem Entity.SameButTransform.object_id_eq {e1 e2 : Entity} (h : e1.SameButTransform e2) :
    e2.object_id = e1.object_id := by
  unfold Entity.SameButTransform at h
  cases e1; cases e2
  simp only [Entity.mk.injEq] at h
  simp [h]

theorem Entity.SameButTransform.scale_local_eq {e1 e2 : Entity} (h : e1.SameButTransform e2) :
    e2.scale_local = e1.scale_local := by
  unfold Entity.SameButTransform at h
  cases e1; cases e2
  simp only [Entity.mk.injEq] at h
  simp [h]

theorem Entity.SameButTransform.is_active_eq {e1 e2 : Entity} (h : e1.SameButTransform e2) :
    e2.is_active = e1.is_active := by
  unfold Entity.SameButTransform at h
  cases e1; cases e2
  simp only [Entity.mk.injEq] at h
  simp [h]

theorem World.SameButTransform.refl_world (w : World) : w.SameButTransform w :=
  ⟨rfl, rfl, fun k => Entity.SameButTransform.refl_entity (w.get k)⟩

theorem World.SameButTransform.trans_world {w1 w2 w3 : World} (h12 : w1.SameButTransform w2)
    (h23 : w2.SameButTransform w3) : w1.SameButTransform w3 :=
  ⟨h23.1.trans h12.1, h23.2.1.trans h12.2.1, fun k => (h12.2.2 k).trans_entity (h23.2.2 k)⟩

/-- A loop whose every iteration keeps a reflexive, transitive relation to the world it
started from keeps it as a whole. -/
theorem forEachM_rel (R : World → World → Prop) (hrefl : ∀ w, R w w)
    (htrans : ∀ w1 w2 w3, R w1 w2 → R w2 w3 → R w1 w3)
    (f : World → Nat → Option World) (cs : List Nat)
    (hf : ∀ w c w1, c ∈ cs → f w c = some w1 → R w w1) :
    ∀ w w1, forEachM f cs w = some w1 → R w w1 := by
  induction cs with
  | nil =>
    intro w w1 h
    simp only [forEachM, Option.some.injEq] at h
    exact h ▸ hrefl w
  | cons c cs ih =>
    intro w w1 h
    simp only [forEachM] at h
    cases hc : f w c with
    | none => simp [hc] at h
    | some w2 =>
      simp only [hc] at h
      exact htrans _ _ _ (hf w c w2 (List.mem_cons_self c cs) hc)
        (ih (fun w c w1 hmem => hf w c w1 (List.mem_cons_of_mem _ hmem)) w2 w1 h)

/-- A loop returns when every iteration returns from any world satisfying an invariant that
the iterations maintain. -/
theorem forEachM_returns (P : World → Prop) (f : World → Nat → Option World) (cs : List Nat)
    (hf : ∀ w c, c ∈ cs → P w → ∃ w1, f w c = some w1 ∧ P w1) :
    ∀ w, P w → ∃ w1, forEachM f cs w = some w1 ∧ P w1 := by
  induction cs with
  | nil => intro w hw; exact ⟨w, rfl, hw⟩
  | cons c cs ih =>
    intro w hw
    obtain ⟨w2, h2, hP2⟩ := hf w c (List.mem_cons_self c cs) hw
    obtain ⟨w3, h3, hP3⟩ := ih (fun w c hmem => hf w c (List.mem_cons_of_mem _ hmem)) w2 hP2
    exact ⟨w3, by simp [forEachM, h2, h3], hP3⟩

/-- `UpdateTransform` writes nothing but matrices and counters. -/
theorem UpdateTransform_frame : ∀ (fuel : Nat) (w : World) (self : Nat) (w1 : World),
    UpdateTransform fuel w self = some w1 → w.SameButTransform w1 := by
  intro fuel
  induction fuel with
  | zero => intro w self w1 h; simp [UpdateTransform] at h
  | succ fuel ih =>
    intro w self w1 h
    simp only [UpdateTransform] at h
    refine World.SameButTransform.trans_world ?_
      (forEachM_rel World.SameButTransform World.SameButTransform.refl_world
        (fun _ _ _ => World.SameButTransform.trans_world) _ _ (fun w c w1 _ => ih w c w1) _ _ h)
    refine ⟨rfl, rfl, fun k => ?_⟩
    by_cases hk : k = self
    · subst hk
      simp [Entity.SameButTransform]
    · simp [hk, Entity.SameButTransform.refl_entity]

/-- `UpdateTransform` returns when the children lists below the entity are ranked: on a set
`S` of handles closed under taking children, every child has a smaller rank than the entity
that lists it. -/
theorem UpdateTransform_returns (S : Nat → Prop) (rank : Nat → Nat) :
    ∀ (fuel : Nat) (w : World) (self : Nat),
      (∀ a c, S a → c ∈ (w.get a).children → S c ∧ rank c < rank a) →
      S self → rank self < fuel → ∃ w1, UpdateTransform fuel w self = some w1 := by
  intro fuel
  induction fuel with
  | zero => intro w self _ _ h; omega
  | succ fuel ih =>
    intro w self hS hself hfuel
    simp only [UpdateTransform]
    have key := forEachM_returns
      (fun w2 => ∀ k, (w2.get k).children = (w.get k).children)
      (UpdateTransform fuel) (w.get self).children
      (fun w2 c hc hP => by
        have hc2 := hS self c hself hc
        obtain ⟨w3, h3⟩ := ih w2 c (fun a d ha hd => hS a d ha (by rw [← hP a]; exact hd))
          hc2.1 (by omega)
        refine ⟨w3, h3, fun k => ?_⟩
        rw [← hP k]
        exact ((UpdateTransform_frame fuel w2 c w3 h3).2.2 k).children_eq)
    have hset : ∀ k, ((w.set self
        { w.get self with
          matrix_local := Matrix.trs (w.get self).position_local (w.get self).rotation_local
            (w.get self).scale_local,
          matrix := (match (w.get self).parent with
            | some p => Matrix.mul (Matrix.trs (w.get self).position_local
                (w.get self).rotation_local (w.get self).scale_local) (w.get p).matrix
            | none => Matrix.trs (w.get self).position_local (w.get self).rotation_local
                (w.get self).scale_local),
          time_since_last_transform_sec := 0 }).get k).children = (w.get k).children := by
      intro k
      by_cases hk : k = self
      · subst hk; simp
      · simp [hk]
    obtain ⟨w1, h1, _⟩ := key _ hset
    refine ⟨w1, ?_⟩
    have hself_children := hset self
    simp only [World.get_set, if_true] at hself_children ⊢
    exact h1

/-! ## Walking up -/

theorem reachesRoot_succ (w : World) : ∀ (k n : Nat),
    reachesRoot w k n = true → reachesRoot w (k + 1) n = true := by
  intro k
  induction k with
  | zero =>
    intro n h
    simp only [reachesRoot] at h ⊢
    cases hp : (w.get n).parent with
    | none => rfl
    | some p => simp [hp] at h
  | succ k ih =>
    intro n h
    rw [reachesRoot] at h ⊢
    cases hp : (w.get n).parent with
    | none => rfl
    | some p =>
      simp only [hp] at h ⊢
      exact ih p h

theorem depth_le (w : World) : ∀ (k n : Nat), depth w k n ≤ k := by
  intro k
  induction k with
  | zero => intro n; simp [depth]
  | succ k ih =>
    intro n
    rw [depth]
    cases hp : (w.get n).parent with
    | none => simp
    | some p => simp only; have := ih p; omega

theorem depth_succ (w : World) : ∀ (k n : Nat),
    reachesRoot w k n = true → depth w (k + 1) n = depth w k n := by
  intro k
  induction k with
  | zero =>
    intro n h
    simp only [reachesRoot] at h
    cases hp : (w.get n).parent with
    | none => simp [depth, hp]
    | some p => simp [hp] at h
  | succ k ih =>
    intro n h
    rw [reachesRoot] at h
    rw [depth, depth]
    cases hp : (w.get n).parent with
    | none => rfl
    | some p =>
      simp only [hp] at h ⊢
      rw [ih p h]

/-- In an acyclic world the parent is strictly nearer to its root than the child. -/
theorem World.Acyclic.depth_parent_lt {w : World} (hac : w.Acyclic) {a p : Nat}
    (ha : a < w.size) (hp : (w.get a).parent = some p) :
    depth w w.size p < depth w w.size a := by
  have h := hac a ha
  cases hs : w.size with
  | zero => omega
  | succ k =>
    rw [hs] at h
    rw [reachesRoot] at h
    simp only [hp] at h
    rw [depth_succ w k p h]
    conv_rhs => rw [depth]
    simp [hp]

theorem World.height_le (w : World) (n : Nat) : w.height n ≤ w.size := by
  unfold World.height; omega

/-- In a consistent acyclic world with valid handles the registered entities are closed under
taking children and every child ranks below the entity that lists it. -/
theorem World.height_child_lt {w : World} (hv : w.ValidHandles) (hc : w.Consistent)
    (hac : w.Acyclic) {a c : Nat} (ha : a < w.size) (hmem : c ∈ (w.get a).children) :
    c < w.size ∧ w.height c < w.height a := by
  have hcs : c < w.size := (hv a ha).2 c hmem
  have hpar : (w.get c).parent = some a := (hc c hcs a ha).2 hmem
  have hlt := hac.depth_parent_lt hcs hpar
  have hle := depth_le w w.size c
  refine ⟨hcs, ?_⟩
  unfold World.height
  omega

/-! ## Ancestors -/

theorem IsAncestor.of_parent_of_ancestor {w : World} {t c x : Nat}
    (hct : (w.get c).parent = some t) (h : IsAncestor w c x) : IsAncestor w t x := by
  induction h with
  | parent hx => exact IsAncestor.step hx (IsAncestor.parent hct)
  | step hx _ ih => exact IsAncestor.step hx ih

theorem IsAncestor.child_of_top {w : World} {t x : Nat} (h : IsAncestor w t x) :
    (w.get x).parent = some t ∨ ∃ c, (w.get c).parent = some t ∧ IsAncestor w c x := by
  induction h with
  | parent hx => exact Or.inl hx
  | step hx hp ih =>
    rcases ih with h1 | ⟨c, hc, hcx⟩
    · exact Or.inr ⟨_, h1, IsAncestor.parent hx⟩
    · exact Or.inr ⟨c, hc, IsAncestor.step hx hcx⟩

theorem IsAncestor.lt_size {w : World} (hv : w.ValidHandles) {a x : Nat}
    (h : IsAncestor w a x) (hx : x < w.size) : a < w.size := by
  induction h with
  | parent hp => exact (hv _ hx).1 _ (by simp [hp])
  | step hp _ ih => exact ih ((hv _ hx).1 _ (by simp [hp]))

theorem IsAncestor.inv {w : World} {a x p : Nat} (hp : (w.get x).parent = some p)
    (h : IsAncestor w a x) : a = p ∨ IsAncestor w a p := by
  cases h with
  | parent hx => left; rw [hp] at hx; exact (Option.some.inj hx).symm
  | step hx h2 => right; rw [hp] at hx; cases hx; exact h2

theorem IsAncestor.depth_lt {w : World} (hv : w.ValidHandles) (hac : w.Acyclic) {a x : Nat}
    (h : IsAncestor w a x) (hx : x < w.size) : depth w w.size a < depth w w.size x := by
  induction h with
  | parent hp => exact hac.depth_parent_lt hx hp
  | step hp _ ih =>
    have := ih ((hv _ hx).1 _ (by simp [hp]))
    have := hac.depth_parent_lt hx hp
    omega

theorem IsAncestor.ne {w : World} (hv : w.ValidHandles) (hac : w.Acyclic) {a x : Nat}
    (h : IsAncestor w a x) (hx : x < w.size) : a ≠ x := by
  intro e
  have := h.depth_lt hv hac hx
  rw [e] at this
  omega

theorem IsAncestor.trans_ancestor {w : World} {a b x : Nat} (hab : IsAncestor w a b)
    (hbx : IsAncestor w b x) : IsAncestor w a x := by
  induction hbx with
  | parent hx => exact IsAncestor.step hx hab
  | step hx _ ih => exact IsAncestor.step hx ih

/-! ## `IsDescendantOf` -/

theorem anyChildM_spec (f : Nat → Option Bool) (P : Nat → Prop) (cs : List Nat)
    (h : ∀ c ∈ cs, ∃ b, f c = some b ∧ (b = true ↔ P c)) :
    ∃ b, anyChildM f cs = some b ∧ (b = true ↔ ∃ c ∈ cs, P c) := by
  induction cs with
  | nil => exact ⟨false, rfl, by simp⟩
  | cons c cs ih =>
    obtain ⟨b, hb, hbP⟩ := h c (List.mem_cons_self c cs)
    obtain ⟨b2, hb2, hb2P⟩ := ih (fun d hd => h d (List.mem_cons_of_mem _ hd))
    cases b with
    | true =>
      refine ⟨true, by simp [anyChildM, hb], ?_⟩
      simp only [true_iff]
      exact ⟨c, List.mem_cons_self c cs, hbP.1 rfl⟩
    | false =>
      refine ⟨b2, by simp [anyChildM, hb, hb2], ?_⟩
      rw [hb2P]
      constructor
      · rintro ⟨d, hd, hPd⟩
        exact ⟨d, List.mem_cons_of_mem _ hd, hPd⟩
      · rintro ⟨d, hd, hPd⟩
        rcases List.mem_cons.1 hd with e | hd2
        · subst e
          have := hbP.2 hPd
          simp at this
        · exact ⟨d, hd2, hPd⟩

/-- In a consistent acyclic world with distinct identities `IsDescendantOf` returns, and
returns `true` exactly for the proper descendants of `transform`. -/
theorem IsDescendantOf_spec {w : World} (hv : w.ValidHandles) (hid : w.DistinctIds)
    (hc : w.Consistent) (hac : w.Acyclic) :
    ∀ (fuel self transform : Nat), self < w.size → transform < w.size →
      w.height transform < fuel →
      ∃ b, IsDescendantOf fuel w self transform = some b ∧
        (b = true ↔ IsAncestor w transform self) := by
  intro fuel
  induction fuel with
  | zero => intro self transform _ _ h; omega
  | succ fuel ih =>
    intro self transform hs ht hfuel
    rw [IsDescendantOf]
    cases hp : (w.get self).parent with
    | none =>
      refine ⟨false, rfl, ?_⟩
      simp only [Bool.false_eq_true, false_iff]
      intro h
      cases h with
      | parent hx => rw [hp] at hx; cases hx
      | step hx _ => rw [hp] at hx; cases hx
    | some p =>
      have hps : p < w.size := (hv self hs).1 p (by simp [hp])
      simp only
      by_cases hid2 : (w.get p).object_id = (w.get transform).object_id
      · have e : p = transform := hid p hps transform ht hid2
        subst e
        exact ⟨true, by simp, by simp; exact IsAncestor.parent hp⟩
      · have hne : p ≠ transform := fun e => hid2 (by rw [e])
        simp only [hid2, if_false]
        obtain ⟨b, hb, hbP⟩ := anyChildM_spec (fun child => IsDescendantOf fuel w self child)
          (fun c => IsAncestor w c self) (w.get transform).children
          (fun c hcm => by
            have h2 := World.height_child_lt hv hc hac ht hcm
            exact ih self c hs h2.1 (by omega))
        refine ⟨b, hb, ?_⟩
        rw [hbP]
        constructor
        · rintro ⟨c, hcm, hcs⟩
          have hcs2 : c < w.size := (hv transform ht).2 c hcm
          exact IsAncestor.of_parent_of_ancestor ((hc c hcs2 transform ht).2 hcm) hcs
        · intro h
          rcases h.child_of_top with h1 | ⟨c, hct, hcx⟩
          · rw [hp] at h1
            exact absurd (Option.some.inj h1) hne
          · have hcs2 : c < w.size := hcx.lt_size hv hs
            exact ⟨c, (hc c hcs2 transform ht).1 hct, hcx⟩

/-! ## The list primitives -/

theorem RemoveChild_false_get {w : World} {self child : Nat}
    (hne : (w.get child).object_id ≠ (w.get self).object_id) (k : Nat) :
    (RemoveChild_false w self child).get k =
      if k = self then
        { w.get self with
          children := (w.get self).children.filter
            (fun v => (w.get v).object_id ≠ (w.get child).object_id) }
      else w.get k := by
  simp [RemoveChild_false, hne]

theorem AddChild_get {w : World} {self child : Nat}
    (hne : (w.get child).object_id ≠ (w.get self).object_id)
    (hnm : child ∉ (w.get self).children) (k : Nat) :
    (AddChild w self child).get k =
      if k = self then { w.get self with children := (w.get self).children ++ [child] }
      else w.get k := by
  simp [AddChild, hne, hnm]

/-- With distinct identities, erasing by identity erases by handle. -/
theorem filter_object_id {w : World} (hv : w.ValidHandles) (hid : w.DistinctIds)
    {p child : Nat} (hp : p < w.size) (hchild : child < w.size) :
    (w.get p).children.filter (fun v => (w.get v).object_id ≠ (w.get child).object_id) =
      (w.get p).children.filter (fun v => v ≠ child) := by
  apply List.filter_congr
  intro v hvm
  have hvs : v < w.size := (hv p hp).2 v hvm
  by_cases e : v = child
  · subst e; simp
  · have : (w.get v).object_id ≠ (w.get child).object_id := fun h => e (hid v hvs child hchild h)
    simp [e, this]

theorem object_id_ne {w : World} (hid : w.DistinctIds) {a b : Nat} (ha : a < w.size)
    (hb : b < w.size) (hne : a ≠ b) : (w.get a).object_id ≠ (w.get b).object_id :=
  fun h => hne (hid a ha b hb h)

/-- The subtree below `self` is ranked by `World.height`, also after the children lists of
entities outside the subtree were changed. -/
theorem subtree_ranked {w : World} (hv : w.ValidHandles) (hc : w.Consistent)
    (hac : w.Acyclic) (self : Nat) (w4 : World)
    (hsub : ∀ a, a < w.size → (a = self ∨ IsAncestor w self a) →
      ∀ c ∈ (w4.get a).children, c ∈ (w.get a).children) :
    ∀ a c, (a < w.size ∧ (a = self ∨ IsAncestor w self a)) → c ∈ (w4.get a).children →
      (c < w.size ∧ (c = self ∨ IsAncestor w self c)) ∧ w.height c < w.height a := by
  intro a c ⟨ha, hS⟩ hcm
  have hcm2 := hsub a ha hS c hcm
  have h2 := World.height_child_lt hv hc hac ha hcm2
  have hpar : (w.get c).parent = some a := (hc c h2.1 a ha).2 hcm2
  refine ⟨⟨h2.1, Or.inr ?_⟩, h2.2⟩
  rcases hS with e | h
  · subst e; exact IsAncestor.parent hpar
  · exact IsAncestor.step hpar h

/-! ## `RemoveChild` -/

theorem promote_loop_links (fuel self : Nat) (P : Option Nat) :
    ∀ (cs : List Nat) (cur w1 : World),
      forEachM
        (fun w1 child =>
          UpdateTransform fuel
            (w1.set child { w1.get child with parent := (w1.get self).parent }) child)
        cs cur = some w1 →
      (cur.get self).parent = P →
      w1.size = cur.size ∧ ∀ k, (w1.get k).object_id = (cur.get k).object_id ∧
        (w1.get k).children = (cur.get k).children ∧
        (w1.get k).parent = if k ∈ cs then P else (cur.get k).parent := by
  intro cs
  induction cs with
  | nil =>
    intro cur w1 h _
    simp only [forEachM, Option.some.injEq] at h
    subst h
    simp
  | cons c cs ih =>
    intro cur w1 h hP
    simp only [forEachM] at h
    cases h2 : UpdateTransform fuel
        (cur.set c { cur.get c with parent := (cur.get self).parent }) c with
    | none => simp [h2] at h
    | some w2 =>
      simp only [h2] at h
      have hfr := UpdateTransform_frame _ _ _ _ h2
      have hpar2 : ∀ k, (w2.get k).parent = if k = c then P else (cur.get k).parent := by
        intro k
        rw [(hfr.2.2 k).parent_eq]
        by_cases e : k = c
        · subst e; simp [hP]
        · simp [e]
      have hself2 : (w2.get self).parent = P := by
        rw [hpar2]
        by_cases e : self = c
        · simp [e]
        · simp [e, hP]
      obtain ⟨hsz, hk⟩ := ih w2 w1 h hself2
      refine ⟨by rw [hsz, hfr.1]; rfl, fun k => ?_⟩
      obtain ⟨h1, h2, h3⟩ := hk k
      refine ⟨?_, ?_, ?_⟩
      · rw [h1, (hfr.2.2 k).object_id_eq]
        by_cases e : k = c
        · subst e; simp
        · simp [e]
      · rw [h2, (hfr.2.2 k).children_eq]
        by_cases e : k = c
        · subst e; simp
        · simp [e]
      · rw [h3, hpar2]
        by_cases e : k = c
        · simp [e]
        · by_cases e2 : k ∈ cs
          · simp [e2]
          · simp [e, e2]

/-- What the promotion block does to identities, children lists and parent references. -/
theorem SetParent_promote_links (fuel : Nat) (w : World) (self : Nat) (w1 : World)
    (h : SetParent_promote fuel w self = some w1) :
    w1.size = w.size ∧ ∀ k, (w1.get k).object_id = (w.get k).object_id ∧
      (w1.get k).children = (if k = self then [] else (w.get k).children) ∧
      (w1.get k).parent =
        if k ∈ (w.get self).children then (w.get self).parent else (w.get k).parent := by
  unfold SetParent_promote at h
  split at h
  · cases h
  · rename_i w2 h2
    simp only [Option.some.injEq] at h
    subst h
    obtain ⟨hsz, hk⟩ := promote_loop_links fuel self (w.get self).parent _ w w2 h2 rfl
    refine ⟨hsz, fun k => ?_⟩
    obtain ⟨h1, h2, h3⟩ := hk k
    by_cases e : k = self
    · subst e
      refine ⟨by simpa using h1, by simp, by simpa using h3⟩
    · simp only [World.get_set, e, if_false]
      exact ⟨h1, h2, h3⟩

/-- The promotion block returns when the children lists below the entity are ranked. -/
theorem SetParent_promote_returns (S : Nat → Prop) (rank : Nat → Nat) (fuel : Nat) (w : World)
    (self : Nat)
    (hS : ∀ a c, S a → c ∈ (w.get a).children → S c ∧ rank c < rank a)
    (hself : S self) (hfuel : rank self ≤ fuel) :
    ∃ w1, SetParent_promote fuel w self = some w1 := by
  obtain ⟨w2, h2, _⟩ := forEachM_returns
    (fun cur => ∀ k, (cur.get k).children = (w.get k).children)
    (fun w1 child =>
      UpdateTransform fuel
        (w1.set child { w1.get child with parent := (w1.get self).parent }) child)
    (w.get self).children
    (fun cur c hc hP => by
      have hset : ∀ k, ((cur.set c { cur.get c with parent := (cur.get self).parent }).get
          k).children = (w.get k).children := by
        intro k
        rw [← hP k]
        by_cases e : k = c
        · subst e; simp
        · simp [e]
      have hc2 := hS self c hself hc
      obtain ⟨w3, h3⟩ := UpdateTransform_returns S rank fuel _ c
        (fun a d ha hd => hS a d ha (by rw [← hset a]; exact hd)) hc2.1 (by omega)
      refine ⟨w3, h3, fun k => ?_⟩
      rw [((UpdateTransform_frame _ _ _ _ h3).2.2 k).children_eq, hset k])
    w (fun _ => rfl)
  refine ⟨w2.set self { w2.get self with children := [] }, ?_⟩
  simp [SetParent_promote, h2]

/-! ## `GetActive` -/

theorem IsAncestor.reaches {w : World} {a n : Nat} (h : IsAncestor w a n) :
    ∀ k, reachesRoot w k n = true → ∃ j, j < k ∧ reachesRoot w j a = true := by
  induction h with
  | @parent x hx =>
    intro k hk
    cases k with
    | zero => simp [reachesRoot, hx] at hk
    | succ k =>
      rw [reachesRoot] at hk
      simp only [hx] at hk
      exact ⟨k, by omega, hk⟩
  | @step p x hx _ ih =>
    intro k hk
    cases k with
    | zero => simp [reachesRoot, hx] at hk
    | succ k =>
      rw [reachesRoot] at hk
      simp only [hx] at hk
      obtain ⟨j, hj, hr⟩ := ih k hk
      exact ⟨j, by omega, hr⟩

/-- An entity whose walk up ends at a root is none of its own ancestors. -/
theorem IsAncestor.ne_of_reachesRoot {w : World} {a n : Nat} (h : IsAncestor w a n) :
    ∀ k, reachesRoot w k n = true → a ≠ n := by
  intro k
  induction k using Nat.strong_induction_on with
  | _ k ih =>
    intro hk e
    subst e
    obtain ⟨j, hj, hr⟩ := h.reaches k hk
    exact ih j hj hr rfl

theorem IsAncestor.congr {w1 w2 : World} (hpar : ∀ k, (w2.get k).parent = (w1.get k).parent)
    {a n : Nat} (h : IsAncestor w1 a n) : IsAncestor w2 a n := by
  induction h with
  | parent hx => exact IsAncestor.parent (by rw [hpar]; exact hx)
  | step hx _ ih => exact IsAncestor.step (by rw [hpar]; exact hx) ih

theorem reachesRoot_congr {w1 w2 : World} (hpar : ∀ k, (w2.get k).parent = (w1.get k).parent) :
    ∀ k n, reachesRoot w2 k n = reachesRoot w1 k n := by
  intro k
  induction k with
  | zero => intro n; simp [reachesRoot, hpar]
  | succ k ih =>
    intro n
    rw [reachesRoot, reachesRoot, hpar]
    cases (w1.get n).parent with
    | none => rfl
    | some p => exact ih p

/-- `GetActive` returns on every entity whose walk up ends at a root, and returns the
conjunction of the stored flags of the entity and of all its ancestors. -/
theorem GetActive_returns (w : World) : ∀ (k n fuel : Nat), reachesRoot w k n = true →
    k < fuel →
    ∃ b, GetActive fuel w n = some b ∧
      (b = true ↔ ((w.get n).is_active = true ∧
        ∀ a, IsAncestor w a n → (w.get a).is_active = true)) := by
  intro k
  induction k with
  | zero =>
    intro n fuel hk hfuel
    cases fuel with
    | zero => omega
    | succ fuel =>
      rw [GetActive]
      cases hp : (w.get n).parent with
      | some p => simp [reachesRoot, hp] at hk
      | none =>
        refine ⟨(w.get n).is_active, rfl, ?_⟩
        constructor
        · intro h
          refine ⟨h, fun a ha => ?_⟩
          cases ha with
          | parent hx => rw [hp] at hx; cases hx
          | step hx _ => rw [hp] at hx; cases hx
        · intro h; exact h.1
  | succ k ih =>
    intro n fuel hk hfuel
    cases fuel with
    | zero => omega
    | succ fuel =>
      rw [GetActive]
      rw [reachesRoot] at hk
      cases hp : (w.get n).parent with
      | none =>
        refine ⟨(w.get n).is_active, rfl, ?_⟩
        constructor
        · intro h
          refine ⟨h, fun a ha => ?_⟩
          cases ha with
          | parent hx => rw [hp] at hx; cases hx
          | step hx _ => rw [hp] at hx; cases hx
        · intro h; exact h.1
      | some p =>
        simp only [hp] at hk ⊢
        cases hact : (w.get n).is_active with
        | false => exact ⟨false, by simp, by simp⟩
        | true =>
          obtain ⟨b, hb, hbP⟩ := ih p fuel hk (by omega)
          refine ⟨b, by simpa using hb, ?_⟩
          rw [hbP]
          constructor
          · rintro ⟨h1, h2⟩
            refine ⟨rfl, fun a ha => ?_⟩
            rcases ha.inv hp with e | h3
            · rw [e]; exact h1
            · exact h2 a h3
          · rintro ⟨_, h2⟩
            exact ⟨h2 p (IsAncestor.parent hp),
              fun a ha => h2 a (IsAncestor.step hp ha)⟩

/-! # Properties of the hierarchy operations -/

/-- C4: in a consistent acyclic tree, `SetParent` of an entity onto one of its proper
descendants returns; afterwards every former child of the entity has the entity's former
parent (none if it was a root), the entity has no children, its parent is the descendant,
and the descendant lists the entity exactly once. -/
theorem SetParent_onto_descendant (w : World) (hv : w.ValidHandles) (hid : w.DistinctIds)
    (hc : w.Consistent) (hac : w.Acyclic) (self : Nat) (hself : self < w.size)
    (d : Nat) (hd : d < w.size) (hdesc : IsAncestor w self d)
    (fuel : Nat) (hfuel : w.size < fuel) :
    ∃ w1, SetParent fuel w self (some d) = some w1 ∧
      (∀ c ∈ (w.get self).children, (w1.get c).parent = (w.get self).parent) ∧
      (w1.get self).children = [] ∧
      (w1.get self).parent = some d ∧
      (w1.get d).children.count self = 1 := by
  have hsd : self ≠ d := hdesc.ne hv hac hd
  have hpd : (w.get self).parent ≠ some d := fun h =>
    (IsAncestor.trans_ancestor hdesc (IsAncestor.parent h)).ne hv hac hself rfl
  have h1 : (w.get self).object_id ≠ (w.get d).object_id := object_id_ne hid hself hd hsd
  have h2 : (match (w.get self).parent with
      | some p => decide ((w.get p).object_id = (w.get d).object_id)
      | none => false) = false := by
    cases hp : (w.get self).parent with
    | none => rfl
    | some p =>
      have hps : p < w.size := (hv self hself).1 p (by simp [hp])
      have hpq : p ≠ d := fun e => hpd (by rw [hp, e])
      simpa using object_id_ne hid hps hd hpq
  obtain ⟨b, hb, hbP⟩ := IsDescendantOf_spec hv hid hc hac fuel d self hd hself
    (by have := w.height_le self; omega)
  have hbt : b = true := hbP.2 hdesc
  subst hbt
  obtain ⟨w1, hw1⟩ := SetParent_promote_returns (fun k => k < w.size) w.height fuel w self
    (fun a c ha hcm => World.height_child_lt hv hc hac ha hcm) hself
    (by have := w.height_le self; omega)
  obtain ⟨_, hlinks⟩ := SetParent_promote_links fuel w self w1 hw1
  have hreach : SetParent fuel w self (some d) =
      SetParent_relink fuel w1 self (w.get self).parent (some d) := by
    simp [SetParent, h1, h2, hb, hw1]
  rw [hreach]
  -- leaving the old parent
  have hw2 : ∃ w2 : World, (match (w.get self).parent with
        | some p => RemoveChild_false w1 p self
        | none => w1) = w2 ∧
      (∀ k, (w2.get k).parent = (w1.get k).parent) ∧
      (∀ k, (w2.get k).object_id = (w1.get k).object_id) ∧
      (∀ k, (w.get self).parent ≠ some k → (w2.get k).children = (w1.get k).children) := by
    cases hp : (w.get self).parent with
    | none => exact ⟨w1, rfl, fun _ => rfl, fun _ => rfl, fun _ _ => rfl⟩
    | some p =>
      have hps : p < w.size := (hv self hself).1 p (by simp [hp])
      have hsp : self ≠ p := ((IsAncestor.parent hp).ne hv hac hself).symm
      have hne : (w1.get self).object_id ≠ (w1.get p).object_id := by
        rw [(hlinks self).1, (hlinks p).1]
        exact object_id_ne hid hself hps hsp
      refine ⟨_, rfl, ?_, ?_, ?_⟩
      · intro k
        rw [RemoveChild_false_get hne]
        by_cases e : k = p
        · subst e; simp
        · simp [e]
      · intro k
        rw [RemoveChild_false_get hne]
        by_cases e : k = p
        · subst e; simp
        · simp [e]
      · intro k hk
        have e : k ≠ p := fun e => hk (by rw [e])
        rw [RemoveChild_false_get hne]
        simp [e]
  obtain ⟨w2, hw2eq, hpar2, hid2, hkeep2⟩ := hw2
  have hself_root : (w.get self).parent ≠ some self := fun h =>
    (IsAncestor.parent h).ne hv hac hself rfl
  have hne : (w2.get self).object_id ≠ (w2.get d).object_id := by
    rw [hid2, hid2, (hlinks self).1, (hlinks d).1]; exact h1
  have hchd : (w2.get d).children = (w.get d).children := by
    rw [hkeep2 d hpd, (hlinks d).2.1]
    simp [Ne.symm hsd]
  have hnm0 : self ∉ (w.get d).children := fun hm => hpd ((hc self hself d hd).2 hm)
  have hnm : self ∉ (w2.get d).children := by rw [hchd]; exact hnm0
  have hchs : (w2.get self).children = [] := by
    rw [hkeep2 self hself_root, (hlinks self).2.1]
    simp
  unfold SetParent_relink
  simp only [hw2eq]
  -- the final update: the entity has no children left
  have hw4c : ∀ k, k = self → ∀ c,
      c ∈ (((AddChild w2 d self).set self
        { (AddChild w2 d self).get self with parent := some d }).get k).children →
      k = self ∧ 0 < 0 := by
    intro k hk c hcm
    subst hk
    simp only [World.get_set, if_true] at hcm
    rw [AddChild_get hne hnm] at hcm
    simp [hsd, hchs] at hcm
  obtain ⟨w5, hw5⟩ := UpdateTransform_returns (fun k => k = self) (fun _ => 0) fuel
    ((AddChild w2 d self).set self { (AddChild w2 d self).get self with parent := some d })
    self (fun a c ha hcm => by
      have := hw4c a ha c hcm
      omega) rfl (by show 0 < fuel; omega)
  have hfr := UpdateTransform_frame _ _ _ _ hw5
  refine ⟨w5, hw5, ?_, ?_, ?_, ?_⟩
  · intro c hcm
    have hcs : c ≠ self := by
      intro e
      subst e
      exact hself_root ((hc c hself c hself).2 hcm)
    rw [(hfr.2.2 c).parent_eq]
    simp only [World.get_set, hcs, if_false]
    rw [AddChild_get hne hnm]
    by_cases e : c = d
    · subst e
      simp [hpar2, (hlinks c).2.2, hcm]
    · simp [e, hpar2, (hlinks c).2.2, hcm]
  · rw [(hfr.2.2 self).children_eq]
    simp only [World.get_set, if_true]
    rw [AddChild_get hne hnm]
    simp [hsd, hchs]
  · rw [(hfr.2.2 self).parent_eq]
    simp
  · rw [(hfr.2.2 d).children_eq]
    simp only [World.get_set, Ne.symm hsd, if_false]
    rw [AddChild_get hne hnm]
    simp [hchd, List.count_eq_zero_of_not_mem hnm0]

/-- C5: in a consistent acyclic tree, `SetParent` with a new parent (or none) that is neither
the entity itself, nor its current parent, nor one of its descendants returns; afterwards the
entity has the new parent, the old parent lists its former children without the entity and in
their order, the new parent lists the entity at the end of its former list, and no other
parent reference or children list has changed. -/
theorem SetParent_reparent (w : World) (hv : w.ValidHandles) (hid : w.DistinctIds)
    (hc : w.Consistent) (hac : w.Acyclic) (self : Nat) (hself : self < w.size)
    (new_parent : Option Nat) (hq : ∀ q ∈ new_parent, q < w.size)
    (hne_self : new_parent ≠ some self) (hne_parent : new_parent ≠ (w.get self).parent)
    (hnd : ∀ q ∈ new_parent, ¬ IsAncestor w self q)
    (fuel : Nat) (hfuel : w.size < fuel) :
    ∃ w1, SetParent fuel w self new_parent = some w1 ∧
      (w1.get self).parent = new_parent ∧
      (∀ p, (w.get self).parent = some p →
        (w1.get p).children = (w.get p).children.filter (fun c => c ≠ self)) ∧
      (∀ q, new_parent = some q → (w1.get q).children = (w.get q).children ++ [self]) ∧
      (∀ k, k ≠ self → (w1.get k).parent = (w.get k).parent) ∧
      (∀ k, (w.get self).parent ≠ some k → new_parent ≠ some k →
        (w1.get k).children = (w.get k).children) := by
  -- the statements after the `if (new_parent)` block are reached on the unchanged world
  have hreach : SetParent fuel w self new_parent =
      SetParent_relink fuel w self (w.get self).parent new_parent := by
    cases hnp : new_parent with
    | none => simp [SetParent]
    | some q =>
      have hqs : q < w.size := hq q (by simp [hnp])
      have hsq : self ≠ q := fun e => hne_self (by rw [hnp, e])
      have h1 : (w.get self).object_id ≠ (w.get q).object_id := object_id_ne hid hself hqs hsq
      have h2 : (match (w.get self).parent with
          | some p => decide ((w.get p).object_id = (w.get q).object_id)
          | none => false) = false := by
        cases hp : (w.get self).parent with
        | none => rfl
        | some p =>
          have hps : p < w.size := (hv self hself).1 p (by simp [hp])
          have hpq : p ≠ q := fun e => hne_parent (by rw [hnp, hp, e])
          simpa using object_id_ne hid hps hqs hpq
      obtain ⟨b, hb, hbP⟩ := IsDescendantOf_spec hv hid hc hac fuel q self hqs hself
        (by have := w.height_le self; omega)
      have hbf : b = false := by
        cases b with
        | false => rfl
        | true => exact absurd (hbP.1 rfl) (hnd q (by simp [hnp]))
      subst hbf
      simp [SetParent, h1, h2, hb]
  rw [hreach]
  -- the world just before the final `UpdateTransform`
  obtain ⟨w4, hw4, hpar4, hold4, hnew4, hkeep4, hother4⟩ :
      ∃ w4, SetParent_relink fuel w self (w.get self).parent new_parent =
          UpdateTransform fuel w4 self ∧
        (∀ k, (w4.get k).parent = if k = self then new_parent else (w.get k).parent) ∧
        (∀ p, (w.get self).parent = some p →
          (w4.get p).children = (w.get p).children.filter (fun c => c ≠ self)) ∧
        (∀ q, new_parent = some q → (w4.get q).children = (w.get q).children ++ [self]) ∧
        (∀ k, new_parent ≠ some k → ∀ c ∈ (w4.get k).children, c ∈ (w.get k).children) ∧
        (∀ k, (w.get self).parent ≠ some k → new_parent ≠ some k →
          (w4.get k).children = (w.get k).children) := by
    refine ⟨_, rfl, ?_⟩
    -- leaving the old parent
    have hw1 : ∃ w1 : World, (match (w.get self).parent with
          | some p => RemoveChild_false w p self
          | none => w) = w1 ∧
        (∀ k, (w1.get k).parent = (w.get k).parent) ∧
        (∀ k, (w1.get k).object_id = (w.get k).object_id) ∧
        (∀ p, (w.get self).parent = some p →
          (w1.get p).children = (w.get p).children.filter (fun c => c ≠ self)) ∧
        (∀ k, (w.get self).parent ≠ some k → (w1.get k).children = (w.get k).children) := by
      cases hp : (w.get self).parent with
      | none => exact ⟨w, rfl, fun _ => rfl, fun _ => rfl, by simp, fun _ _ => rfl⟩
      | some p =>
        have hps : p < w.size := (hv self hself).1 p (by simp [hp])
        have hsp : self ≠ p := ((IsAncestor.parent hp).ne hv hac hself).symm
        have hne : (w.get self).object_id ≠ (w.get p).object_id :=
          object_id_ne hid hself hps hsp
        refine ⟨_, rfl, ?_, ?_, ?_, ?_⟩
        · intro k
          rw [RemoveChild_false_get hne]
          by_cases e : k = p
          · subst e; simp
          · simp [e]
        · intro k
          rw [RemoveChild_false_get hne]
          by_cases e : k = p
          · subst e; simp
          · simp [e]
        · intro p2 hp2
          cases hp2
          rw [RemoveChild_false_get hne]
          simp only [if_true]
          exact filter_object_id hv hid hps hself
        · intro k hk
          have e : k ≠ p := fun e => hk (by rw [e])
          rw [RemoveChild_false_get hne]
          simp [e]
    obtain ⟨w1, hw1eq, hpar1, hid1, hold1, hkeep1⟩ := hw1
    rw [hw1eq]
    -- joining the new parent
    cases hnp : new_parent with
    | none =>
      refine ⟨?_, ?_, ?_, ?_, ?_⟩
      · intro k
        by_cases e : k = self
        · subst e; simp
        · simp [e, hpar1]
      · intro p hp
        have hsp : self ≠ p := ((IsAncestor.parent hp).ne hv hac hself).symm
        simp [Ne.symm hsp, hold1 p hp]
      · intro q h; cases h
      · intro k _ c hcm
        by_cases e : k = self
        · subst e
          have hk : (w.get k).parent ≠ some k := fun h =>
            (IsAncestor.parent h).ne hv hac hself rfl
          simpa [hkeep1 k hk] using hcm
        · simp only [World.get_set, e, if_false] at hcm
          by_cases hk : (w.get self).parent = some k
          · rw [hold1 k hk] at hcm
            exact (List.mem_filter.1 hcm).1
          · rw [hkeep1 k hk] at hcm
            exact hcm
      · intro k hk _
        by_cases e : k = self
        · subst e; simp [hkeep1 k hk]
        · simp [e, hkeep1 k hk]
    | some q =>
      have hqs : q < w.size := hq q (by simp [hnp])
      have hsq : self ≠ q := fun e => hne_self (by rw [hnp, e])
      have hqp : (w.get self).parent ≠ some q := fun e => hne_parent (by rw [hnp, e])
      have hne : (w1.get self).object_id ≠ (w1.get q).object_id := by
        rw [hid1, hid1]; exact object_id_ne hid hself hqs hsq
      have hnm : self ∉ (w1.get q).children := by
        rw [hkeep1 q hqp]
        intro hm
        exact hqp ((hc self hself q hqs).2 hm)
      simp only
      refine ⟨?_, ?_, ?_, ?_, ?_⟩
      · intro k
        by_cases e : k = self
        · subst e; simp
        · simp only [World.get_set, e, if_false]
          rw [AddChild_get hne hnm]
          by_cases e2 : k = q
          · subst e2; simp [hpar1]
          · simp [e2, hpar1]
      · intro p hp
        have hsp : self ≠ p := ((IsAncestor.parent hp).ne hv hac hself).symm
        have hpq : p ≠ q := fun e => hqp (by rw [hp, e])
        simp only [World.get_set, Ne.symm hsp, if_false]
        rw [AddChild_get hne hnm]
        simp [hpq, hold1 p hp]
      · intro q2 hq2
        cases hq2
        simp only [World.get_set, Ne.symm hsq, if_false]
        rw [AddChild_get hne hnm]
        simp [hkeep1 q hqp]
      · intro k hk c hcm
        have hkq : k ≠ q := fun e => hk (by rw [e])
        by_cases e : k = self
        · subst e
          have hk2 : (w.get k).parent ≠ some k := fun h =>
            (IsAncestor.parent h).ne hv hac hself rfl
          simp only [World.get_set, if_true] at hcm
          rw [AddChild_get hne hnm] at hcm
          simpa [hkq, hkeep1 k hk2] using hcm
        · simp only [World.get_set, e, if_false] at hcm
          rw [AddChild_get hne hnm] at hcm
          simp only [hkq, if_false] at hcm
          by_cases hk2 : (w.get self).parent = some k
          · rw [hold1 k hk2] at hcm
            exact (List.mem_filter.1 hcm).1
          · rw [hkeep1 k hk2] at hcm
            exact hcm
      · intro k hk hk3
        have hkq : k ≠ q := fun e => hk3 (by rw [e])
        by_cases e : k = self
        · subst e
          simp only [World.get_set, if_true]
          rw [AddChild_get hne hnm]
          simp [hkq, hkeep1 k hk]
        · simp only [World.get_set, e, if_false]
          rw [AddChild_get hne hnm]
          simp [hkq, hkeep1 k hk]
  rw [hw4]
  -- the final update returns: the subtree below the entity is untouched
  obtain ⟨w5, hw5⟩ := UpdateTransform_returns
    (fun k => k < w.size ∧ (k = self ∨ IsAncestor w self k)) w.height fuel w4 self
    (subtree_ranked hv hc hac self w4 (fun a _ hS c hcm => by
      refine hkeep4 a ?_ c hcm
      intro hqa
      rcases hS with e | h
      · exact hne_self (by rw [hqa, e])
      · exact hnd a (by simp [hqa]) h))
    ⟨hself, Or.inl rfl⟩ (by have := w.height_le self; omega)
  have hfr := UpdateTransform_frame fuel w4 self w5 hw5
  refine ⟨w5, hw5, ?_, ?_, ?_, ?_, ?_⟩
  · rw [(hfr.2.2 self).parent_eq, hpar4]; simp
  · intro p hp
    rw [(hfr.2.2 p).children_eq, hold4 p hp]
  · intro q hq2
    rw [(hfr.2.2 q).children_eq, hnew4 q hq2]
  · intro k hk
    rw [(hfr.2.2 k).parent_eq, hpar4]; simp [hk]
  · intro k hk1 hk2
    rw [(hfr.2.2 k).children_eq, hother4 k hk1 hk2]

/-- C6: `SetParent` with the entity itself as new parent, and with a new parent that has the
identity of the current parent, returns at once and leaves the whole world as it was: every
parent reference, children list, transform and counter. -/
theorem SetParent_same_is_noop (fuel : Nat) (w : World) (self : Nat) :
    SetParent fuel w self (some self) = some w ∧
      ∀ p q, (w.get self).parent = some p → (w.get q).object_id = (w.get p).object_id →
        SetParent fuel w self (some q) = some w := by
  refine ⟨by simp [SetParent], fun p q hp hq => ?_⟩
  simp [SetParent, hp, hq]

theorem SetParent_same_is_noop_witness :
    SetParent 0 chain3 1 (some 1) = some chain3 ∧ SetParent 0 chain3 1 (some 0) = some chain3 :=
  ⟨(SetParent_same_is_noop 0 chain3 1).1, (SetParent_same_is_noop 0 chain3 1).2 0 0 rfl rfl⟩

/-- C7: on an entity whose walk up the parent references ends at a root, `GetActive` returns
`true` exactly when the stored flag of the entity and of every ancestor is `true`; it has no
world to change.  Hence storing `false` in an ancestor `r` makes `GetActive` false for the
entity and leaves every other stored flag alone, and storing `true` there makes `GetActive`
true exactly when the entity and its ancestors other than `r` have their flag set. -/
theorem GetActive_effective (w : World) (n k fuel : Nat) (hroot : reachesRoot w k n = true)
    (hfuel : k < fuel) :
    (∃ b, GetActive fuel w n = some b ∧
      (b = true ↔ ((w.get n).is_active = true ∧
        ∀ a, IsAncestor w a n → (w.get a).is_active = true))) ∧
    (∀ r v m, m ≠ r → ((SetActive w r v).get m).is_active = (w.get m).is_active) ∧
    (∀ r, IsAncestor w r n →
      GetActive fuel (SetActive w r false) n = some false ∧
      ∃ b, GetActive fuel (SetActive w r true) n = some b ∧
        (b = true ↔ ((w.get n).is_active = true ∧
          ∀ a, IsAncestor w a n → a ≠ r → (w.get a).is_active = true))) := by
  refine ⟨GetActive_returns w k n fuel hroot hfuel, ?_, ?_⟩
  · intro r v m hm
    simp [SetActive, hm]
  · intro r hr
    have hrn : r ≠ n := hr.ne_of_reachesRoot k hroot
    have hpar : ∀ v j, ((SetActive w r v).get j).parent = (w.get j).parent := by
      intro v j
      by_cases e : j = r
      · subst e; simp [SetActive]
      · simp [SetActive, e]
    have hflag : ∀ v j, ((SetActive w r v).get j).is_active =
        if j = r then v else (w.get j).is_active := by
      intro v j
      by_cases e : j = r
      · subst e; simp [SetActive]
      · simp [SetActive, e]
    constructor
    · obtain ⟨b, hb, hbP⟩ := GetActive_returns (SetActive w r false) k n fuel
        (by rw [reachesRoot_congr (hpar false)]; exact hroot) hfuel
      cases b with
      | false => exact hb
      | true =>
        have h1 := (hbP.1 rfl).2 r (hr.congr (hpar false))
        rw [hflag] at h1
        simp at h1
    · obtain ⟨b, hb, hbP⟩ := GetActive_returns (SetActive w r true) k n fuel
        (by rw [reachesRoot_congr (hpar true)]; exact hroot) hfuel
      refine ⟨b, hb, ?_⟩
      rw [hbP, hflag, if_neg (Ne.symm hrn)]
      constructor
      · rintro ⟨h1, h2⟩
        refine ⟨h1, fun a ha har => ?_⟩
        have := h2 a (ha.congr (hpar true))
        rw [hflag, if_neg har] at this
        exact this
      · rintro ⟨h1, h2⟩
        refine ⟨h1, fun a ha => ?_⟩
        rw [hflag]
        by_cases e : a = r
        · simp [e]
        · rw [if_neg e]
          exact h2 a (IsAncestor.congr (fun j => (hpar true j).symm) ha) e

theorem GetActive_effective_witness :
    (∃ b, GetActive 3 chain3 2 = some b ∧
      (b = true ↔ ((chain3.get 2).is_active = true ∧
        ∀ a, IsAncestor chain3 a 2 → (chain3.get a).is_active = true))) ∧
    (∀ r v m, m ≠ r → ((SetActive chain3 r v).get m).is_active = (chain3.get m).is_active) ∧
    (∀ r, IsAncestor chain3 r 2 →
      GetActive 3 (SetActive chain3 r false) 2 = some false ∧
      ∃ b, GetActive 3 (SetActive chain3 r true) 2 = some b ∧
        (b = true ↔ ((chain3.get 2).is_active = true ∧
          ∀ a, IsAncestor chain3 a 2 → a ≠ r → (chain3.get a).is_active = true))) :=
  GetActive_effective chain3 2 2 3 (by decide) (by decide)

/-- C8: when the children lists form a forest, `SetScaleLocal` with a scale different from
the stored one returns, and each stored component is then the requested one if that is not
zero and `FLT_MIN`, which is positive, if it is zero; after a request of (0, 0, 0) all three
stored components are positive. -/
theorem SetScaleLocal_replaces_zero (w : World) (rank : Nat → Nat)
    (hr : w.ChildrenRanked rank) (self fuel : Nat) (hfuel : rank self < fuel)
    (scale : Vector3) (hs : scale ≠ (w.get self).scale_local) :
    ∃ w1, SetScaleLocal fuel w self scale = some w1 ∧
      (w1.get self).scale_local.x = (if scale.x = 0 then FLT_MIN else scale.x) ∧
      (w1.get self).scale_local.y = (if scale.y = 0 then FLT_MIN else scale.y) ∧
      (w1.get self).scale_local.z = (if scale.z = 0 then FLT_MIN else scale.z) ∧
      0 < FLT_MIN ∧
      (scale = ⟨0, 0, 0⟩ → 0 < (w1.get self).scale_local.x ∧
        0 < (w1.get self).scale_local.y ∧ 0 < (w1.get self).scale_local.z) := by
  have hpos : (0 : ℚ) < FLT_MIN := by unfold FLT_MIN; positivity
  have hne : ¬ (w.get self).scale_local = scale := fun e => hs e.symm
  obtain ⟨w1, hw1⟩ := UpdateTransform_returns (fun _ => True) rank fuel
    (w.set self { w.get self with
      scale_local := ⟨if scale.x = 0 then FLT_MIN else scale.x,
        if scale.y = 0 then FLT_MIN else scale.y,
        if scale.z = 0 then FLT_MIN else scale.z⟩ }) self
    (fun a c _ hc => ⟨trivial, hr a c (by
      by_cases e : a = self
      · subst e; simpa using hc
      · simpa [e] using hc)⟩) trivial hfuel
  have hsc := ((UpdateTransform_frame _ _ _ _ hw1).2.2 self).scale_local_eq
  simp only [World.get_set, if_true] at hsc
  refine ⟨w1, by simp only [SetScaleLocal, hne, if_false]; exact hw1, ?_, ?_, ?_, hpos, ?_⟩
  · rw [hsc]
  · rw [hsc]
  · rw [hsc]
  · intro h0
    rw [hsc, h0]
    simp [hpos]

theorem SetScaleLocal_replaces_zero_witness :
    ∃ w1, SetScaleLocal 3 chain3 0 ⟨0, 2, 0⟩ = some w1 ∧
      (w1.get 0).scale_local.x = (if (0 : ℚ) = 0 then FLT_MIN else 0) ∧
      (w1.get 0).scale_local.y = (if (2 : ℚ) = 0 then FLT_MIN else 2) ∧
      (w1.get 0).scale_local.z = (if (0 : ℚ) = 0 then FLT_MIN else 0) ∧
      0 < FLT_MIN ∧
      ((⟨0, 2, 0⟩ : Vector3) = ⟨0, 0, 0⟩ → 0 < (w1.get 0).scale_local.x ∧
        0 < (w1.get 0).scale_local.y ∧ 0 < (w1.get 0).scale_local.z) :=
  SetScaleLocal_replaces_zero chain3 (fun k => 2 - k)
    (by
      intro a c hc
      unfold chain3 at hc
      simp only at hc
      split_ifs at hc with h0 h1 h2
      · subst h0; simp at hc; subst hc; decide
      · subst h1; simp at hc; subst hc; decide
      · simp at hc
      · simp at hc)
    0 3 (by decide) ⟨0, 2, 0⟩ (by simp [chain3])

/-- C10: `SetPositionLocal`, `SetRotationLocal` and `SetScaleLocal` called with the stored
value return at once with the world as it was: no matrix is recomputed and no counter is
reset, for the entity and for every other entity. -/
theorem SetLocal_same_value_is_noop (fuel : Nat) (w : World) (self : Nat) :
    SetPositionLocal fuel w self (w.get self).position_local = some w ∧
    SetRotationLocal fuel w self (w.get self).rotation_local = some w ∧
    SetScaleLocal fuel w self (w.get self).scale_local = some w := by
  simp [SetPositionLocal, SetRotationLocal, SetScaleLocal]

/-- C4 at the chain 0 - 1 - 2: entity 1 is moved under its child 2. -/
theorem SetParent_onto_descendant_witness :
    ∃ w1, SetParent 4 chain3 1 (some 2) = some w1 ∧
      (∀ c ∈ (chain3.get 1).children, (w1.get c).parent = (chain3.get 1).parent) ∧
      (w1.get 1).children = [] ∧
      (w1.get 1).parent = some 2 ∧
      (w1.get 2).children.count 1 = 1 :=
  SetParent_onto_descendant chain3 (by decide) (by decide) (by decide) (by decide)
    1 (by decide) 2 (by decide) (IsAncestor.parent rfl) 4 (by decide)

/-- C5 at the chain 0 - 1 - 2: entity 2 is moved from its parent 1 to the root 0. -/
theorem SetParent_reparent_witness :
    ∃ w1, SetParent 4 chain3 2 (some 0) = some w1 ∧
      (w1.get 2).parent = some 0 ∧
      (∀ p, (chain3.get 2).parent = some p →
        (w1.get p).children = (chain3.get p).children.filter (fun c => c ≠ 2)) ∧
      (∀ q, some 0 = some q → (w1.get q).children = (chain3.get q).children ++ [2]) ∧
      (∀ k, k ≠ 2 → (w1.get k).parent = (chain3.get k).parent) ∧
      (∀ k, (chain3.get 2).parent ≠ some k → some 0 ≠ some k →
        (w1.get k).children = (chain3.get k).children) :=
  SetParent_reparent chain3 (by decide) (by decide) (by decide) (by decide)
    2 (by decide) (some 0) (by decide) (by decide) (by decide)
    (by
      intro q hq h
      simp only [Option.mem_def, Option.some.injEq] at hq
      subst hq
      cases h with
      | parent hx => simp [chain3] at hx
      | step hx _ => simp [chain3] at hx)
    4 (by decide)

/-- C2, evaluated: after `SetParent` of entity 1 onto its child 2 in the chain 0 - 1 - 2,
entity 2 has parent 0 but the children list of 0 is empty. -/
theorem SetParent_promotion_breaks_consistency :
    afterPromotion.map (fun w => ((w.get 2).parent, (w.get 0).children, decide w.Consistent)) =
      some (some 0, [], false) := by
  decide

/-- C1, evaluated: one more `SetParent`, of the root 0 under entity 1, closes a cycle
0 - 1 - 2 - 0 of parent references; no walk up reaches a root. -/
theorem SetParent_closes_cycle :
    (afterPromotion.bind fun w => SetParent 3 w 0 (some 1)).map
        (fun w => ((w.get 0).parent, (w.get 1).parent, (w.get 2).parent, decide w.Acyclic)) =
      some (some 1, some 2, some 0, false) := by
  decide

/-- C3, evaluated: after the promotion entity 2 has parent 0, yet moving entity 0 does not
recompute the world matrix of entity 2, which keeps the value it had and is no longer its
local matrix times the world matrix of its parent. -/
theorem SetPositionLocal_leaves_stale_matrix :
    (afterPromotion.bind fun w =>
        (SetPositionLocal 3 w 0 ⟨1, 0, 0⟩).map fun w1 =>
          ((w1.get 2).parent, decide ((w1.get 2).matrix = (w.get 2).matrix),
            decide ((w1.get 2).matrix =
              Matrix.mul (w1.get 2).matrix_local (w1.get 0).matrix))) =
      some (some 0, true, false) := by
  decide

/-- C9, evaluated: `Load` of a record whose scale is (0, 0, 0) stores the zero scale as it
is. -/
theorem Load_stores_zero_scale :
    (threeEntities.bind fun w =>
        Load 1 w 0 (Record.mk "Entity" 0 true ⟨0, 0, 0⟩ ⟨0, 0, 0, 1⟩ ⟨0, 0, 0⟩ [])).map
        (fun w => (w.get 0).scale_local) = some ⟨0, 0, 0⟩ := by
  simp [Load, Load_children, threeEntities, CreateEntity, GenerateObjectId, Initialize,
    UpdateTransform, forEachM, World.set, World.empty]

/-! ## Queries by name and the list primitives -/

theorem GetChildByName_loop_none (w : World) (name : String) (cs : List Nat) :
    GetChildByName_loop w name cs = none ↔ ∀ c ∈ cs, (w.get c).object_name ≠ name := by
  induction cs with
  | nil => simp [GetChildByName_loop]
  | cons c cs ih =>
    by_cases h : (w.get c).object_name = name
    · simp [GetChildByName_loop, h]
    · simp [GetChildByName_loop, h, ih]

theorem GetChildByName_loop_some (w : World) (name : String) (cs : List Nat) (r : Nat)
    (h : GetChildByName_loop w name cs = some r) :
    (w.get r).object_name = name ∧
      ∃ before after, cs = before ++ r :: after ∧
        ∀ c ∈ before, (w.get c).object_name ≠ name := by
  induction cs with
  | nil => simp [GetChildByName_loop] at h
  | cons c cs ih =>
    by_cases hc : (w.get c).object_name = name
    · simp only [GetChildByName_loop, hc, if_true, Option.some.injEq] at h
      subst h
      exact ⟨hc, [], cs, rfl, by simp⟩
    · simp only [GetChildByName_loop, hc, if_false] at h
      obtain ⟨h1, before, after, h2, h3⟩ := ih h
      refine ⟨h1, c :: before, after, by simp [h2], ?_⟩
      intro d hd
      rcases List.mem_cons.1 hd with e | hd2
      · rw [e]; exact hc
      · exact h3 d hd2

theorem walkUp_of_ancestor {w : World} {c : Nat} : ∀ (j x k : Nat),
    reachesRoot w j x = true → IsAncestor w c x → j ≤ k →
    IsDescendantOf_walkUp w k x c = true := by
  intro j
  induction j with
  | zero =>
    intro x k hr ha _
    simp only [reachesRoot] at hr
    cases ha with
    | parent hx => simp [hx] at hr
    | step hx _ => simp [hx] at hr
  | succ j ih =>
    intro x k hr ha hk
    cases k with
    | zero => omega
    | succ k =>
      rw [reachesRoot] at hr
      rw [IsDescendantOf_walkUp]
      cases hp : (w.get x).parent with
      | none =>
        cases ha with
        | parent hx => rw [hp] at hx; cases hx
        | step hx _ => rw [hp] at hx; cases hx
      | some p =>
        simp only [hp] at hr ⊢
        rcases ha.inv hp with e | h2
        · subst e; simp
        · by_cases hid : (w.get p).object_id = (w.get c).object_id
          · simp [hid]
          · simp only [hid, if_false]
            exact ih p k hr h2 (by omega)

theorem ancestor_of_walkUp {w : World} (hv : w.ValidHandles) (hid : w.DistinctIds) {c : Nat}
    (hc : c < w.size) : ∀ (k x : Nat), x < w.size →
    IsDescendantOf_walkUp w k x c = true → IsAncestor w c x := by
  intro k
  induction k with
  | zero => intro x _ h; simp [IsDescendantOf_walkUp] at h
  | succ k ih =>
    intro x hx h
    rw [IsDescendantOf_walkUp] at h
    cases hp : (w.get x).parent with
    | none => simp [hp] at h
    | some p =>
      have hps : p < w.size := (hv x hx).1 p (by simp [hp])
      simp only [hp] at h
      by_cases hid2 : (w.get p).object_id = (w.get c).object_id
      · have e : p = c := hid p hps c hc hid2
        subst e
        exact IsAncestor.parent hp
      · simp only [hid2, if_false] at h
        exact IsAncestor.step hp (ih p hps h)

/-! ## `GetDescendants` -/

theorem forEachOutM_flatMap (f : List Nat → Nat → Option (List Nat)) (g : Nat → List Nat)
    (cs : List Nat) (h : ∀ c ∈ cs, ∀ out, f out c = some (out ++ g c)) :
    ∀ out, forEachOutM f cs out = some (out ++ cs.flatMap g) := by
  induction cs with
  | nil => intro out; simp [forEachOutM]
  | cons c cs ih =>
    intro out
    simp only [forEachOutM, h c (List.mem_cons_self c cs) out]
    rw [ih (fun d hd => h d (List.mem_cons_of_mem _ hd))]
    simp [List.flatMap_cons, List.append_assoc]

theorem preorder_no_children (w : World) (d c : Nat) (h : (w.get c).children = []) :
    preorder w d c = [] := by
  cases d with
  | zero => rfl
  | succ d => simp [preorder, h]

/-- With ranked children lists `GetDescendants` returns and appends the pre-order listing. -/
theorem GetDescendants_eq {w : World} {rank : Nat → Nat} (hr : w.ChildrenRanked rank) :
    ∀ (fuel n : Nat) (out : List Nat), rank n < fuel →
      GetDescendants fuel w n out = some (out ++ preorder w fuel n) := by
  intro fuel
  induction fuel with
  | zero => intro n out h; omega
  | succ fuel ih =>
    intro n out hfuel
    rw [GetDescendants, preorder]
    apply forEachOutM_flatMap
    intro c hc out1
    have hrc := hr n c hc
    by_cases hch : (w.get c).children = []
    · simp [hch, preorder_no_children w fuel c hch]
    · simp only [ne_eq, hch, not_false_eq_true, if_true]
      rw [ih c (out1 ++ [c]) (by omega)]
      simp

theorem IsListedBelow.rank_lt {w : World} {rank : Nat → Nat} (hr : w.ChildrenRanked rank)
    {n x : Nat} (h : IsListedBelow w n x) : rank x < rank n := by
  induction h with
  | child hx => exact hr _ _ hx
  | step _ hx ih => have := hr _ _ hx; omega

theorem IsListedBelow.of_child {w : World} {n c x : Nat} (hc : c ∈ (w.get n).children)
    (h : IsListedBelow w c x) : IsListedBelow w n x := by
  induction h with
  | child hx => exact IsListedBelow.step (IsListedBelow.child hc) hx
  | step _ hx ih => exact IsListedBelow.step ih hx

theorem IsListedBelow.last {w : World} {n x : Nat} (h : IsListedBelow w n x) :
    ∃ p, x ∈ (w.get p).children ∧ (p = n ∨ IsListedBelow w n p) := by
  cases h with
  | child hx => exact ⟨n, hx, Or.inl rfl⟩
  | step hp hx => exact ⟨_, hx, Or.inr hp⟩

theorem listedBelow_of_mem_preorder (w : World) : ∀ (d n x : Nat),
    x ∈ preorder w d n → IsListedBelow w n x := by
  intro d
  induction d with
  | zero => intro n x h; simp [preorder] at h
  | succ d ih =>
    intro n x h
    rw [preorder, List.mem_flatMap] at h
    obtain ⟨c, hc, hx⟩ := h
    rcases List.mem_cons.1 hx with e | hx2
    · rw [e]; exact IsListedBelow.child hc
    · exact (ih c x hx2).of_child hc

theorem mem_preorder_children {w : World} {rank : Nat → Nat} (hr : w.ChildrenRanked rank) :
    ∀ (d n p x : Nat), rank n < d → (p = n ∨ p ∈ preorder w d n) →
      x ∈ (w.get p).children → x ∈ preorder w d n := by
  intro d
  induction d with
  | zero => intro n p x h; omega
  | succ d ih =>
    intro n p x hd hp hx
    rw [preorder, List.mem_flatMap]
    rcases hp with e | hp
    · subst e
      exact ⟨x, hx, List.mem_cons_self _ _⟩
    · rw [preorder, List.mem_flatMap] at hp
      obtain ⟨c, hc, hpc⟩ := hp
      have hrc := hr n c hc
      refine ⟨c, hc, List.mem_cons_of_mem _ ?_⟩
      rcases List.mem_cons.1 hpc with e | hp2
      · exact ih c p x (by omega) (Or.inl e) hx
      · exact ih c p x (by omega) (Or.inr hp2) hx

theorem mem_preorder_iff {w : World} {rank : Nat → Nat} (hr : w.ChildrenRanked rank)
    (d n : Nat) (hd : rank n < d) (x : Nat) :
    x ∈ preorder w d n ↔ IsListedBelow w n x := by
  constructor
  · exact listedBelow_of_mem_preorder w d n x
  · intro h
    induction h with
    | child hx => exact mem_preorder_children hr d n n _ hd (Or.inl rfl) hx
    | step _ hx ih => exact mem_preorder_children hr d n _ _ hd (Or.inr ih) hx

theorem preorder_stable {w : World} {rank : Nat → Nat} (hr : w.ChildrenRanked rank) :
    ∀ (d1 d2 n : Nat), rank n < d1 → rank n < d2 → preorder w d1 n = preorder w d2 n := by
  intro d1
  induction d1 with
  | zero => intro d2 n h; omega
  | succ d1 ih =>
    intro d2 n h1 h2
    cases d2 with
    | zero => omega
    | succ d2 =>
      rw [preorder, preorder]
      apply List.flatMap_congr
      intro c hc
      have hrc := hr n c hc
      rw [ih d2 c (by omega) (by omega)]

/-- In a tree of children lists, a child of `n` is not below another child of `n`. -/
theorem sibling_not_below {w : World} {rank : Nat → Nat} (ht : w.ChildrenTree rank)
    {n c1 c2 : Nat} (h1 : c1 ∈ (w.get n).children) (h2 : c2 ∈ (w.get n).children)
    (h : IsListedBelow w c2 c1) : False := by
  obtain ⟨p, hp, hb⟩ := h.last
  have e : p = n := ht.2.2 p n c1 hp h1
  subst e
  have := ht.1 p c2 h2
  rcases hb with e | hb
  · rw [e] at this; omega
  · have := hb.rank_lt ht.1
    omega

/-- In a tree of children lists, the parts below two different children of `n` are
disjoint. -/
theorem below_unique {w : World} {rank : Nat → Nat} (ht : w.ChildrenTree rank)
    {n c1 c2 : Nat} (h1 : c1 ∈ (w.get n).children) (h2 : c2 ∈ (w.get n).children) {x : Nat}
    (hx1 : IsListedBelow w c1 x) (hx2 : x = c2 ∨ IsListedBelow w c2 x) : c1 = c2 := by
  induction hx1 with
  | @child x hx =>
    rcases hx2 with e | hb
    · subst e
      exact (sibling_not_below ht h2 h1 (IsListedBelow.child hx)).elim
    · obtain ⟨p, hp, hpb⟩ := hb.last
      have e : c1 = p := ht.2.2 c1 p x hx hp
      subst e
      rcases hpb with e | hpb
      · exact e
      · exact (sibling_not_below ht h1 h2 hpb).elim
  | @step p x hp hx ih =>
    rcases hx2 with e | hb
    · subst e
      have e : p = n := ht.2.2 p n x hx h2
      subst e
      have h3 := hp.rank_lt ht.1
      have h4 := ht.1 p c1 h1
      omega
    · obtain ⟨p2, hp2, hpb⟩ := hb.last
      have e : p = p2 := ht.2.2 p p2 x hx hp2
      subst e
      exact ih hpb

theorem preorder_nodup {w : World} {rank : Nat → Nat} (ht : w.ChildrenTree rank) :
    ∀ (d n : Nat), (preorder w d n).Nodup := by
  intro d
  induction d with
  | zero => intro n; simp [preorder]
  | succ d ih =>
    intro n
    rw [preorder, List.nodup_flatMap]
    constructor
    · intro c _
      rw [List.nodup_cons]
      refine ⟨fun hm => ?_, ih c⟩
      have := (listedBelow_of_mem_preorder w d c c hm).rank_lt ht.1
      omega
    · refine List.Pairwise.imp_of_mem ?_ (ht.2.1 n)
      intro c1 c2 h1 h2 hne
      intro x hx1 hx2
      apply hne
      have b1 : x = c1 ∨ IsListedBelow w c1 x := by
        rcases List.mem_cons.1 hx1 with e | hm
        · exact Or.inl e
        · exact Or.inr (listedBelow_of_mem_preorder w d c1 x hm)
      have b2 : x = c2 ∨ IsListedBelow w c2 x := by
        rcases List.mem_cons.1 hx2 with e | hm
        · exact Or.inl e
        · exact Or.inr (listedBelow_of_mem_preorder w d c2 x hm)
      rcases b1 with e | hb1
      · rcases b2 with e2 | hb2
        · rw [← e, ← e2]
        · subst e
          exact (sibling_not_below ht h1 h2 hb2).elim
      · exact below_unique ht h1 h2 hb1 b2

/-- C16: `GetChildByName` returns the first entry of the children list whose name is the
requested one, and the null result exactly when no entry has that name; on a root whose two
children are both named x it returns the first of them. -/
theorem GetChildByName_first_match (w : World) (self : Nat) (name : String) :
    (GetChildByName w self name = none ↔
      ∀ c ∈ (w.get self).children, (w.get c).object_name ≠ name) ∧
    (∀ r, GetChildByName w self name = some r →
      (w.get r).object_name = name ∧
        ∃ before after, (w.get self).children = before ++ r :: after ∧
          ∀ c ∈ before, (w.get c).object_name ≠ name) ∧
    GetChildByName twins 0 "x" = some 1 :=
  ⟨GetChildByName_loop_none w name _, fun r h => GetChildByName_loop_some w name _ r h,
    by decide⟩

theorem GetChildByName_first_match_witness :
    (twins.get 1).object_name = "x" ∧
      ∃ before after, (twins.get 0).children = before ++ 1 :: after ∧
        ∀ c ∈ before, (twins.get c).object_name ≠ "x" :=
  (GetChildByName_first_match twins 0 "x").2.1 1 (by decide)

/-- C19: in a consistent acyclic tree with distinct identities `IsDescendantOf`, which tests
the parent of `x` and then searches the children lists below `c`, returns; its result is
that of walking up the parent references from `x` comparing identities with `c`, which is
`true` exactly when `c` is a proper ancestor of `x`; for `c = x` it is `false`. -/
theorem IsDescendantOf_refines_walkUp (w : World) (hv : w.ValidHandles) (hid : w.DistinctIds)
    (hc : w.Consistent) (hac : w.Acyclic) (x c : Nat) (hx : x < w.size) (hcs : c < w.size)
    (fuel : Nat) (hfuel : w.size < fuel) :
    IsDescendantOf fuel w x c = some (IsDescendantOf_walkUp w w.size x c) ∧
      (IsDescendantOf_walkUp w w.size x c = true ↔ IsAncestor w c x) ∧
      IsDescendantOf fuel w x x = some false := by
  have hiff : ∀ t, t < w.size →
      (IsDescendantOf_walkUp w w.size x t = true ↔ IsAncestor w t x) := fun t ht =>
    ⟨ancestor_of_walkUp hv hid ht w.size x hx,
      fun ha => walkUp_of_ancestor w.size x w.size (hac x hx) ha (Nat.le_refl _)⟩
  have hcode : ∀ t, t < w.size →
      IsDescendantOf fuel w x t = some (IsDescendantOf_walkUp w w.size x t) := by
    intro t ht
    obtain ⟨b, hb, hbP⟩ := IsDescendantOf_spec hv hid hc hac fuel x t hx ht
      (by have := w.height_le t; omega)
    rw [hb]
    congr 1
    cases b with
    | true => exact ((hiff t ht).2 (hbP.1 rfl)).symm
    | false =>
      cases hwu : IsDescendantOf_walkUp w w.size x t with
      | false => rfl
      | true => exact absurd (hbP.2 ((hiff t ht).1 hwu)) (by simp)
  refine ⟨hcode c hcs, hiff c hcs, ?_⟩
  rw [hcode x hx]
  congr 1
  cases hwu : IsDescendantOf_walkUp w w.size x x with
  | false => rfl
  | true => exact absurd rfl (((hiff x hx).1 hwu).ne hv hac hx)

theorem IsDescendantOf_refines_walkUp_witness :
    IsDescendantOf 4 chain3 2 0 = some (IsDescendantOf_walkUp chain3 chain3.size 2 0) ∧
      (IsDescendantOf_walkUp chain3 chain3.size 2 0 = true ↔ IsAncestor chain3 0 2) ∧
      IsDescendantOf 4 chain3 2 2 = some false :=
  IsDescendantOf_refines_walkUp chain3 (by decide) (by decide) (by decide) (by decide)
    2 0 (by decide) (by decide) 4 (by decide)

/-- C20: `AddChild` leaves the world as it is when the child has the identity of the entity
or is already in its children list, and otherwise appends the child to that list; it changes
no parent reference and no other entity, keeps a list without repetition free of repetition,
and a second call with the same arguments changes nothing more. -/
theorem AddChild_appends_once (w : World) (self child : Nat) :
    (((w.get child).object_id = (w.get self).object_id ∨ child ∈ (w.get self).children) →
      AddChild w self child = w) ∧
    (¬ ((w.get child).object_id = (w.get self).object_id ∨ child ∈ (w.get self).children) →
      ((AddChild w self child).get self).children = (w.get self).children ++ [child]) ∧
    (∀ k, ((AddChild w self child).get k).parent = (w.get k).parent) ∧
    (∀ k, k ≠ self → (AddChild w self child).get k = w.get k) ∧
    ((w.get self).children.Nodup → ((AddChild w self child).get self).children.Nodup) ∧
    AddChild (AddChild w self child) self child = AddChild w self child := by
  by_cases h1 : (w.get child).object_id = (w.get self).object_id
  · have e : AddChild w self child = w := by simp [AddChild, h1]
    refine ⟨fun _ => e, fun h => absurd (Or.inl h1) h, ?_, ?_, ?_, ?_⟩ <;> simp [e]
  · by_cases h2 : child ∈ (w.get self).children
    · have e : AddChild w self child = w := by simp [AddChild, h1, h2]
      refine ⟨fun _ => e, fun h => absurd (Or.inr h2) h, ?_, ?_, ?_, ?_⟩ <;> simp [e]
    · have hget : ∀ k, (AddChild w self child).get k =
          if k = self then { w.get self with children := (w.get self).children ++ [child] }
          else w.get k := AddChild_get h1 h2
      have hcs : child ≠ self := fun e => h1 (by rw [e])
      refine ⟨fun h => ?_, fun _ => by rw [hget]; simp, fun k => ?_, fun k hk => ?_,
        fun hnd => ?_, ?_⟩
      · rcases h with h | h
        · exact absurd h h1
        · exact absurd h h2
      · rw [hget]
        by_cases e : k = self
        · subst e; simp
        · simp [e]
      · rw [hget]; simp [hk]
      · rw [hget]
        simp only [if_true]
        exact List.Nodup.append hnd (List.nodup_singleton child) (by simpa using h2)
      · have h3 : ((AddChild w self child).get child).object_id ≠
            ((AddChild w self child).get self).object_id := by
          rw [hget, hget]
          simpa [hcs] using h1
        have h4 : child ∈ ((AddChild w self child).get self).children := by
          rw [hget]; simp
        generalize AddChild w self child = w1 at h3 h4 ⊢
        simp [AddChild, h3, h4]

theorem AddChild_appends_once_witness :
    ((chain3.get 0).children.Nodup → ((AddChild chain3 0 2).get 0).children.Nodup) ∧
      ((AddChild chain3 0 2).get 0).children = (chain3.get 0).children ++ [2] :=
  ⟨(AddChild_appends_once chain3 0 2).2.2.2.2.1,
    (AddChild_appends_once chain3 0 2).2.1 (by decide)⟩

/-- C17: when the children lists form a tree, `GetDescendants` returns the vector it was
given followed by the pre-order listing of what is below the entity: every entity reached by
going down children lists, each once, not the entity itself, each child at once followed by
what is below it and the children in list order. -/
theorem GetDescendants_preorder (w : World) (rank : Nat → Nat) (ht : w.ChildrenTree rank)
    (n fuel : Nat) (hfuel : rank n < fuel) (out : List Nat) :
    GetDescendants fuel w n out = some (out ++ preorder w fuel n) ∧
      (∀ x, x ∈ preorder w fuel n ↔ IsListedBelow w n x) ∧
      (preorder w fuel n).Nodup ∧
      n ∉ preorder w fuel n ∧
      preorder w fuel n = (w.get n).children.flatMap (fun c => c :: preorder w fuel c) := by
  refine ⟨GetDescendants_eq ht.1 fuel n out hfuel, mem_preorder_iff ht.1 fuel n hfuel,
    preorder_nodup ht fuel n, fun hm => ?_, ?_⟩
  · have := ((mem_preorder_iff ht.1 fuel n hfuel n).1 hm).rank_lt ht.1
    omega
  · cases fuel with
    | zero => omega
    | succ fuel =>
      conv_lhs => rw [preorder]
      apply List.flatMap_congr
      intro c hc
      have hrc := ht.1 n c hc
      rw [preorder_stable ht.1 fuel (fuel + 1) c (by omega) (by omega)]

/-- C18: when the children lists form a tree, `GetDescendantByName` returns the first entity
of the pre-order listing whose name is the requested one, and the null result exactly when
nothing below the entity has that name; in the example the grandchild 2 under the first
child is returned although the later child 3 has the same name. -/
theorem GetDescendantByName_first_match (w : World) (rank : Nat → Nat)
    (ht : w.ChildrenTree rank) (n fuel : Nat) (hfuel : rank n < fuel) (name : String) :
    (∃ r, GetDescendantByName fuel w n name = some r ∧
      (r = none ↔ ∀ x, IsListedBelow w n x → (w.get x).object_name ≠ name) ∧
      (∀ y, r = some y → (w.get y).object_name = name ∧
        ∃ before after, preorder w fuel n = before ++ y :: after ∧
          ∀ c ∈ before, (w.get c).object_name ≠ name)) ∧
    GetDescendantByName 3 namedTree 0 "x" = some (some 2) := by
  refine ⟨⟨GetChildByName_loop w name (preorder w fuel n), ?_, ?_, ?_⟩, by decide⟩
  · simp [GetDescendantByName, GetDescendants_eq ht.1 fuel n [] hfuel]
  · rw [GetChildByName_loop_none]
    constructor
    · intro h x hx
      exact h x ((mem_preorder_iff ht.1 fuel n hfuel x).2 hx)
    · intro h x hx
      exact h x ((mem_preorder_iff ht.1 fuel n hfuel x).1 hx)
  · intro y hy
    exact GetChildByName_loop_some w name _ y hy

theorem namedTree_childrenTree : namedTree.ChildrenTree (fun k => 3 - k) := by
  have hch : ∀ a, (namedTree.get a).children =
      if a = 0 then [1, 3] else if a = 1 then [2] else [] := by
    intro a
    unfold namedTree
    simp only
    split_ifs <;> rfl
  refine ⟨?_, ?_, ?_⟩
  · intro a c hc
    rw [hch] at hc
    split_ifs at hc with h0 h1
    · subst h0
      simp at hc
      rcases hc with e | e <;> subst e <;> decide
    · subst h1
      simp at hc
      subst hc
      decide
    · simp at hc
  · intro a
    rw [hch]
    split_ifs <;> decide
  · intro a b c ha hb
    rw [hch] at ha hb
    split_ifs at ha hb <;> simp at ha hb <;> omega

theorem GetDescendants_preorder_witness :
    GetDescendants 4 namedTree 0 [7] = some ([7] ++ preorder namedTree 4 0) ∧
      (∀ x, x ∈ preorder namedTree 4 0 ↔ IsListedBelow namedTree 0 x) ∧
      (preorder namedTree 4 0).Nodup ∧
      0 ∉ preorder namedTree 4 0 ∧
      preorder namedTree 4 0 =
        (namedTree.get 0).children.flatMap (fun c => c :: preorder namedTree 4 c) :=
  GetDescendants_preorder namedTree (fun k => 3 - k) namedTree_childrenTree 0 4 (by decide) [7]

theorem GetDescendantByName_first_match_witness :
    (∃ r, GetDescendantByName 4 namedTree 0 "x" = some r ∧
      (r = none ↔ ∀ x, IsListedBelow namedTree 0 x → (namedTree.get x).object_name ≠ "x") ∧
      (∀ y, r = some y → (namedTree.get y).object_name = "x" ∧
        ∃ before after, preorder namedTree 4 0 = before ++ y :: after ∧
          ∀ c ∈ before, (namedTree.get c).object_name ≠ "x")) ∧
    GetDescendantByName 3 namedTree 0 "x" = some (some 2) :=
  GetDescendantByName_first_match namedTree (fun k => 3 - k) namedTree_childrenTree 0 4
    (by decide) "x"

/-! ## Trees of values -/

theorem collectM_some_iff {α : Type} (f : Nat → Option α) (cs : List Nat) :
    (∃ rs, collectM f cs = some rs) ↔ ∀ c ∈ cs, ∃ r, f c = some r := by
  induction cs with
  | nil => simp [collectM]
  | cons c cs ih =>
    constructor
    · rintro ⟨rs, h⟩
      simp only [collectM] at h
      cases hc : f c with
      | none => simp [hc] at h
      | some r =>
        simp only [hc] at h
        cases hcs : collectM f cs with
        | none => simp [hcs] at h
        | some rs2 =>
          intro x hx
          rcases List.mem_cons.1 hx with e | hx2
          · rw [e]; exact ⟨r, hc⟩
          · exact ih.1 ⟨rs2, hcs⟩ x hx2
    · intro h
      obtain ⟨r, hr⟩ := h c (List.mem_cons_self c cs)
      obtain ⟨rs, hrs⟩ := ih.2 (fun x hx => h x (List.mem_cons_of_mem _ hx))
      exact ⟨r :: rs, by simp [collectM, hr, hrs]⟩

theorem collectM_congr {α : Type} (f g : Nat → Option α) (cs : List Nat)
    (h : ∀ c ∈ cs, f c = g c) : collectM f cs = collectM g cs := by
  induction cs with
  | nil => rfl
  | cons c cs ih =>
    simp only [collectM]
    rw [h c (List.mem_cons_self c cs), ih (fun x hx => h x (List.mem_cons_of_mem _ hx))]

theorem collectM_append {α : Type} (f : Nat → Option α) (cs ds : List Nat) (rs ss : List α)
    (h1 : collectM f cs = some rs) (h2 : collectM f ds = some ss) :
    collectM f (cs ++ ds) = some (rs ++ ss) := by
  induction cs generalizing rs with
  | nil =>
    simp only [collectM, Option.some.injEq] at h1
    subst h1
    simpa using h2
  | cons c cs ih =>
    simp only [collectM] at h1
    cases hc : f c with
    | none => simp [hc] at h1
    | some r =>
      simp only [hc] at h1
      cases hcs : collectM f cs with
      | none => simp [hcs] at h1
      | some rs2 =>
        simp only [hcs, Option.some.injEq] at h1
        subst h1
        simp [collectM, hc, ih rs2 hcs]

/-- The tree below `n` is the same in two worlds that agree, on a set of handles closed
under taking children and containing `n`, in the children lists and in the values. -/
theorem treeOf_congr {α : Type} (f : Entity → α) (w1 w2 : World) (S : Nat → Prop)
    (hS : ∀ a c, S a → c ∈ (w1.get a).children → S c)
    (hsame : ∀ k, S k → (w2.get k).children = (w1.get k).children ∧
      f (w2.get k) = f (w1.get k)) :
    ∀ (d n : Nat), S n → treeOf f w2 d n = treeOf f w1 d n := by
  intro d
  induction d with
  | zero => intro n _; rfl
  | succ d ih =>
    intro n hn
    rw [treeOf, treeOf, (hsame n hn).1, (hsame n hn).2]
    rw [collectM_congr (treeOf f w2 d) (treeOf f w1 d) _ (fun c hc => ih c (hS n c hn hc))]

theorem treeOf_shape {α : Type} (f : Entity → α) (w : World) : ∀ (d n : Nat) (t : Tree α),
    treeOf f w d n = some t → ∃ s, treeOf (fun _ => ()) w d n = some s := by
  intro d
  induction d with
  | zero => intro n t h; simp [treeOf] at h
  | succ d ih =>
    intro n t h
    rw [treeOf] at h
    cases hc : collectM (treeOf f w d) (w.get n).children with
    | none => simp [hc] at h
    | some ts =>
      have h2 := (collectM_some_iff _ _).1 ⟨ts, hc⟩
      obtain ⟨ss, hss⟩ := (collectM_some_iff (treeOf (fun _ => ()) w d) (w.get n).children).2
        (fun c hcm => by
          obtain ⟨r, hr⟩ := h2 c hcm
          exact ih c r hr)
      exact ⟨Tree.node () ss, by simp [treeOf, hss]⟩

/-- The tree below an entity exists when the children lists below it are ranked. -/
theorem treeOf_returns {α : Type} (f : Entity → α) (w : World) (S : Nat → Prop)
    (rank : Nat → Nat) (hS : ∀ a c, S a → c ∈ (w.get a).children → S c ∧ rank c < rank a) :
    ∀ (d n : Nat), S n → rank n < d → ∃ t, treeOf f w d n = some t := by
  intro d
  induction d with
  | zero => intro n _ h; omega
  | succ d ih =>
    intro n hn hd
    obtain ⟨ts, hts⟩ := (collectM_some_iff (treeOf f w d) (w.get n).children).2
      (fun c hc => by
        have := hS n c hn hc
        exact ih c this.1 (by omega))
    exact ⟨Tree.node (f (w.get n)) ts, by simp [treeOf, hts]⟩

/-- `UpdateTransform` returns on an entity below which the tree exists. -/
theorem UpdateTransform_returns_of_tree : ∀ (d fuel : Nat) (w : World) (n : Nat) (s : Tree Unit),
    treeOf (fun _ => ()) w d n = some s → d ≤ fuel →
    ∃ w1, UpdateTransform fuel w n = some w1 := by
  intro d
  induction d with
  | zero => intro fuel w n s h; simp [treeOf] at h
  | succ d ih =>
    intro fuel w n s h hd
    cases fuel with
    | zero => omega
    | succ fuel =>
      rw [treeOf] at h
      cases hc : collectM (treeOf (fun _ => ()) w d) (w.get n).children with
      | none => simp [hc] at h
      | some ts =>
        have hall := (collectM_some_iff _ _).1 ⟨ts, hc⟩
        simp only [UpdateTransform]
        have hchildren : ∀ (w2 : World), (∀ k, (w2.get k).children = (w.get k).children) →
            ∀ c, treeOf (fun _ => ()) w2 d c = treeOf (fun _ => ()) w d c := fun w2 h2 c =>
          treeOf_congr (fun _ => ()) w w2 (fun _ => True) (fun _ _ _ _ => trivial)
            (fun k _ => ⟨h2 k, rfl⟩) d c trivial
        have key := forEachM_returns
          (fun w2 => ∀ k, (w2.get k).children = (w.get k).children)
          (UpdateTransform fuel) (w.get n).children
          (fun w2 c hcm hP => by
            obtain ⟨r, hr⟩ := hall c hcm
            obtain ⟨w3, h3⟩ := ih fuel w2 c r (by rw [hchildren w2 hP c]; exact hr) (by omega)
            refine ⟨w3, h3, fun k => ?_⟩
            rw [← hP k]
            exact ((UpdateTransform_frame fuel w2 c w3 h3).2.2 k).children_eq)
        have hset : ∀ k, ((w.set n
            { w.get n with
              matrix_local := Matrix.trs (w.get n).position_local (w.get n).rotation_local
                (w.get n).scale_local,
              matrix := (match (w.get n).parent with
                | some p => Matrix.mul (Matrix.trs (w.get n).position_local
                    (w.get n).rotation_local (w.get n).scale_local) (w.get p).matrix
                | none => Matrix.trs (w.get n).position_local (w.get n).rotation_local
                    (w.get n).scale_local),
              time_since_last_transform_sec := 0 }).get k).children = (w.get k).children := by
          intro k
          by_cases hk : k = n
          · subst hk; simp
          · simp [hk]
        obtain ⟨w1, h1, _⟩ := key _ hset
        refine ⟨w1, ?_⟩
        have hself := hset n
        simp only [World.get_set, if_true] at hself ⊢
        exact h1

/-- `UpdateTransform` writes only to the entities of a set that contains the entity and is
closed under taking children. -/
theorem UpdateTransform_within (S : Nat → Prop) : ∀ (fuel : Nat) (w : World) (n : Nat)
    (w1 : World), (∀ a c, S a → c ∈ (w.get a).children → S c) → S n →
    UpdateTransform fuel w n = some w1 → ∀ k, ¬ S k → w1.get k = w.get k := by
  intro fuel
  induction fuel with
  | zero => intro w n w1 _ _ h; simp [UpdateTransform] at h
  | succ fuel ih =>
    intro w n w1 hS hn h k hk
    simp only [UpdateTransform] at h
    have hkn : k ≠ n := fun e => hk (e ▸ hn)
    have hrel := forEachM_rel
      (fun wa wb => (∀ a c, S a → c ∈ (wa.get a).children → S c) →
        (wa.SameButTransform wb ∧ ∀ j, ¬ S j → wb.get j = wa.get j))
      (fun wa _ => ⟨World.SameButTransform.refl_world wa, fun _ _ => rfl⟩)
      (fun wa wb wc hab hbc hcl => by
        obtain ⟨s1, e1⟩ := hab hcl
        have hcl2 : ∀ a c, S a → c ∈ (wb.get a).children → S c := fun a c ha hc =>
          hcl a c ha (by rw [← (s1.2.2 a).children_eq]; exact hc)
        obtain ⟨s2, e2⟩ := hbc hcl2
        exact ⟨s1.trans_world s2, fun j hj => (e2 j hj).trans (e1 j hj)⟩)
      (UpdateTransform fuel) _
      (fun wa c wb hc hstep hcl => by
        have hcS : S c := by
          have : c ∈ (w.get n).children := by simpa using hc
          exact hS n c hn this
        exact ⟨UpdateTransform_frame fuel wa c wb hstep, ih wa c wb hcl hcS hstep⟩)
      _ _ h
    have hcl0 : ∀ a c, S a → c ∈ ((w.set n
        { w.get n with
          matrix_local := Matrix.trs (w.get n).position_local (w.get n).rotation_local
            (w.get n).scale_local,
          matrix := (match (w.get n).parent with
            | some p => Matrix.mul (Matrix.trs (w.get n).position_local
                (w.get n).rotation_local (w.get n).scale_local) (w.get p).matrix
            | none => Matrix.trs (w.get n).position_local (w.get n).rotation_local
                (w.get n).scale_local),
          time_since_last_transform_sec := 0 }).get a).children → S c := by
      intro a c ha hc
      by_cases e : a = n
      · subst e; exact hS a c ha (by simpa using hc)
      · exact hS a c ha (by simpa [e] using hc)
    rw [(hrel hcl0).2 k hk]
    simp [hkn]

/-! ## `GetActive` reads the ancestors only -/

theorem GetActive_congr (w1 w2 : World) (S : Nat → Prop)
    (hS : ∀ a p, S a → (w1.get a).parent = some p → S p)
    (hsame : ∀ k, S k → w2.get k = w1.get k) :
    ∀ (fuel n : Nat), S n → GetActive fuel w2 n = GetActive fuel w1 n := by
  intro fuel
  induction fuel with
  | zero => intro n _; rfl
  | succ fuel ih =>
    intro n hn
    rw [GetActive, GetActive, hsame n hn]
    cases hp : (w1.get n).parent with
    | none => rfl
    | some p =>
      simp only
      rw [ih p (hS n p hn hp)]

/-! ## `clone_entity` -/

theorem CreateEntity_eq (fuel : Nat) (w : World) :
    CreateEntity (fuel + 1) w =
      some (({ size := w.size + 1, get := w.get, next_id := w.next_id + 1 } : World).set w.size
        { object_id := w.next_id,
          matrix_local := Matrix.trs ⟨0, 0, 0⟩ ⟨0, 0, 0, 1⟩ ⟨1, 1, 1⟩,
          matrix := Matrix.trs ⟨0, 0, 0⟩ ⟨0, 0, 0, 1⟩ ⟨1, 1, 1⟩ }, w.size) := by
  simp only [CreateEntity, GenerateObjectId, Initialize, UpdateTransform, World.get_set,
    if_true, forEachM, World.set]
  congr 3
  funext j
  by_cases h : j = w.size <;> simp [h]

theorem SetPosition_leaf (ops : MathOps) (fuel : Nat) (w : World) (c : Nat) (p : Vector3)
    (hpar : (w.get c).parent = none) (hch : (w.get c).children = []) :
    SetPosition ops (fuel + 1) w c p =
      some (if ops.GetTranslation (w.get c).matrix = p ∨ (w.get c).position_local = p then w
        else w.set c { w.get c with
          position_local := p,
          matrix_local := Matrix.trs p (w.get c).rotation_local (w.get c).scale_local,
          matrix := Matrix.trs p (w.get c).rotation_local (w.get c).scale_local,
          time_since_last_transform_sec := 0 }) := by
  unfold SetPosition SetPositionLocal
  by_cases h1 : ops.GetTranslation (w.get c).matrix = p
  · simp [h1]
  · by_cases h2 : (w.get c).position_local = p
    · simp [h1, h2, hpar]
    · simp only [h1, h2, hpar, if_false, or_self, UpdateTransform, World.get_set, if_true, hch,
        forEachM, World.set]
      congr 2
      funext j
      by_cases h : j = c <;> simp [h]

theorem SetRotation_leaf (ops : MathOps) (fuel : Nat) (w : World) (c : Nat) (r : Quaternion)
    (hpar : (w.get c).parent = none) (hch : (w.get c).children = []) :
    SetRotation ops (fuel + 1) w c r =
      some (if ops.GetRotation (w.get c).matrix = r ∨ (w.get c).rotation_local = r then w
        else w.set c { w.get c with
          rotation_local := r,
          matrix_local := Matrix.trs (w.get c).position_local r (w.get c).scale_local,
          matrix := Matrix.trs (w.get c).position_local r (w.get c).scale_local,
          time_since_last_transform_sec := 0 }) := by
  unfold SetRotation SetRotationLocal
  by_cases h1 : ops.GetRotation (w.get c).matrix = r
  · simp [h1]
  · by_cases h2 : (w.get c).rotation_local = r
    · simp [h1, h2, hpar]
    · simp only [h1, h2, hpar, if_false, or_self, UpdateTransform, World.get_set, if_true, hch,
        forEachM, World.set]
      congr 2
      funext j
      by_cases h : j = c <;> simp [h]

theorem SetScale_leaf (ops : MathOps) (fuel : Nat) (w : World) (c : Nat) (s : Vector3)
    (hpar : (w.get c).parent = none) (hch : (w.get c).children = []) :
    SetScale ops (fuel + 1) w c s =
      some (if ops.GetScale (w.get c).matrix = s ∨ (w.get c).scale_local = s then w
        else w.set c { w.get c with
          scale_local := storedScale s,
          matrix_local := Matrix.trs (w.get c).position_local (w.get c).rotation_local
            (storedScale s),
          matrix := Matrix.trs (w.get c).position_local (w.get c).rotation_local
            (storedScale s),
          time_since_last_transform_sec := 0 }) := by
  unfold SetScale SetScaleLocal
  by_cases h1 : ops.GetScale (w.get c).matrix = s
  · simp [h1]
  · by_cases h2 : (w.get c).scale_local = s
    · simp [h1, h2, hpar]
    · simp only [h1, h2, hpar, if_false, or_self, UpdateTransform, World.get_set, if_true, hch,
        forEachM, World.set, storedScale]
      congr 2
      funext j
      by_cases h : j = c <;> simp [h]

theorem SetPosition_fresh (ops : MathOps) (fuel : Nat) (w : World) (c : Nat) (p : Vector3)
    (hpar : (w.get c).parent = none) (hch : (w.get c).children = [])
    (hm : (w.get c).matrix =
      Matrix.trs (w.get c).position_local (w.get c).rotation_local (w.get c).scale_local) :
    ∃ w1 pos, SetPosition ops (fuel + 1) w c p = some w1 ∧
      w1.size = w.size ∧ w1.next_id = w.next_id ∧ (∀ k, k ≠ c → w1.get k = w.get k) ∧
      w1.get c = { w.get c with
        position_local := pos, matrix_local := (w1.get c).matrix_local,
        matrix := Matrix.trs pos (w.get c).rotation_local (w.get c).scale_local,
        time_since_last_transform_sec := (w1.get c).time_since_last_transform_sec } ∧
      (pos = p ∨ (pos = (w.get c).position_local ∧
        ops.GetTranslation (Matrix.trs (w.get c).position_local (w.get c).rotation_local
          (w.get c).scale_local) = p)) := by
  rw [SetPosition_leaf ops fuel w c p hpar hch]
  by_cases h : ops.GetTranslation (w.get c).matrix = p ∨ (w.get c).position_local = p
  · refine ⟨w, (w.get c).position_local, by simp [h], rfl, rfl, fun _ _ => rfl, ?_, ?_⟩
    · rw [← hm]
    · rcases h with h | h
      · right; exact ⟨rfl, by rw [← hm]; exact h⟩
      · left; exact h
  · simp only [h, if_false]
    exact ⟨_, p, rfl, rfl, rfl, fun k hk => by simp [hk], by simp, Or.inl rfl⟩

theorem SetRotation_fresh (ops : MathOps) (fuel : Nat) (w : World) (c : Nat) (r : Quaternion)
    (hpar : (w.get c).parent = none) (hch : (w.get c).children = [])
    (hm : (w.get c).matrix =
      Matrix.trs (w.get c).position_local (w.get c).rotation_local (w.get c).scale_local) :
    ∃ w1 rot, SetRotation ops (fuel + 1) w c r = some w1 ∧
      w1.size = w.size ∧ w1.next_id = w.next_id ∧ (∀ k, k ≠ c → w1.get k = w.get k) ∧
      w1.get c = { w.get c with
        rotation_local := rot, matrix_local := (w1.get c).matrix_local,
        matrix := Matrix.trs (w.get c).position_local rot (w.get c).scale_local,
        time_since_last_transform_sec := (w1.get c).time_since_last_transform_sec } ∧
      (rot = r ∨ (rot = (w.get c).rotation_local ∧
        ops.GetRotation (Matrix.trs (w.get c).position_local (w.get c).rotation_local
          (w.get c).scale_local) = r)) := by
  rw [SetRotation_leaf ops fuel w c r hpar hch]
  by_cases h : ops.GetRotation (w.get c).matrix = r ∨ (w.get c).rotation_local = r
  · refine ⟨w, (w.get c).rotation_local, by simp [h], rfl, rfl, fun _ _ => rfl, ?_, ?_⟩
    · rw [← hm]
    · rcases h with h | h
      · right; exact ⟨rfl, by rw [← hm]; exact h⟩
      · left; exact h
  · simp only [h, if_false]
    exact ⟨_, r, rfl, rfl, rfl, fun k hk => by simp [hk], by simp, Or.inl rfl⟩

theorem SetScale_fresh (ops : MathOps) (fuel : Nat) (w : World) (c : Nat) (s : Vector3)
    (hpar : (w.get c).parent = none) (hch : (w.get c).children = [])
    (hm : (w.get c).matrix =
      Matrix.trs (w.get c).position_local (w.get c).rotation_local (w.get c).scale_local) :
    ∃ w1 scale, SetScale ops (fuel + 1) w c s = some w1 ∧
      w1.size = w.size ∧ w1.next_id = w.next_id ∧ (∀ k, k ≠ c → w1.get k = w.get k) ∧
      w1.get c = { w.get c with
        scale_local := scale, matrix_local := (w1.get c).matrix_local,
        matrix := Matrix.trs (w.get c).position_local (w.get c).rotation_local scale,
        time_since_last_transform_sec := (w1.get c).time_since_last_transform_sec } ∧
      (scale = s ∨ scale = storedScale s ∨ (scale = (w.get c).scale_local ∧
        ops.GetScale (Matrix.trs (w.get c).position_local (w.get c).rotation_local
          (w.get c).scale_local) = s)) := by
  rw [SetScale_leaf ops fuel w c s hpar hch]
  by_cases h : ops.GetScale (w.get c).matrix = s ∨ (w.get c).scale_local = s
  · refine ⟨w, (w.get c).scale_local, by simp [h], rfl, rfl, fun _ _ => rfl, ?_, ?_⟩
    · rw [← hm]
    · rcases h with h | h
      · right; right; exact ⟨rfl, by rw [← hm]; exact h⟩
      · left; exact h
  · simp only [h, if_false]
    exact ⟨_, storedScale s, rfl, rfl, rfl, fun k hk => by simp [hk], by simp, Or.inr (Or.inl rfl)⟩

theorem storedScale_of_ne_zero (s : Vector3) (hx : s.x ≠ 0) (hy : s.y ≠ 0) (hz : s.z ≠ 0) :
    storedScale s = s := by
  cases s
  simp only at hx hy hz
  simp [storedScale, hx, hy, hz]

/-- The component loop of `clone_entity` writes only the slots of the clone. -/
theorem clone_components_frame (cs : List (Option Component)) (c : Nat) : ∀ (w : World),
    (clone_components cs w c).size = w.size ∧ (clone_components cs w c).next_id = w.next_id ∧
    (∀ k, k ≠ c → (clone_components cs w c).get k = w.get k) ∧
    (clone_components cs w c).get c =
      { w.get c with components := ((clone_components cs w c).get c).components } := by
  induction cs with
  | nil => intro w; exact ⟨rfl, rfl, fun _ _ => rfl, rfl⟩
  | cons x cs ih =>
    intro w
    cases x with
    | none => exact ih w
    | some comp =>
      have hstep : ∀ (w1 : World),
          (SetAttributes (AddComponent w1 c comp.type) c comp.type comp.attributes).size =
            w1.size ∧
          (SetAttributes (AddComponent w1 c comp.type) c comp.type comp.attributes).next_id =
            w1.next_id ∧
          (∀ k, k ≠ c →
            (SetAttributes (AddComponent w1 c comp.type) c comp.type comp.attributes).get k =
              w1.get k) ∧
          (SetAttributes (AddComponent w1 c comp.type) c comp.type comp.attributes).get c =
            { w1.get c with components :=
              ((SetAttributes (AddComponent w1 c comp.type) c comp.type
                comp.attributes).get c).components } := by
        intro w1
        have hA : (AddComponent w1 c comp.type).size = w1.size ∧
            (AddComponent w1 c comp.type).next_id = w1.next_id ∧
            (∀ k, k ≠ c → (AddComponent w1 c comp.type).get k = w1.get k) ∧
            (AddComponent w1 c comp.type).get c =
              { w1.get c with components := ((AddComponent w1 c comp.type).get c).components } := by
          unfold AddComponent
          split
          · exact ⟨rfl, rfl, fun _ _ => rfl, rfl⟩
          · exact ⟨rfl, rfl, fun k hk => by simp [hk], by simp⟩
        generalize AddComponent w1 c comp.type = w2 at hA
        obtain ⟨a1, a2, a3, a4⟩ := hA
        unfold SetAttributes
        split
        · exact ⟨a1, a2, a3, a4⟩
        · refine ⟨a1, a2, fun k hk => by simp [hk, a3 k hk], ?_⟩
          simp only [World.get_set, if_true]
          rw [a4]
      obtain ⟨s1, s2, s3, s4⟩ := hstep w
      obtain ⟨i1, i2, i3, i4⟩ :=
        ih (SetAttributes (AddComponent w c comp.type) c comp.type comp.attributes)
      have e : clone_components (some comp :: cs) w c =
          clone_components cs
            (SetAttributes (AddComponent w c comp.type) c comp.type comp.attributes) c := rfl
      rw [e]
      refine ⟨i1.trans s1, i2.trans s2, fun k hk => (i3 k hk).trans (s3 k hk), ?_⟩
      rw [i4]
      conv_lhs => rw [s4]

/-! ### The slots of the clone -/

theorem getD_at_length {α : Type} (pre : List α) (x : α) (rest : List α) (d : α) :
    (pre ++ x :: rest).getD pre.length d = x := by
  induction pre with
  | nil => rfl
  | cons a pre ih => simpa using ih

theorem set_at_length {α : Type} (pre : List α) (x y : α) (rest : List α) :
    (pre ++ x :: rest).set pre.length y = pre ++ y :: rest := by
  induction pre with
  | nil => rfl
  | cons a pre ih => simp

/-- The component loop of `clone_entity`, run on a clone whose slots from some index on are
empty, with originals that sit in the slots of their kinds: the clone gets the originals. -/
theorem clone_components_slots (c : Nat) : ∀ (cs : List (Option Component)) (w : World)
    (pre : List (Option Component)),
    (w.get c).components = pre ++ List.replicate cs.length none →
    (∀ j, j < cs.length → ∀ comp ∈ cs.getD j none, comp.type.index = pre.length + j) →
    ((clone_components cs w c).get c).components = pre ++ cs := by
  intro cs
  induction cs with
  | nil =>
    intro w pre h _
    simpa [clone_components] using h
  | cons a cs ih =>
    intro w pre h hidx
    have hrest : ∀ j, j < cs.length → ∀ comp ∈ cs.getD j none,
        comp.type.index = (pre ++ [a]).length + j := by
      intro j hj comp hcomp
      have := hidx (j + 1) (by simp; omega) comp (by simpa using hcomp)
      simp only [List.length_append, List.length_singleton]
      omega
    cases a with
    | none =>
      have e : clone_components (none :: cs) w c = clone_components cs w c := rfl
      rw [e, ih w (pre ++ [none]) (by rw [h]; simp [List.replicate_succ]) hrest]
      simp
    | some comp =>
      have hi : comp.type.index = pre.length := by
        have := hidx 0 (by simp) comp (by simp)
        omega
      have e : clone_components (some comp :: cs) w c =
          clone_components cs
            (SetAttributes (AddComponent w c comp.type) c comp.type comp.attributes) c := rfl
      rw [e, ih _ (pre ++ [some comp]) ?_ hrest]
      · simp
      · have h1 : (w.get c).components = pre ++ none :: List.replicate cs.length none := by
          rw [h]; simp [List.replicate_succ]
        have hA : ((AddComponent w c comp.type).get c).components =
            pre ++ some { type := comp.type, attributes := [] } ::
              List.replicate cs.length none := by
          unfold AddComponent
          rw [h1, hi, getD_at_length]
          simp only [World.get_set, if_true]
          rw [set_at_length]
        unfold SetAttributes
        rw [hA, hi, getD_at_length]
        simp only [World.get_set, if_true]
        rw [set_at_length]
        cases comp
        simp

/-- On a new clone, whose slots are all empty, the component loop of `clone_entity` leaves
the slot table of a well-formed original. -/
theorem clone_components_wellFormed (c : Nat) (cs : List (Option Component)) (w : World)
    (hw : (w.get c).components = [none, none, none, none, none, none])
    (hcs : SlotsWellFormed cs) :
    ((clone_components cs w c).get c).components = cs := by
  have := clone_components_slots c cs w [] (by rw [hw, hcs.1]; rfl)
    (fun j hj comp hcomp => by
      have := hcs.2 j (by rw [← hcs.1]; exact hj) comp hcomp
      simpa using this)
  simpa using this

/-- What `clone_entity` returns: one new entity behind the next handle, with the second next
identity, no parent and no children; every other entity is as before.  The last part is the
slot table of the clone. -/
theorem clone_entity_full (ops : MathOps) (fuel : Nat) (w : World) (entity : Nat) (b : Bool)
    (hne : entity ≠ w.size)
    (hb : ∀ w3 : World, (∀ k, k ≠ w.size → w3.get k = w.get k) →
      GetActive (fuel + 1) w3 entity = some b) :
    ∃ w1, clone_entity ops (fuel + 1) w entity = some (w1, w.size) ∧
      w1.size = w.size + 1 ∧ w1.next_id = w.next_id + 2 ∧
      (∀ k, k ≠ w.size → w1.get k = w.get k) ∧
      (w1.get w.size).object_id = w.next_id + 1 ∧
      (w1.get w.size).parent = none ∧ (w1.get w.size).children = [] ∧
      (w1.get w.size).is_active = b ∧
      (w1.get w.size).object_name = (w.get entity).object_name ∧
      (ops.ReadsBack → (w.get entity).scale_local.x ≠ 0 → (w.get entity).scale_local.y ≠ 0 →
        (w.get entity).scale_local.z ≠ 0 →
        (w1.get w.size).position_local = (w.get entity).position_local ∧
        (w1.get w.size).rotation_local = (w.get entity).rotation_local ∧
        (w1.get w.size).scale_local = (w.get entity).scale_local) ∧
      (SlotsWellFormed (w.get entity).components →
        (w1.get w.size).components = (w.get entity).components) := by
  -- the world after `SetActive`
  obtain ⟨w4, hw4, h4s, h4n, h4k, h4c⟩ : ∃ w4 : World,
      clone_entity ops (fuel + 1) w entity =
        (match SetPosition ops (fuel + 1) w4 w.size (w4.get entity).position_local with
        | none => none
        | some w5 =>
          match SetRotation ops (fuel + 1) w5 w.size (w5.get entity).rotation_local with
          | none => none
          | some w6 =>
            match SetScale ops (fuel + 1) w6 w.size (w6.get entity).scale_local with
            | none => none
            | some w7 => some (clone_components (w7.get entity).components w7 w.size, w.size)) ∧
      w4.size = w.size + 1 ∧ w4.next_id = w.next_id + 2 ∧
      (∀ k, k ≠ w.size → w4.get k = w.get k) ∧
      w4.get w.size =
        { object_id := w.next_id + 1, object_name := (w.get entity).object_name,
          is_active := b,
          matrix_local := Matrix.trs ⟨0, 0, 0⟩ ⟨0, 0, 0, 1⟩ ⟨1, 1, 1⟩,
          matrix := Matrix.trs ⟨0, 0, 0⟩ ⟨0, 0, 0, 1⟩ ⟨1, 1, 1⟩ } := by
    refine ⟨SetActive (SetObjectName (SetObjectId
      (GenerateObjectId ((({ size := w.size + 1, get := w.get, next_id := w.next_id + 1 } :
        World).set w.size
        { object_id := w.next_id,
          matrix_local := Matrix.trs ⟨0, 0, 0⟩ ⟨0, 0, 0, 1⟩ ⟨1, 1, 1⟩,
          matrix := Matrix.trs ⟨0, 0, 0⟩ ⟨0, 0, 0, 1⟩ ⟨1, 1, 1⟩ }))).1 w.size (w.next_id + 1))
      w.size (w.get entity).object_name) w.size b, ?_, rfl, rfl, ?_, ?_⟩
    · unfold clone_entity
      rw [CreateEntity_eq]
      simp only []
      rw [hb _ (by
        intro k hk
        simp [SetObjectName, SetObjectId, GenerateObjectId, hk])]
      simp [SetObjectName, SetObjectId, GenerateObjectId, hne]
    · intro k hk
      simp [SetActive, SetObjectName, SetObjectId, GenerateObjectId, hk]
    · simp [SetActive, SetObjectName, SetObjectId, GenerateObjectId, hne]
  rw [hw4]
  have e4 : w4.get entity = w.get entity := h4k entity hne
  obtain ⟨w5, pos, h5, h5s, h5n, h5k, h5c, h5p⟩ := SetPosition_fresh ops fuel w4 w.size
    (w4.get entity).position_local (by rw [h4c]) (by rw [h4c]) (by rw [h4c])
  rw [h5]
  simp only []
  rw [h4c] at h5c h5p
  simp only [] at h5c h5p
  have e5 : w5.get entity = w.get entity := (h5k entity hne).trans e4
  obtain ⟨w6, rot, h6, h6s, h6n, h6k, h6c, h6p⟩ := SetRotation_fresh ops fuel w5 w.size
    (w5.get entity).rotation_local (by rw [h5c]) (by rw [h5c]) (by rw [h5c])
  rw [h6]
  simp only []
  rw [h5c] at h6c h6p
  simp only [] at h6c h6p
  have e6 : w6.get entity = w.get entity := (h6k entity hne).trans e5
  obtain ⟨w7, scale, h7, h7s, h7n, h7k, h7c, h7p⟩ := SetScale_fresh ops fuel w6 w.size
    (w6.get entity).scale_local (by rw [h6c]) (by rw [h6c]) (by rw [h6c])
  rw [h7]
  simp only []
  rw [h6c] at h7c h7p
  simp only [] at h7c h7p
  have e7 : w7.get entity = w.get entity := (h7k entity hne).trans e6
  obtain ⟨c1, c2, c3, c4⟩ := clone_components_frame (w7.get entity).components w.size w7
  rw [e4] at h5p
  rw [e5] at h6p
  rw [e6] at h7p
  refine ⟨_, rfl, ?_, ?_, ?_, ?_, ?_, ?_, ?_, ?_, ?_, ?_⟩
  · rw [c1, h7s, h6s, h5s, h4s]
  · rw [c2, h7n, h6n, h5n, h4n]
  · intro k hk
    rw [c3 k hk, h7k k hk, h6k k hk, h5k k hk, h4k k hk]
  · rw [c4, h7c]
  · rw [c4, h7c]
  · rw [c4, h7c]
  · rw [c4, h7c]
  · rw [c4, h7c]
  · intro hops hx hy hz
    have hpos : pos = (w.get entity).position_local := by
      rcases h5p with h | ⟨h1, h2⟩
      · exact h
      · rw [h1, ← h2]; exact hops.1.symm
    have hrot : rot = (w.get entity).rotation_local := by
      rcases h6p with h | ⟨h1, h2⟩
      · exact h
      · rw [h1, ← h2]; exact (hops.2.1 pos).symm
    have hscale : scale = (w.get entity).scale_local := by
      rcases h7p with h | h | ⟨h1, h2⟩
      · exact h
      · rw [h, storedScale_of_ne_zero _ hx hy hz]
      · rw [h1, ← h2]; exact (hops.2.2 pos rot).symm
    rw [c4, h7c]
    exact ⟨hpos, hrot, hscale⟩
  · intro hwf
    rw [e7]
    exact clone_components_wellFormed w.size _ w7 (by rw [h7c]) hwf

theorem clone_entity_spec (ops : MathOps) (fuel : Nat) (w : World) (entity : Nat) (b : Bool)
    (hne : entity ≠ w.size)
    (hb : ∀ w3 : World, (∀ k, k ≠ w.size → w3.get k = w.get k) →
      GetActive (fuel + 1) w3 entity = some b) :
    ∃ w1, clone_entity ops (fuel + 1) w entity = some (w1, w.size) ∧
      w1.size = w.size + 1 ∧ w1.next_id = w.next_id + 2 ∧
      (∀ k, k ≠ w.size → w1.get k = w.get k) ∧
      (w1.get w.size).object_id = w.next_id + 1 ∧
      (w1.get w.size).parent = none ∧ (w1.get w.size).children = [] ∧
      (w1.get w.size).is_active = b ∧
      (w1.get w.size).object_name = (w.get entity).object_name ∧
      (ops.ReadsBack → (w.get entity).scale_local.x ≠ 0 → (w.get entity).scale_local.y ≠ 0 →
        (w.get entity).scale_local.z ≠ 0 →
        (w1.get w.size).position_local = (w.get entity).position_local ∧
        (w1.get w.size).rotation_local = (w.get entity).rotation_local ∧
        (w1.get w.size).scale_local = (w.get entity).scale_local) := by
  obtain ⟨w1, h1, h2, h3, h4, h5, h6, h7, h8, h9, h10, -⟩ :=
    clone_entity_full ops fuel w entity b hne hb
  exact ⟨w1, h1, h2, h3, h4, h5, h6, h7, h8, h9, h10⟩

/-! ## Attaching a cloned child -/

theorem SetParent_attach (fuel : Nat) (w : World) (cc c0 : Nat)
    (hpc : (w.get cc).parent = none) (hp0 : (w.get c0).parent = none)
    (hid : (w.get cc).object_id ≠ (w.get c0).object_id)
    (hnm : cc ∉ (w.get c0).children) :
    SetParent (fuel + 1) w cc (some c0) =
      UpdateTransform (fuel + 1)
        ((w.set c0 { w.get c0 with children := (w.get c0).children ++ [cc] }).set cc
          { w.get cc with parent := some c0 }) cc := by
  have hne : cc ≠ c0 := fun e => hid (by rw [e])
  simp [SetParent, hid, hpc, IsDescendantOf, hp0, SetParent_relink, AddChild, hnm, hne]

theorem value_of_sameButTransform {α : Type} (f : Entity → α)
    (hf1 : IgnoresLinks f)
    {e1 e2 : Entity} (h : e1.SameButTransform e2) : f e2 = f e1 := by
  rw [h]
  exact hf1 e1 e1.parent e1.children _ _ _

theorem value_of_parent {α : Type} (f : Entity → α)
    (hf1 : IgnoresLinks f)
    (e : Entity) (par : Option Nat) : f { e with parent := par } = f e :=
  hf1 e par e.children e.matrix_local e.matrix e.time_since_last_transform_sec

theorem value_of_children {α : Type} (f : Entity → α)
    (hf1 : IgnoresLinks f)
    (e : Entity) (ch : List Nat) : f { e with children := ch } = f e :=
  hf1 e e.parent ch e.matrix_local e.matrix e.time_since_last_transform_sec

/-- One turn of the loop of `clone_entity_and_descendants`, after the child was cloned:
`SetParent` attaches the clone of the child as the last child of the clone. -/
theorem clone_loop_step {α : Type} (f : Entity → α)
    (hf1 : IgnoresLinks f)
    (fuel d : Nat) (hd : d ≤ fuel + 1) (wb wc w2 : World) (c0 : Nat) (dn : List Nat)
    (tsd : List (Tree α)) (tch : Tree α)
    (hb_parent : (wb.get c0).parent = none) (hb_id : (wb.get c0).object_id < wb.next_id)
    (hinv : CloneLoopInv wb wc c0 dn) (htsd : collectM (treeOf f wc d) dn = some tsd)
    (hfr : CloneFrame wc w2) (htch : treeOf f w2 d wc.size = some tch) :
    ∃ w5, SetParent (fuel + 1) w2 wc.size (some c0) = some w5 ∧
      CloneLoopInv wb w5 c0 (dn ++ [wc.size]) ∧
      collectM (treeOf f w5 d) (dn ++ [wc.size]) = some (tsd ++ [tch]) := by
  have hc0 : c0 < wc.size := hinv.size_lt
  have h2c0 : w2.get c0 = { wb.get c0 with children := dn } := by
    rw [hfr.old c0 hc0, hinv.self]
  have hpc : (w2.get wc.size).parent = none := hfr.root
  have hp0 : (w2.get c0).parent = none := by rw [h2c0]; exact hb_parent
  have hid : (w2.get wc.size).object_id ≠ (w2.get c0).object_id := by
    have h1 := (hfr.new_ids wc.size (Nat.le_refl _) hfr.size_lt).1
    have h2 : (w2.get c0).object_id = (wb.get c0).object_id := by rw [h2c0]
    have h3 := hinv.next_id_le
    omega
  have hnm : wc.size ∉ (w2.get c0).children := by
    rw [h2c0]
    intro hm
    have := (hinv.done_lt _ hm).2
    omega
  rw [SetParent_attach fuel w2 wc.size c0 hpc hp0 hid hnm]
  -- the world before the update, entity by entity
  have h4 : (∀ k, (((w2.set c0
      { w2.get c0 with children := (w2.get c0).children ++ [wc.size] }).set
      wc.size { w2.get wc.size with parent := some c0 }).get k) =
      if k = wc.size then { w2.get wc.size with parent := some c0 }
      else if k = c0 then { wb.get c0 with children := dn ++ [wc.size] }
      else w2.get k) ∧
      ((w2.set c0 { w2.get c0 with children := (w2.get c0).children ++ [wc.size] }).set
        wc.size { w2.get wc.size with parent := some c0 }).size = w2.size ∧
      ((w2.set c0 { w2.get c0 with children := (w2.get c0).children ++ [wc.size] }).set
        wc.size { w2.get wc.size with parent := some c0 }).next_id = w2.next_id := by
    refine ⟨fun k => ?_, rfl, rfl⟩
    have hcc : wc.size ≠ c0 := by omega
    by_cases e1 : k = wc.size
    · simp [e1]
    · by_cases e2 : k = c0
      · subst e2
        simp only [World.get_set, e1, if_false, if_true]
        rw [h2c0]
      · simp [e1, e2]
  generalize (w2.set c0 { w2.get c0 with children := (w2.get c0).children ++ [wc.size] }).set
      wc.size { w2.get wc.size with parent := some c0 } = w4 at h4 ⊢
  obtain ⟨h4, hsize4, hnext4⟩ := h4
  -- the part of the world below the new child
  have hclosed2 : ∀ a c, (wc.size ≤ a ∧ a < w2.size) → c ∈ (w2.get a).children →
      (wc.size ≤ c ∧ c < w2.size) := by
    intro a c ha hc
    have := hfr.new_children a ha.1 ha.2 c hc
    omega
  have h4children : ∀ k, (wc.size ≤ k ∧ k < w2.size) →
      (w4.get k).children = (w2.get k).children := by
    intro k hk
    rw [h4]
    by_cases e1 : k = wc.size
    · simp [e1]
    · have e2 : k ≠ c0 := by omega
      simp [e1, e2]
  have h4value : ∀ k, (wc.size ≤ k ∧ k < w2.size) → f (w4.get k) = f (w2.get k) := by
    intro k hk
    rw [h4]
    by_cases e1 : k = wc.size
    · simp only [e1, if_true]
      exact value_of_parent f hf1 _ _
    · have e2 : k ≠ c0 := by omega
      simp [e1, e2]
  have hclosed4 : ∀ a c, (wc.size ≤ a ∧ a < w2.size) → c ∈ (w4.get a).children →
      (wc.size ≤ c ∧ c < w2.size) := by
    intro a c ha hc
    rw [h4children a ha] at hc
    exact hclosed2 a c ha hc
  have htree4 : treeOf f w4 d wc.size = some tch := by
    rw [treeOf_congr f w2 w4 (fun k => wc.size ≤ k ∧ k < w2.size) hclosed2
      (fun k hk => ⟨h4children k hk, h4value k hk⟩) d wc.size ⟨Nat.le_refl _, hfr.size_lt⟩]
    exact htch
  obtain ⟨s, hs⟩ := treeOf_shape f w4 d wc.size tch htree4
  obtain ⟨w5, hw5⟩ := UpdateTransform_returns_of_tree d (fuel + 1) w4 wc.size s hs hd
  have hfrm := UpdateTransform_frame _ _ _ _ hw5
  have hout := UpdateTransform_within (fun k => wc.size ≤ k ∧ k < w2.size) (fuel + 1) w4 wc.size
    w5 hclosed4 ⟨Nat.le_refl _, hfr.size_lt⟩ hw5
  -- the updated world, entity by entity
  have h5low : ∀ k, k < wc.size → k ≠ c0 → w5.get k = wc.get k := by
    intro k hk hk0
    rw [hout k (by omega), h4]
    have e1 : k ≠ wc.size := by omega
    simp only [e1, hk0, if_false]
    exact hfr.old k hk
  have h5c0 : w5.get c0 = { wb.get c0 with children := dn ++ [wc.size] } := by
    rw [hout c0 (by omega), h4]
    have e1 : c0 ≠ wc.size := by omega
    simp [e1]
  have h5children : ∀ k, wc.size ≤ k → k < w2.size →
      (w5.get k).children = (w2.get k).children := by
    intro k hk1 hk2
    rw [(hfrm.2.2 k).children_eq, h4children k ⟨hk1, hk2⟩]
  have h5id : ∀ k, wc.size ≤ k → k < w2.size →
      (w5.get k).object_id = (w2.get k).object_id := by
    intro k hk1 hk2
    rw [(hfrm.2.2 k).object_id_eq, h4]
    by_cases e1 : k = wc.size
    · simp [e1]
    · have e2 : k ≠ c0 := by omega
      simp [e1, e2]
  have h5value : ∀ k, (wc.size ≤ k ∧ k < w2.size) → f (w5.get k) = f (w2.get k) := by
    intro k hk
    rw [value_of_sameButTransform f hf1 (hfrm.2.2 k), h4value k hk]
  have h5size : w5.size = w2.size := by
    rw [hfrm.1]
    exact hsize4
  refine ⟨w5, hw5, ?_, ?_⟩
  · exact
      { size_lt := by have := hfr.size_lt; omega
        next_id_le := by
          rw [hfrm.2.1, hnext4]
          have := hfr.next_id_lt
          have := hinv.next_id_le
          omega
        old := fun k hk => by
          rw [h5low k (by omega) (by omega)]
          exact hinv.old k hk
        self := h5c0
        done_lt := fun x hx => by
          rcases List.mem_append.1 hx with h | h
          · have := hinv.done_lt x h
            have := hfr.size_lt
            omega
          · simp only [List.mem_singleton] at h
            have := hfr.size_lt
            omega
        new_children := fun k hk1 hk2 c hc => by
          by_cases hlt : k < wc.size
          · rw [h5low k hlt (by omega)] at hc
            have := hinv.new_children k hk1 hlt c hc
            have := hfr.size_lt
            omega
          · rw [h5children k (by omega) (by omega)] at hc
            have := hfr.new_children k (by omega) (by omega) c hc
            omega
        new_ids := fun k hk1 hk2 => by
          by_cases hlt : k < wc.size
          · rw [h5low k hlt (by omega)]
            have := hinv.new_ids k hk1 hlt
            have := hfr.next_id_lt
            rw [hfrm.2.1, hnext4]
            omega
          · rw [h5id k (by omega) (by omega)]
            have := hfr.new_ids k (by omega) (by omega)
            have := hinv.next_id_le
            rw [hfrm.2.1, hnext4]
            omega
        ids_inj := fun k1 k2 a1 b1 a2 b2 he => by
          by_cases hlt1 : k1 < wc.size
          · by_cases hlt2 : k2 < wc.size
            · rw [h5low k1 hlt1 (by omega), h5low k2 hlt2 (by omega)] at he
              exact hinv.ids_inj k1 k2 a1 hlt1 a2 hlt2 he
            · rw [h5low k1 hlt1 (by omega), h5id k2 (by omega) (by omega)] at he
              have := (hinv.new_ids k1 a1 hlt1).2
              have := (hfr.new_ids k2 (by omega) (by omega)).1
              omega
          · by_cases hlt2 : k2 < wc.size
            · rw [h5id k1 (by omega) (by omega), h5low k2 hlt2 (by omega)] at he
              have := (hinv.new_ids k2 a2 hlt2).2
              have := (hfr.new_ids k1 (by omega) (by omega)).1
              omega
            · rw [h5id k1 (by omega) (by omega), h5id k2 (by omega) (by omega)] at he
              exact hfr.ids_inj k1 k2 (by omega) (by omega) (by omega) (by omega) he }
  · apply collectM_append
    · rw [collectM_congr (treeOf f w5 d) (treeOf f wc d) dn (fun x hx =>
        treeOf_congr f wc w5 (fun k => c0 < k ∧ k < wc.size)
          (fun a c ha hc => by
            have := hinv.new_children a ha.1 ha.2 c hc
            omega)
          (fun k hk => by rw [h5low k hk.2 (by omega)]; exact ⟨rfl, rfl⟩)
          d x (hinv.done_lt x hx))]
      exact htsd
    · have : treeOf f w5 d wc.size = some tch := by
        rw [treeOf_congr f w2 w5 (fun k => wc.size ≤ k ∧ k < w2.size) hclosed2
          (fun k hk => ⟨h5children k hk.1 hk.2, h5value k hk⟩) d wc.size
          ⟨Nat.le_refl _, hfr.size_lt⟩]
        exact htch
      simp [collectM, this]

/-- The loop of `clone_entity_and_descendants`, given that cloning any child behaves as
`CloneFrame` says and reproduces the tree below the child. -/
theorem clone_loop {α : Type} (ops : MathOps) (f : Entity → α) (hf1 : IgnoresLinks f)
    (w0 : World) (S : Nat → Prop) (fuel d : Nat) (hd : d ≤ fuel + 1) (wb : World) (c0 : Nat)
    (hb_parent : (wb.get c0).parent = none) (hb_id : (wb.get c0).object_id < wb.next_id)
    (hb_old : ∀ k, k < w0.size → wb.get k = w0.get k) (hc0 : w0.size ≤ c0)
    (hrec : ∀ (w : World) (entity : Nat) (t : Tree α), treeOf f w0 d entity = some t →
      S entity → w0.size ≤ w.size → (∀ k, k < w0.size → w.get k = w0.get k) →
      ∃ w1, clone_entity_and_descendants ops (fuel + 1) w entity = some (w1, w.size) ∧
        CloneFrame w w1 ∧ treeOf f w1 d w.size = some t) :
    ∀ (cs : List Nat) (ts : List (Tree α)) (wc : World) (dn : List Nat) (tsd : List (Tree α)),
      collectM (treeOf f w0 d) cs = some ts → (∀ c ∈ cs, S c) →
      CloneLoopInv wb wc c0 dn → collectM (treeOf f wc d) dn = some tsd →
      ∃ w1 dn1, forEachCloneM (clone_entity_and_descendants ops (fuel + 1))
          (fun w2 clone_child => SetParent (fuel + 1) w2 clone_child (some c0)) cs wc =
            some w1 ∧
        CloneLoopInv wb w1 c0 dn1 ∧ collectM (treeOf f w1 d) dn1 = some (tsd ++ ts) := by
  intro cs
  induction cs with
  | nil =>
    intro ts wc dn tsd hts _ hinv htsd
    simp only [collectM, Option.some.injEq] at hts
    subst hts
    exact ⟨wc, dn, rfl, hinv, by simpa using htsd⟩
  | cons ch rest ih =>
    intro ts wc dn tsd hts hS hinv htsd
    simp only [collectM] at hts
    cases hch : treeOf f w0 d ch with
    | none => simp [hch] at hts
    | some tch =>
      simp only [hch] at hts
      cases hrest : collectM (treeOf f w0 d) rest with
      | none => simp [hrest] at hts
      | some trest =>
        simp only [hrest, Option.some.injEq] at hts
        subst hts
        have hagree : ∀ k, k < w0.size → wc.get k = w0.get k := fun k hk => by
          rw [hinv.old k (by omega)]
          exact hb_old k hk
        obtain ⟨w2, hw2, hfr, htree2⟩ := hrec wc ch tch hch (hS ch (List.mem_cons_self _ _))
          (by have := hinv.size_lt; omega) hagree
        obtain ⟨w5, hw5, hinv5, htsd5⟩ := clone_loop_step f hf1 fuel d hd wb wc w2 c0 dn tsd tch
          hb_parent hb_id hinv htsd hfr htree2
        obtain ⟨w1, dn1, h1, hinv1, hts1⟩ := ih trest w5 (dn ++ [wc.size]) (tsd ++ [tch]) hrest
          (fun c hc => hS c (List.mem_cons_of_mem _ hc)) hinv5 htsd5
        refine ⟨w1, dn1, ?_, hinv1, ?_⟩
        · simp only [forEachCloneM, hw2, hw5]
          exact h1
        · rw [hts1]
          simp

/-- The function `clone_entity_and_descendants` on an entity of the original world `w0`,
called in a world that still has the entities of `w0`: it returns, with the clone behind the
next handle, the effect described by `CloneFrame`, and below the clone the tree of values
that is below the entity.  The value `f` of the clone may depend on its name, its local
position, rotation and scale, and its slot table. -/
theorem clone_spec_full {α : Type} (ops : MathOps) (f : Entity → α) (hf1 : IgnoresLinks f)
    (w0 : World) (S : Nat → Prop) (K : Nat)
    (hS_lt : ∀ a, S a → a < w0.size)
    (hS_ch : ∀ a c, S a → c ∈ (w0.get a).children → S c)
    (hup : ∀ a, S a → reachesRoot w0 K a = true)
    (hpar : ∀ a p, a < w0.size → (w0.get a).parent = some p → p < w0.size)
    (hf2 : ∀ (entity : Nat) (e : Entity), S entity →
      e.object_name = (w0.get entity).object_name →
      (ops.ReadsBack → (w0.get entity).scale_local.x ≠ 0 →
        (w0.get entity).scale_local.y ≠ 0 → (w0.get entity).scale_local.z ≠ 0 →
        e.position_local = (w0.get entity).position_local ∧
        e.rotation_local = (w0.get entity).rotation_local ∧
        e.scale_local = (w0.get entity).scale_local) →
      (SlotsWellFormed (w0.get entity).components →
        e.components = (w0.get entity).components) →
      f e = f (w0.get entity)) :
    ∀ (d fuel : Nat) (w : World) (entity : Nat) (t : Tree α),
      treeOf f w0 d entity = some t → S entity → d + K + 1 ≤ fuel → w0.size ≤ w.size →
      (∀ k, k < w0.size → w.get k = w0.get k) →
      ∃ w1, clone_entity_and_descendants ops fuel w entity = some (w1, w.size) ∧
        CloneFrame w w1 ∧ treeOf f w1 d w.size = some t := by
  intro d
  induction d with
  | zero => intro fuel w entity t h; simp [treeOf] at h
  | succ d ih =>
    intro fuel w entity t ht hS hfuel hsize hagree
    obtain ⟨fuel1, rfl⟩ : ∃ fuel1, fuel = fuel1 + 1 := ⟨fuel - 1, by omega⟩
    obtain ⟨fuel2, rfl⟩ : ∃ fuel2, fuel1 = fuel2 + 1 := ⟨fuel1 - 1, by omega⟩
    have hent : entity < w0.size := hS_lt entity hS
    have hne : entity ≠ w.size := by omega
    -- the activity that `clone_entity` reads
    obtain ⟨b, hb, _⟩ := GetActive_returns w0 K entity (fuel2 + 1) (hup entity hS) (by omega)
    have hb2 : ∀ w3 : World, (∀ k, k ≠ w.size → w3.get k = w.get k) →
        GetActive (fuel2 + 1) w3 entity = some b := by
      intro w3 h3
      rw [GetActive_congr w0 w3 (fun k => k < w0.size) (fun a p ha hp => hpar a p ha hp)
        (fun k hk => by rw [h3 k (by omega)]; exact hagree k hk) (fuel2 + 1) entity hent]
      exact hb
    obtain ⟨wb, hwb, hbs, hbn, hbk, hbid, hbpar, hbch, _, hbname, hbvalues, hbslots⟩ :=
      clone_entity_full ops fuel2 w entity b hne hb2
    rw [hagree entity hent] at hbname hbvalues hbslots
    have hbval : f (wb.get w.size) = f (w0.get entity) :=
      hf2 entity (wb.get w.size) hS hbname hbvalues hbslots
    have hb_old : ∀ k, k < w0.size → wb.get k = w0.get k := fun k hk => by
      rw [hbk k (by omega)]
      exact hagree k hk
    -- the tree below the entity
    rw [treeOf] at ht
    cases hts : collectM (treeOf f w0 d) (w0.get entity).children with
    | none => simp [hts] at ht
    | some ts =>
      simp only [hts, Option.some.injEq] at ht
      subst ht
      have hself : wb.get w.size = { wb.get w.size with children := [] } := by
        have := hbch
        cases hbe : wb.get w.size
        rw [hbe] at this
        simp only at this
        simp [this]
      have hinv0 : CloneLoopInv wb wb w.size [] :=
        { size_lt := by omega
          next_id_le := Nat.le_refl _
          old := fun _ _ => rfl
          self := hself
          done_lt := fun x hx => by simp at hx
          new_children := fun k h1 h2 => by omega
          new_ids := fun k h1 h2 => by omega
          ids_inj := fun k1 k2 h1 h2 => by omega }
      obtain ⟨w1, dn1, h1, hinv1, hts1⟩ := clone_loop ops f hf1 w0 S fuel2 d (by omega) wb w.size
        hbpar (by omega) hb_old hsize
        (fun w2 ent t2 ht2 hS2 hsz2 hag2 => ih (fuel2 + 1) w2 ent t2 ht2 hS2 (by omega) hsz2 hag2)
        (w0.get entity).children ts wb [] [] hts
        (fun c hc => hS_ch entity c hS hc) hinv0 rfl
      have hchildren : (wb.get entity).children = (w0.get entity).children := by
        rw [hb_old entity hent]
      refine ⟨w1, ?_, ?_, ?_⟩
      · rw [clone_entity_and_descendants]
        simp only [hwb, hchildren, h1]
      · exact
          { size_lt := by have := hinv1.size_lt; omega
            next_id_lt := by have := hinv1.next_id_le; omega
            old := fun k hk => by
              rw [hinv1.old k hk]
              exact hbk k (by omega)
            root := by
              rw [hinv1.self]
              exact hbpar
            new_children := fun k hk1 hk2 c hc => by
              by_cases e : k = w.size
              · subst e
                rw [hinv1.self] at hc
                exact hinv1.done_lt c hc
              · exact hinv1.new_children k (by omega) hk2 c hc
            new_ids := fun k hk1 hk2 => by
              by_cases e : k = w.size
              · subst e
                rw [hinv1.self]
                simp only
                have := hinv1.next_id_le
                omega
              · have := hinv1.new_ids k (by omega) hk2
                omega
            ids_inj := fun k1 k2 a1 b1 a2 b2 he => by
              have hid0 : (w1.get w.size).object_id = w.next_id + 1 := by
                rw [hinv1.self]
                exact hbid
              by_cases e1 : k1 = w.size
              · by_cases e2 : k2 = w.size
                · omega
                · have := (hinv1.new_ids k2 (by omega) b2).1
                  rw [e1, hid0] at he
                  omega
              · by_cases e2 : k2 = w.size
                · have := (hinv1.new_ids k1 (by omega) b1).1
                  rw [e2, hid0] at he
                  omega
                · exact hinv1.ids_inj k1 k2 (by omega) b1 (by omega) b2 he }
      · have hval : f (w1.get w.size) = f (w0.get entity) := by
          rw [hinv1.self]
          rw [value_of_children f hf1]
          exact hbval
        have hch1 : (w1.get w.size).children = dn1 := by rw [hinv1.self]
        simp only [treeOf, hch1]
        simp only [List.nil_append] at hts1
        rw [hts1, hval]

/-- The same for a value that depends on the name and the local position, rotation and
scale only. -/
theorem clone_spec {α : Type} (ops : MathOps) (f : Entity → α) (hf1 : IgnoresLinks f)
    (w0 : World) (S : Nat → Prop) (K : Nat)
    (hS_lt : ∀ a, S a → a < w0.size)
    (hS_ch : ∀ a c, S a → c ∈ (w0.get a).children → S c)
    (hup : ∀ a, S a → reachesRoot w0 K a = true)
    (hpar : ∀ a p, a < w0.size → (w0.get a).parent = some p → p < w0.size)
    (hf2 : ∀ (entity : Nat) (e : Entity), S entity →
      e.object_name = (w0.get entity).object_name →
      (ops.ReadsBack → (w0.get entity).scale_local.x ≠ 0 →
        (w0.get entity).scale_local.y ≠ 0 → (w0.get entity).scale_local.z ≠ 0 →
        e.position_local = (w0.get entity).position_local ∧
        e.rotation_local = (w0.get entity).rotation_local ∧
        e.scale_local = (w0.get entity).scale_local) →
      f e = f (w0.get entity)) :
    ∀ (d fuel : Nat) (w : World) (entity : Nat) (t : Tree α),
      treeOf f w0 d entity = some t → S entity → d + K + 1 ≤ fuel → w0.size ≤ w.size →
      (∀ k, k < w0.size → w.get k = w0.get k) →
      ∃ w1, clone_entity_and_descendants ops fuel w entity = some (w1, w.size) ∧
        CloneFrame w w1 ∧ treeOf f w1 d w.size = some t :=
  clone_spec_full ops f hf1 w0 S K hS_lt hS_ch hup hpar
    (fun entity e hS hname hvalues _ => hf2 entity e hS hname hvalues)

theorem ignoresLinks_unit : IgnoresLinks (fun _ : Entity => ()) := fun _ _ _ _ _ _ => rfl

/-- Cloning in a consistent acyclic world: the call returns with the effect that
`CloneFrame` describes. -/
theorem Clone_frame (ops : MathOps) (w : World) (hv : w.ValidHandles) (hc : w.Consistent)
    (hac : w.Acyclic) (self : Nat) (hself : self < w.size) (fuel : Nat)
    (hfuel : 2 * w.size + 2 ≤ fuel) :
    ∃ w1, Clone ops fuel w self = some (w1, w.size) ∧ CloneFrame w w1 := by
  obtain ⟨t, ht⟩ := treeOf_returns (fun _ : Entity => ()) w (fun k => k < w.size) w.height
    (fun a c ha hcm => World.height_child_lt hv hc hac ha hcm) (w.size + 1) self hself
    (by have := w.height_le self; omega)
  obtain ⟨w1, h1, hfr, _⟩ := clone_spec ops (fun _ : Entity => ()) ignoresLinks_unit w
    (fun k => k < w.size) w.size (fun _ h => h)
    (fun a c ha hcm => (hv a ha).2 c hcm) (fun a ha => hac a ha)
    (fun a p ha hp => (hv a ha).1 p (by simp [hp])) (fun _ _ _ _ _ => rfl)
    (w.size + 1) fuel w self t ht hself (by omega) (Nat.le_refl _) (fun _ _ => rfl)
  exact ⟨w1, h1, hfr⟩

/-- C11: in a consistent acyclic tree `Clone` returns and every entity that was registered
before the call is afterwards exactly as it was, in every field; the registry has only
grown by the new entities. -/
theorem Clone_leaves_existing_untouched (ops : MathOps) (w : World) (hv : w.ValidHandles)
    (hc : w.Consistent) (hac : w.Acyclic) (self : Nat) (hself : self < w.size) (fuel : Nat)
    (hfuel : 2 * w.size + 2 ≤ fuel) :
    ∃ w1 clone, Clone ops fuel w self = some (w1, clone) ∧ w.size ≤ clone ∧
      w.size < w1.size ∧ ∀ k, k < w.size → w1.get k = w.get k := by
  obtain ⟨w1, h1, hfr⟩ := Clone_frame ops w hv hc hac self hself fuel hfuel
  exact ⟨w1, w.size, h1, Nat.le_refl _, hfr.size_lt, hfr.old⟩

theorem Clone_leaves_existing_untouched_witness :
    ∃ w1 clone, Clone exampleOps 8 chain3 0 = some (w1, clone) ∧ chain3.size ≤ clone ∧
      chain3.size < w1.size ∧ ∀ k, k < chain3.size → w1.get k = chain3.get k :=
  Clone_leaves_existing_untouched exampleOps chain3 (by decide) (by decide) (by decide) 0
    (by decide) 8 (by decide)

/-- C14: when every identity in use is below the next one the generator hands out, the
entities that one `Clone` call in a consistent acyclic tree creates have identities that are
pairwise distinct and differ from the identity of every entity registered before; the
identity of the clone differs from that of the cloned entity. -/
theorem Clone_identities_fresh (ops : MathOps) (w : World) (hv : w.ValidHandles)
    (hc : w.Consistent) (hac : w.Acyclic)
    (hgen : ∀ k, k < w.size → (w.get k).object_id < w.next_id)
    (self : Nat) (hself : self < w.size) (fuel : Nat) (hfuel : 2 * w.size + 2 ≤ fuel) :
    ∃ w1 clone, Clone ops fuel w self = some (w1, clone) ∧
      (∀ k j, w.size ≤ k → k < w1.size → j < w.size →
        (w1.get k).object_id ≠ (w.get j).object_id) ∧
      (∀ k1 k2, w.size ≤ k1 → k1 < w1.size → w.size ≤ k2 → k2 < w1.size →
        (w1.get k1).object_id = (w1.get k2).object_id → k1 = k2) ∧
      (w1.get clone).object_id ≠ (w.get self).object_id := by
  obtain ⟨w1, h1, hfr⟩ := Clone_frame ops w hv hc hac self hself fuel hfuel
  have hnew : ∀ k j, w.size ≤ k → k < w1.size → j < w.size →
      (w1.get k).object_id ≠ (w.get j).object_id := by
    intro k j hk1 hk2 hj
    have := (hfr.new_ids k hk1 hk2).1
    have := hgen j hj
    omega
  exact ⟨w1, w.size, h1, hnew, hfr.ids_inj,
    hnew w.size self (Nat.le_refl _) hfr.size_lt hself⟩

theorem Clone_identities_fresh_witness :
    ∃ w1 clone, Clone exampleOps 8 chain3 0 = some (w1, clone) ∧
      (∀ k j, chain3.size ≤ k → k < w1.size → j < chain3.size →
        (w1.get k).object_id ≠ (chain3.get j).object_id) ∧
      (∀ k1 k2, chain3.size ≤ k1 → k1 < w1.size → chain3.size ≤ k2 → k2 < w1.size →
        (w1.get k1).object_id = (w1.get k2).object_id → k1 = k2) ∧
      (w1.get clone).object_id ≠ (chain3.get 0).object_id :=
  Clone_identities_fresh exampleOps chain3 (by decide) (by decide) (by decide) (by decide) 0
    (by decide) 8 (by decide)

theorem streamed_1234567 : streamed 1234567 = 1234570 := by
  have h : (⌊(1234567 : ℚ) / 10 + 1 / 2⌋ : ℤ) = 123457 := by
    rw [Int.floor_eq_iff]; norm_num
  unfold streamed
  rw [if_neg (by norm_num), if_pos (by norm_num)]
  rw [show (100 : ℕ) = 98 + 1 + 1 from rfl, streamedPositive, if_pos (by norm_num),
    streamedPositive, if_neg (by norm_num), if_neg (by norm_num), h]
  norm_num

/-- C13, evaluated: the clone of an active entity whose parent is inactive has its stored
activity flag cleared, because `clone_entity` stores what `GetActive` returns. -/
theorem Clone_stores_effective_activity :
    (inactiveRoot.get 1).is_active = true ∧
      (Clone exampleOps 3 inactiveRoot 1).map (fun r => (r.1.get r.2).is_active) =
        some false := by
  decide

/-- C15, evaluated: an entity at x = 1234567 is saved with six significant digits, so that
loading the record into a new entity of a new registry gives x = 1234570. -/
theorem Save_Load_loses_digits :
    (farEntity.bind fun w =>
      (Save 1 w 0).bind fun record =>
        (CreateEntity 1 World.empty).bind fun fresh =>
          (Load 1 fresh.1 0 record).map fun w1 =>
            ((w.get 0).position_local.x, (w1.get 0).position_local.x)) =
      some (1234567, 1234570) := by
  simp [farEntity, CreateEntity, GenerateObjectId, Initialize, Load, Load_children,
    UpdateTransform, forEachM, World.set, World.empty, SetPositionLocal, Save, collectM,
    streamed_1234567]

/-! ## `RemoveChild` with either flag -/

theorem World.ChildrenRanked.mono {w w1 : World} {rank : Nat → Nat} (hr : w.ChildrenRanked rank)
    (h : ∀ a c, c ∈ (w1.get a).children → c ∈ (w.get a).children) : w1.ChildrenRanked rank :=
  fun a c hc => hr a c (h a c hc)

/-- What `SetParent(null)` does to the links: the entity loses its parent, the children list
of the old parent loses the entries with the identity of the entity, nothing else changes. -/
theorem SetParent_none_links (w : World) (rank : Nat → Nat) (hr : w.ChildrenRanked rank)
    (self fuel : Nat) (hfuel : rank self < fuel) :
    ∃ w1, SetParent fuel w self none = some w1 ∧
      (w1.get self).parent = none ∧
      (∀ k, k ≠ self → (w1.get k).parent = (w.get k).parent) ∧
      ∀ k, (w1.get k).children =
        if (w.get self).parent = some k ∧ (w.get self).object_id ≠ (w.get k).object_id then
          (w.get k).children.filter
            (fun v => (w.get v).object_id ≠ (w.get self).object_id)
        else (w.get k).children := by
  -- the world after the erase
  obtain ⟨w2, hw2, hw2c, hw2p⟩ : ∃ w2 : World,
      w2 = (match (w.get self).parent with
        | some p => RemoveChild_false w p self
        | none => w) ∧
      (∀ k, (w2.get k).children =
        if (w.get self).parent = some k ∧ (w.get self).object_id ≠ (w.get k).object_id then
          (w.get k).children.filter
            (fun v => (w.get v).object_id ≠ (w.get self).object_id)
        else (w.get k).children) ∧
      ∀ k, (w2.get k).parent = (w.get k).parent := by
    refine ⟨_, rfl, ?_, ?_⟩
    · intro k
      cases hp : (w.get self).parent with
      | none => simp
      | some p =>
        simp only [RemoveChild_false]
        by_cases hid : (w.get self).object_id = (w.get p).object_id
        · rw [if_pos hid]
          by_cases hk : p = k
          · subst hk; simp [hid]
          · simp [hk]
        · rw [if_neg hid]
          by_cases hk : k = p
          · subst hk; simp [hid]
          · have : p ≠ k := fun h => hk h.symm
            simp [hk, this]
    · intro k
      cases hp : (w.get self).parent with
      | none => rfl
      | some p =>
        simp only [RemoveChild_false]
        split
        · rfl
        · simp only [World.get_set]
          split
          · next h => subst h; rfl
          · rfl
  have hsub : ∀ a c, c ∈ (w2.get a).children → c ∈ (w.get a).children := by
    intro a c hc
    rw [hw2c] at hc
    split at hc
    · exact (List.mem_filter.1 hc).1
    · exact hc
  have hr3 : (w2.set self { w2.get self with parent := none }).ChildrenRanked rank := by
    apply hr.mono
    intro a c hc
    apply hsub
    simp only [World.get_set] at hc
    split at hc
    · next h => subst h; exact hc
    · exact hc
  obtain ⟨w3, hw3⟩ := UpdateTransform_returns (fun _ => True) rank fuel
    (w2.set self { w2.get self with parent := none }) self
    (fun a c _ hc => ⟨trivial, hr3 a c hc⟩) trivial hfuel
  have hfr := UpdateTransform_frame _ _ _ _ hw3
  refine ⟨w3, ?_, ?_, ?_, ?_⟩
  · simp only [SetParent, SetParent_relink]
    subst hw2
    exact hw3
  · rw [(hfr.2.2 self).parent_eq]; simp
  · intro k hk
    rw [(hfr.2.2 k).parent_eq]; simp [hk, hw2p]
  · intro k
    rw [(hfr.2.2 k).children_eq, ← hw2c k]
    simp only [World.get_set]
    split
    · next h => subst h; rfl
    · rfl

theorem chain3_ranked : chain3.ChildrenRanked (fun k => 2 - k) := by
  intro a c hc
  unfold chain3 at hc
  simp only at hc
  split_ifs at hc with h0 h1 h2
  · subst h0; simp at hc; subst hc; decide
  · subst h1; simp at hc; subst hc; decide
  · simp at hc
  · simp at hc

/-- C23, evaluated: `AddChild(nullptr)` on the root of the chain 0 - 1 - 2 does not complete:
the assertion stops it, and where assertions are off it reads through the null pointer. -/
theorem AddChild_null_does_not_complete :
    AddChild_ptr true chain3 0 none = Outcome.assertion_failed ∧
      AddChild_ptr false chain3 0 none = Outcome.null_dereference ∧
      AddChild_ptr true chain3 0 none ≠ Outcome.returned chain3 :=
  ⟨rfl, rfl, fun h => Outcome.noConfusion h⟩

/-- C23, amended: a null argument trips the assertion of `AddChild`, `RemoveChild` and
`IsDescendantOf`; with assertions off the call reads through the null pointer, except that
`IsDescendantOf` on an entity without parent returns `false` before it reads the argument.
The argument that is refused silently is a child with the identity of the entity itself:
`AddChild` and `RemoveChild` then return with the world as it was. -/
theorem null_argument_trips_assertion (enabled : Bool) (fuel : Nat) (w : World) (P : Nat) :
    AddChild_ptr enabled w P none =
      (if enabled then Outcome.assertion_failed else Outcome.null_dereference) ∧
    (∀ flag, RemoveChild_ptr enabled fuel w P none flag =
      some (if enabled then Outcome.assertion_failed else Outcome.null_dereference)) ∧
    IsDescendantOf_ptr enabled fuel w P none =
      some (if enabled then Outcome.assertion_failed
        else if (w.get P).parent = none then Outcome.returned false
        else Outcome.null_dereference) ∧
    (∀ c, (w.get c).object_id = (w.get P).object_id →
      AddChild_ptr enabled w P (some c) = Outcome.returned w ∧
      ∀ flag, RemoveChild_ptr enabled fuel w P (some c) flag = some (Outcome.returned w)) := by
  refine ⟨?_, ?_, ?_, ?_⟩
  · cases enabled <;> rfl
  · intro flag
    cases enabled <;> rfl
  · cases enabled
    · cases h : (w.get P).parent <;> simp [IsDescendantOf_ptr, SP_ASSERT, h]
    · rfl
  · intro c hc
    refine ⟨?_, ?_⟩
    · simp [AddChild_ptr, SP_ASSERT, AddChild, hc]
    · intro flag
      simp [RemoveChild_ptr, SP_ASSERT, RemoveChild, hc]

theorem null_argument_trips_assertion_witness :
    AddChild_ptr true chain3 0 (some 0) = Outcome.returned chain3 ∧
      ∀ flag, RemoveChild_ptr true 0 chain3 0 (some 0) flag = some (Outcome.returned chain3) :=
  (null_argument_trips_assertion true 0 chain3 0).2.2.2 0 rfl

/-! ## `Load` and the matrices -/

/-- C26, evaluated: a newly created entity loads a record with position (1, 0, 0); the
position is stored but both matrices keep the value computed for position (0, 0, 0). -/
theorem Load_leaves_matrices_stale :
    ((CreateEntity 1 World.empty).bind fun fresh =>
        (Load 1 fresh.1 0
          (Record.mk "Entity" 0 true ⟨1, 0, 0⟩ ⟨0, 0, 0, 1⟩ ⟨1, 1, 1⟩ [])).map fun w =>
          ((w.get 0).position_local, (w.get 0).matrix_local, (w.get 0).matrix)) =
      some (⟨1, 0, 0⟩, Matrix.trs ⟨0, 0, 0⟩ ⟨0, 0, 0, 1⟩ ⟨1, 1, 1⟩,
        Matrix.trs ⟨0, 0, 0⟩ ⟨0, 0, 0, 1⟩ ⟨1, 1, 1⟩) := by
  simp [Load, Load_children, CreateEntity, GenerateObjectId, Initialize,
    UpdateTransform, forEachM, World.set, World.empty]

/-! ## The post-condition of `UpdateTransform` -/

theorem IsListedBelow.first {w : World} {n x : Nat} (h : IsListedBelow w n x) :
    ∃ c, c ∈ (w.get n).children ∧ (x = c ∨ IsListedBelow w c x) := by
  induction h with
  | child hx => exact ⟨_, hx, Or.inl rfl⟩
  | step _ hx ih =>
    obtain ⟨c, hc, hp⟩ := ih
    refine ⟨c, hc, Or.inr ?_⟩
    rcases hp with e | hp
    · subst e; exact IsListedBelow.child hx
    · exact IsListedBelow.step hp hx


/-- The post-condition survives a change elsewhere: an entity that is as it was, with a
parent that is as it was, is still up to date. -/
theorem World.JustUpdated.of_eq {w1 w2 : World} {k : Nat} (h : w1.JustUpdated k)
    (hk : w2.get k = w1.get k)
    (hp : ∀ p, (w1.get k).parent = some p → (w2.get p).matrix = (w1.get p).matrix) :
    w2.JustUpdated k := by
  unfold World.JustUpdated at h ⊢
  rw [hk]
  refine ⟨h.1, ?_, h.2.2⟩
  rw [h.2.1]
  cases hpar : (w1.get k).parent with
  | none => rfl
  | some p => simp only; rw [hp p hpar]

/-- What `UpdateTransform` establishes, stated against a world `w0` that fixes the links:
when every entry of a children list at or below `n` has its lister as parent, and the parent
of `n` is neither `n` nor below `n`, the call returns, changes nothing outside of `n` and what
is listed below it, and leaves `n` and everything listed below it up to date. -/
theorem UpdateTransform_post (w0 : World) (rank : Nat → Nat) (hr : w0.ChildrenRanked rank) :
    ∀ (fuel : Nat) (w : World) (n : Nat),
      (∀ k, (w.get k).children = (w0.get k).children ∧ (w.get k).parent = (w0.get k).parent) →
      (∀ a c, (a = n ∨ IsListedBelow w0 n a) → c ∈ (w0.get a).children →
        (w0.get c).parent = some a) →
      (∀ p, (w0.get n).parent = some p → p ≠ n ∧ ¬ IsListedBelow w0 n p) →
      rank n < fuel →
      ∃ w1, UpdateTransform fuel w n = some w1 ∧ w.SameButTransform w1 ∧
        (∀ k, k ≠ n → ¬ IsListedBelow w0 n k → w1.get k = w.get k) ∧
        ∀ k, (k = n ∨ IsListedBelow w0 n k) → w1.JustUpdated k := by
  intro fuel
  induction fuel with
  | zero => intro w n _ _ _ h; omega
  | succ fuel ih =>
    intro w n hlinks hback hpar hfuel
    -- the loop over the children
    have hloop : ∀ (cs : List Nat) (wc : World) (D : Nat → Prop),
        (∀ c ∈ cs, c ∈ (w0.get n).children) →
        (∀ k, (wc.get k).children = (w0.get k).children ∧
          (wc.get k).parent = (w0.get k).parent) →
        (∀ k, D k → k = n ∨ IsListedBelow w0 n k) →
        (∀ k, D k → wc.JustUpdated k) →
        ∃ w2, forEachM (UpdateTransform fuel) cs wc = some w2 ∧ wc.SameButTransform w2 ∧
          (∀ k, ¬ IsListedBelow w0 n k → w2.get k = wc.get k) ∧
          (∀ k, D k → w2.JustUpdated k) ∧
          ∀ c ∈ cs, ∀ k, (k = c ∨ IsListedBelow w0 c k) → w2.JustUpdated k := by
      intro cs
      induction cs with
      | nil =>
        intro wc D _ _ _ hD
        exact ⟨wc, rfl, World.SameButTransform.refl_world wc, fun _ _ => rfl, hD,
          fun c hc => absurd hc (List.not_mem_nil c)⟩
      | cons c cs ihcs =>
        intro wc D hcs hl hDsub hD
        have hc : c ∈ (w0.get n).children := hcs c (List.mem_cons_self c cs)
        have hsubc : ∀ k, (k = c ∨ IsListedBelow w0 c k) → IsListedBelow w0 n k := by
          intro k hk
          rcases hk with e | hk
          · subst e; exact IsListedBelow.child hc
          · exact IsListedBelow.of_child hc hk
        have hcpar : (w0.get c).parent = some n := hback n c (Or.inl rfl) hc
        obtain ⟨w2, hw2, hfr2, hout2, hpost2⟩ := ih wc c hl
          (fun a c1 ha hc1 => hback a c1 (Or.inr (hsubc a ha)) hc1)
          (fun p hp => by
            rw [hcpar] at hp
            cases hp
            refine ⟨?_, ?_⟩
            · intro e
              have := hr n c hc
              rw [e] at this
              omega
            · intro hb
              have h1 := hb.rank_lt hr
              have h2 := hr n c hc
              omega)
          (by have := hr n c hc; omega)
        have hl2 : ∀ k, (w2.get k).children = (w0.get k).children ∧
            (w2.get k).parent = (w0.get k).parent := by
          intro k
          rw [(hfr2.2.2 k).children_eq, (hfr2.2.2 k).parent_eq]
          exact hl k
        -- what was up to date stays up to date
        have hkeep : ∀ k, D k → w2.JustUpdated k := by
          intro k hk
          by_cases hin : k = c ∨ IsListedBelow w0 c k
          · exact hpost2 k hin
          · have hkc : k ≠ c := fun e => hin (Or.inl e)
            have hkb : ¬ IsListedBelow w0 c k := fun e => hin (Or.inr e)
            refine (hD k hk).of_eq (hout2 k hkc hkb) ?_
            intro p hp
            rw [(hl k).2] at hp
            have hpn : p ≠ c ∧ ¬ IsListedBelow w0 c p := by
              rcases hDsub k hk with e | hb
              · subst e
                have := hpar p hp
                exact ⟨fun e => this.2 (e ▸ IsListedBelow.child hc),
                  fun e => this.2 (IsListedBelow.of_child hc e)⟩
              · obtain ⟨a, hka, ha⟩ := hb.last
                have hpa : (w0.get k).parent = some a := hback a k (by tauto) hka
                rw [hpa] at hp
                cases hp
                refine ⟨?_, ?_⟩
                · intro e
                  subst e
                  exact hkb (IsListedBelow.child hka)
                · intro e
                  exact hkb (IsListedBelow.step e hka)
            rw [hout2 p hpn.1 hpn.2]
        obtain ⟨w3, hw3, hfr3, hout3, hD3, hpost3⟩ := ihcs w2
          (fun k => D k ∨ (k = c ∨ IsListedBelow w0 c k))
          (fun c1 hc1 => hcs c1 (List.mem_cons_of_mem c hc1)) hl2
          (fun k hk => by
            rcases hk with hk | hk
            · exact hDsub k hk
            · exact Or.inr (hsubc k hk))
          (fun k hk => by
            rcases hk with hk | hk
            · exact hkeep k hk
            · exact hpost2 k hk)
        refine ⟨w3, ?_, hfr2.trans_world hfr3, ?_, ?_, ?_⟩
        · simp only [forEachM, hw2]
          exact hw3
        · intro k hk
          rw [hout3 k hk]
          exact hout2 k (fun e => hk (e ▸ IsListedBelow.child hc))
            (fun e => hk (IsListedBelow.of_child hc e))
        · intro k hk
          exact hD3 k (Or.inl hk)
        · intro c1 hc1 k hk
          rcases List.mem_cons.1 hc1 with e | hc1
          · subst e
            exact hD3 k (Or.inr hk)
          · exact hpost3 c1 hc1 k hk
    -- the entity itself
    have hnn : ¬ IsListedBelow w0 n n := fun h => by
      have := h.rank_lt hr
      omega
    obtain ⟨w2, hw2, hfr2, hout2, hD2, hpost2⟩ := hloop (w0.get n).children
      (w.set n { w.get n with
        matrix_local :=
          Matrix.trs (w.get n).position_local (w.get n).rotation_local (w.get n).scale_local,
        matrix :=
          (match (w.get n).parent with
          | some p =>
            Matrix.mul
              (Matrix.trs (w.get n).position_local (w.get n).rotation_local
                (w.get n).scale_local) (w.get p).matrix
          | none =>
            Matrix.trs (w.get n).position_local (w.get n).rotation_local
              (w.get n).scale_local),
        time_since_last_transform_sec := 0 })
      (fun k => k = n) (fun c hc => hc)
      (fun k => by
        simp only [World.get_set]
        split
        · next h => subst h; exact hlinks k
        · exact hlinks k)
      (fun k hk => Or.inl hk)
      (fun k hk => by
        subst hk
        refine ⟨by simp, ?_, by simp⟩
        simp only [World.get_set, if_true]
        cases hp : (w.get k).parent with
        | none => rfl
        | some p =>
          have hpk : p ≠ k := (hpar p (by rw [← (hlinks k).2]; exact hp)).1
          simp [hpk])
    refine ⟨w2, ?_, ?_, ?_, ?_⟩
    · rw [UpdateTransform]
      simp only [World.get_set, if_true]
      rw [← (hlinks n).1] at hw2
      exact hw2
    · refine World.SameButTransform.trans_world ?_ hfr2
      refine ⟨rfl, rfl, ?_⟩
      intro k
      simp only [World.get_set]
      split
      · next h => subst h; rfl
      · exact Entity.SameButTransform.refl_entity _
    · intro k hk hkb
      rw [hout2 k hkb]
      simp [hk]
    · intro k hk
      rcases hk with e | hk
      · exact hD2 k e
      · obtain ⟨c, hc, hkc⟩ := hk.first
        exact hpost2 c hc k hkc


theorem Entity.SameButTransform.position_local_eq {e1 e2 : Entity}
    (h : e1.SameButTransform e2) : e2.position_local = e1.position_local := by
  unfold Entity.SameButTransform at h
  rw [h]

theorem Entity.SameButTransform.rotation_local_eq {e1 e2 : Entity}
    (h : e1.SameButTransform e2) : e2.rotation_local = e1.rotation_local := by
  unfold Entity.SameButTransform at h
  rw [h]

theorem crossLinked_childrenTree : crossLinked.ChildrenTree (fun k => if k = 0 then 1 else 0) := by
  have hch : ∀ a, (crossLinked.get a).children = if a = 0 then [1, 2] else [] := by
    intro a
    unfold crossLinked
    simp only
    split_ifs <;> rfl
  refine ⟨?_, ?_, ?_⟩
  · intro a c hc
    rw [hch] at hc
    split_ifs at hc with h0
    · subst h0
      simp at hc
      rcases hc with e | e <;> subst e <;> decide
    · simp at hc
  · intro a
    rw [hch]
    split_ifs <;> decide
  · intro a b c ha hb
    rw [hch] at ha hb
    split_ifs at ha hb <;> simp at ha hb
    omega

/-- C25, evaluated: in a world whose children lists form a tree (0 lists 1 and 2) but where
the parent reference of 1 is 2, `UpdateTransform` on 0 recomputes 1 before 2, so that the
world matrix of 1 is not its local matrix times the world matrix of its parent. -/
theorem UpdateTransform_reads_stale_parent :
    crossLinked.ChildrenTree (fun k => if k = 0 then 1 else 0) ∧
      (crossLinked.get 0).children = [1, 2] ∧
      (UpdateTransform 3 crossLinked 0).map (fun w1 =>
        ((w1.get 1).parent,
          decide ((w1.get 1).matrix =
            Matrix.mul (w1.get 1).matrix_local (w1.get 2).matrix))) =
        some (some 2, false) :=
  ⟨crossLinked_childrenTree, rfl, by decide⟩

/-- C25, amended: when the children lists are ranked (they form a forest), every entry of a
children list at or below N has its lister as parent reference, and the parent of N is
neither N nor listed below N, then `UpdateTransform` on N returns, given a budget above the
rank of N; afterwards N and every entity listed below N has its local matrix composed from
its position, rotation and scale, its world matrix equal to the local matrix times the world
matrix of its parent (the local matrix without parent) and its counter at zero; no position,
rotation, scale, parent reference or children list has changed, and the entities other than
N and those listed below it are as they were. -/
theorem UpdateTransform_recomputes_subtree (w : World) (rank : Nat → Nat)
    (hr : w.ChildrenRanked rank) (N : Nat)
    (hback : ∀ a c, (a = N ∨ IsListedBelow w N a) → c ∈ (w.get a).children →
      (w.get c).parent = some a)
    (hpar : ∀ p, (w.get N).parent = some p → p ≠ N ∧ ¬ IsListedBelow w N p)
    (fuel : Nat) (hfuel : rank N < fuel) :
    ∃ w1, UpdateTransform fuel w N = some w1 ∧
      (∀ k, (k = N ∨ IsListedBelow w N k) → w1.JustUpdated k) ∧
      (∀ k, (w1.get k).position_local = (w.get k).position_local ∧
        (w1.get k).rotation_local = (w.get k).rotation_local ∧
        (w1.get k).scale_local = (w.get k).scale_local ∧
        (w1.get k).parent = (w.get k).parent ∧
        (w1.get k).children = (w.get k).children) ∧
      ∀ k, k ≠ N → ¬ IsListedBelow w N k → w1.get k = w.get k := by
  obtain ⟨w1, h1, hfr, hout, hpost⟩ :=
    UpdateTransform_post w rank hr fuel w N (fun _ => ⟨rfl, rfl⟩) hback hpar hfuel
  exact ⟨w1, h1, hpost,
    fun k => ⟨(hfr.2.2 k).position_local_eq, (hfr.2.2 k).rotation_local_eq,
      (hfr.2.2 k).scale_local_eq, (hfr.2.2 k).parent_eq, (hfr.2.2 k).children_eq⟩, hout⟩

theorem IsListedBelow_chain3_zero {x : Nat} (h : IsListedBelow chain3 0 x) : x = 1 ∨ x = 2 := by
  have hch : ∀ a, (chain3.get a).children =
      if a = 0 then [1] else if a = 1 then [2] else [] := by
    intro a
    unfold chain3
    simp only
    split_ifs <;> rfl
  induction h with
  | child hx => rw [hch] at hx; simp at hx; exact Or.inl hx
  | step _ hx ih =>
    rcases ih with e | e
    · subst e; rw [hch] at hx; simp at hx; exact Or.inr hx
    · subst e; rw [hch] at hx; simp at hx

theorem UpdateTransform_recomputes_subtree_witness :
    ∃ w1, UpdateTransform 3 chain3 0 = some w1 ∧
      (∀ k, (k = 0 ∨ IsListedBelow chain3 0 k) → w1.JustUpdated k) ∧
      (∀ k, (w1.get k).position_local = (chain3.get k).position_local ∧
        (w1.get k).rotation_local = (chain3.get k).rotation_local ∧
        (w1.get k).scale_local = (chain3.get k).scale_local ∧
        (w1.get k).parent = (chain3.get k).parent ∧
        (w1.get k).children = (chain3.get k).children) ∧
      ∀ k, k ≠ 0 → ¬ IsListedBelow chain3 0 k → w1.get k = chain3.get k :=
  UpdateTransform_recomputes_subtree chain3 (fun k => 2 - k) chain3_ranked 0
    (by
      intro a c ha hc
      have ha2 : a = 0 ∨ a = 1 ∨ a = 2 := by
        rcases ha with e | h
        · exact Or.inl e
        · exact Or.inr (IsListedBelow_chain3_zero h)
      rcases ha2 with e | e | e <;> subst e <;> simp [chain3] at hc <;> subst hc <;> rfl)
    (by intro p hp; simp [chain3] at hp)
    3 (by decide)

/-! ## `SetParent`: frame and termination -/

theorem Entity.SameButLinks.refl_links (e : Entity) : e.SameButLinks e := by
  unfold Entity.SameButLinks
  rfl

theorem Entity.SameButLinks.trans_links {e1 e2 e3 : Entity} (h12 : e1.SameButLinks e2)
    (h23 : e2.SameButLinks e3) : e1.SameButLinks e3 := by
  unfold Entity.SameButLinks at *
  rw [h23, h12]

theorem Entity.SameButTransform.to_links {e1 e2 : Entity} (h : e1.SameButTransform e2) :
    e1.SameButLinks e2 := by
  unfold Entity.SameButTransform at h
  unfold Entity.SameButLinks
  rw [h]

theorem Entity.SameButLinks.local_eq {e1 e2 : Entity} (h : e1.SameButLinks e2) :
    e2.position_local = e1.position_local ∧ e2.rotation_local = e1.rotation_local ∧
      e2.scale_local = e1.scale_local := by
  unfold Entity.SameButLinks at h
  rw [h]
  exact ⟨rfl, rfl, rfl⟩

theorem World.SameButLinks.refl_wlinks (w : World) : w.SameButLinks w :=
  ⟨rfl, rfl, fun k => Entity.SameButLinks.refl_links (w.get k)⟩

theorem World.SameButLinks.trans_wlinks {w1 w2 w3 : World} (h12 : w1.SameButLinks w2)
    (h23 : w2.SameButLinks w3) : w1.SameButLinks w3 :=
  ⟨h23.1.trans h12.1, h23.2.1.trans h12.2.1, fun k => (h12.2.2 k).trans_links (h23.2.2 k)⟩

theorem World.SameButTransform.to_wlinks {w1 w2 : World} (h : w1.SameButTransform w2) :
    w1.SameButLinks w2 :=
  ⟨h.1, h.2.1, fun k => (h.2.2 k).to_links⟩

/-- Storing a new parent reference and a new children list in one entity. -/
theorem World.sameButLinks_set (w : World) (k : Nat) (par : Option Nat) (ch : List Nat) :
    w.SameButLinks (w.set k { w.get k with parent := par, children := ch }) := by
  refine ⟨rfl, rfl, fun j => ?_⟩
  simp only [World.get_set]
  split
  · next h => subst h; rfl
  · exact Entity.SameButLinks.refl_links _

theorem AddChild_sameButLinks (w : World) (self child : Nat) :
    w.SameButLinks (AddChild w self child) := by
  unfold AddChild
  split
  · exact World.SameButLinks.refl_wlinks w
  · split
    · exact World.SameButLinks.refl_wlinks w
    · exact World.sameButLinks_set w self (w.get self).parent _

theorem RemoveChild_false_sameButLinks (w : World) (self child : Nat) :
    w.SameButLinks (RemoveChild_false w self child) := by
  unfold RemoveChild_false
  split
  · exact World.SameButLinks.refl_wlinks w
  · exact World.sameButLinks_set w self (w.get self).parent _

theorem SetParent_promote_sameButLinks (fuel : Nat) (w : World) (self : Nat) (w1 : World)
    (h : SetParent_promote fuel w self = some w1) : w.SameButLinks w1 := by
  unfold SetParent_promote at h
  split at h
  · cases h
  · rename_i w2 h2
    simp only [Option.some.injEq] at h
    subst h
    refine World.SameButLinks.trans_wlinks
      (forEachM_rel World.SameButLinks World.SameButLinks.refl_wlinks
        (fun _ _ _ => World.SameButLinks.trans_wlinks) _ _ ?_ w w2 h2)
      (World.sameButLinks_set w2 self (w2.get self).parent [])
    intro cur c w3 _ h3
    exact World.SameButLinks.trans_wlinks
      (World.sameButLinks_set cur c (cur.get self).parent (cur.get c).children)
      (UpdateTransform_frame _ _ _ _ h3).to_wlinks

theorem SetParent_relink_sameButLinks (fuel : Nat) (w : World) (self : Nat)
    (parent new_parent_in : Option Nat) (w1 : World)
    (h : SetParent_relink fuel w self parent new_parent_in = some w1) : w.SameButLinks w1 := by
  have h1 : ∀ (wb : World) (par : Option Nat), w.SameButLinks wb →
      UpdateTransform fuel (wb.set self { wb.get self with parent := par }) self =
        some w1 → w.SameButLinks w1 := fun wb par hb hu =>
    World.SameButLinks.trans_wlinks hb
      (World.SameButLinks.trans_wlinks (World.sameButLinks_set wb self par _)
        (UpdateTransform_frame _ _ _ _ hu).to_wlinks)
  cases parent <;> cases new_parent_in <;> simp only [SetParent_relink] at h
  · exact h1 _ _ (World.SameButLinks.refl_wlinks w) h
  · exact h1 _ _ (AddChild_sameButLinks w _ self) h
  · exact h1 _ _ (RemoveChild_false_sameButLinks w _ self) h
  · exact h1 _ _ (World.SameButLinks.trans_wlinks (RemoveChild_false_sameButLinks w _ self)
      (AddChild_sameButLinks _ _ self)) h

/-- `SetParent` writes nothing but parent references, children lists, matrices and
counters. -/
theorem SetParent_sameButLinks (fuel : Nat) (w : World) (self : Nat) (new_parent_in : Option Nat)
    (w1 : World) (h : SetParent fuel w self new_parent_in = some w1) : w.SameButLinks w1 := by
  unfold SetParent at h
  cases new_parent_in with
  | none => exact SetParent_relink_sameButLinks _ _ _ _ _ _ h
  | some q =>
    simp only at h
    split at h
    · cases h; exact World.SameButLinks.refl_wlinks w
    · split at h
      · cases h; exact World.SameButLinks.refl_wlinks w
      · split at h
        · cases h
        · split at h
          · cases h
          · rename_i wa ha
            exact World.SameButLinks.trans_wlinks
              (SetParent_promote_sameButLinks _ _ _ _ ha)
              (SetParent_relink_sameButLinks _ _ _ _ _ _ h)
        · exact SetParent_relink_sameButLinks _ _ _ _ _ _ h


theorem SetParent_relink_eq (fuel : Nat) (w : World) (self : Nat)
    (parent new_parent_in : Option Nat) :
    SetParent_relink fuel w self parent new_parent_in =
      UpdateTransform fuel (relinked w self parent new_parent_in) self := rfl

/-- The links of the relinked world: identities and size are kept, only the entity gets a
new parent, and an entry of a children list is an old entry or the entity itself in the list
of the new parent. -/
theorem relinked_links (w : World) (self : Nat) (parent new_parent_in : Option Nat) :
    (relinked w self parent new_parent_in).size = w.size ∧
    ∀ k, ((relinked w self parent new_parent_in).get k).object_id = (w.get k).object_id ∧
      ((relinked w self parent new_parent_in).get k).parent =
        (if k = self then new_parent_in else (w.get k).parent) ∧
      ∀ c, c ∈ ((relinked w self parent new_parent_in).get k).children →
        c ∈ (w.get k).children ∨ (c = self ∧ new_parent_in = some k) := by
  have hrem : ∀ (p : Nat), (RemoveChild_false w p self).size = w.size ∧
      ∀ k, ((RemoveChild_false w p self).get k).object_id = (w.get k).object_id ∧
        ((RemoveChild_false w p self).get k).parent = (w.get k).parent ∧
        ∀ c, c ∈ ((RemoveChild_false w p self).get k).children → c ∈ (w.get k).children := by
    intro p
    unfold RemoveChild_false
    split
    · exact ⟨rfl, fun k => ⟨rfl, rfl, fun c hc => hc⟩⟩
    · refine ⟨rfl, fun k => ?_⟩
      simp only [World.get_set]
      split
      · next h => subst h; exact ⟨rfl, rfl, fun c hc => (List.mem_filter.1 hc).1⟩
      · exact ⟨rfl, rfl, fun c hc => hc⟩
  have hadd : ∀ (wa : World) (q : Nat), (AddChild wa q self).size = wa.size ∧
      ∀ k, ((AddChild wa q self).get k).object_id = (wa.get k).object_id ∧
        ((AddChild wa q self).get k).parent = (wa.get k).parent ∧
        ∀ c, c ∈ ((AddChild wa q self).get k).children →
          c ∈ (wa.get k).children ∨ (c = self ∧ q = k) := by
    intro wa q
    unfold AddChild
    split
    · exact ⟨rfl, fun k => ⟨rfl, rfl, fun c hc => Or.inl hc⟩⟩
    · split
      · exact ⟨rfl, fun k => ⟨rfl, rfl, fun c hc => Or.inl hc⟩⟩
      · refine ⟨rfl, fun k => ?_⟩
        simp only [World.get_set]
        split
        · next h =>
          subst h
          refine ⟨rfl, rfl, fun c hc => ?_⟩
          rcases List.mem_append.1 hc with h | h
          · exact Or.inl h
          · exact Or.inr ⟨List.mem_singleton.1 h, rfl⟩
        · exact ⟨rfl, rfl, fun c hc => Or.inl hc⟩
  have hset : ∀ (wb : World), (wb.set self { wb.get self with parent := new_parent_in }).size =
        wb.size ∧
      ∀ k, ((wb.set self { wb.get self with parent := new_parent_in }).get k).object_id =
          (wb.get k).object_id ∧
        ((wb.set self { wb.get self with parent := new_parent_in }).get k).parent =
          (if k = self then new_parent_in else (wb.get k).parent) ∧
        ((wb.set self { wb.get self with parent := new_parent_in }).get k).children =
          (wb.get k).children := by
    intro wb
    refine ⟨rfl, fun k => ?_⟩
    simp only [World.get_set]
    split
    · next h => subst h; exact ⟨rfl, rfl, rfl⟩
    · exact ⟨rfl, rfl, rfl⟩
  cases parent with
  | none =>
    cases new_parent_in with
    | none =>
      simp only [relinked]
      refine ⟨(hset w).1, fun k => ?_⟩
      obtain ⟨h1, h2, h3⟩ := (hset w).2 k
      exact ⟨h1, h2, fun c hc => Or.inl (h3 ▸ hc)⟩
    | some q =>
      simp only [relinked]
      refine ⟨((hset _).1).trans (hadd w q).1, fun k => ?_⟩
      obtain ⟨h1, h2, h3⟩ := (hset (AddChild w q self)).2 k
      obtain ⟨a1, a2, a3⟩ := (hadd w q).2 k
      refine ⟨h1.trans a1, ?_, fun c hc => ?_⟩
      · rw [h2, a2]
      · rcases a3 c (h3 ▸ hc) with h | ⟨h, e⟩
        · exact Or.inl h
        · exact Or.inr ⟨h, by rw [e]⟩
  | some p =>
    cases new_parent_in with
    | none =>
      simp only [relinked]
      refine ⟨((hset _).1).trans (hrem p).1, fun k => ?_⟩
      obtain ⟨h1, h2, h3⟩ := (hset (RemoveChild_false w p self)).2 k
      obtain ⟨r1, r2, r3⟩ := (hrem p).2 k
      refine ⟨h1.trans r1, ?_, fun c hc => Or.inl (r3 c (h3 ▸ hc))⟩
      rw [h2, r2]
    | some q =>
      simp only [relinked]
      refine ⟨((hset _).1).trans (((hadd _ q).1).trans (hrem p).1), fun k => ?_⟩
      obtain ⟨h1, h2, h3⟩ := (hset (AddChild (RemoveChild_false w p self) q self)).2 k
      obtain ⟨a1, a2, a3⟩ := (hadd (RemoveChild_false w p self) q).2 k
      obtain ⟨r1, r2, r3⟩ := (hrem p).2 k
      refine ⟨h1.trans (a1.trans r1), ?_, fun c hc => ?_⟩
      · rw [h2, a2, r2]
      · rcases a3 c (h3 ▸ hc) with h | ⟨h, e⟩
        · exact Or.inl (r3 c h)
        · exact Or.inr ⟨h, by rw [e]⟩

/-- With ranked children lists that point back to their lister, `IsDescendantOf` returns, and
it returns `true` for an entity that is listed below `transform`. -/
theorem IsDescendantOf_of_listed {w : World} {rank : Nat → Nat} (hr : w.ChildrenRanked rank)
    (hback : ∀ a c, c ∈ (w.get a).children → (w.get c).parent = some a) (self : Nat) :
    ∀ (fuel transform : Nat), rank transform < fuel →
      ∃ b, IsDescendantOf fuel w self transform = some b ∧
        (IsListedBelow w transform self → b = true) := by
  intro fuel
  induction fuel with
  | zero => intro t h; omega
  | succ fuel ih =>
    intro t hfuel
    rw [IsDescendantOf]
    cases hp : (w.get self).parent with
    | none =>
      refine ⟨false, rfl, fun h => ?_⟩
      obtain ⟨a, ha, -⟩ := h.last
      rw [hback a self ha] at hp
      cases hp
    | some parent =>
      simp only
      by_cases hid : (w.get parent).object_id = (w.get t).object_id
      · rw [if_pos hid]
        exact ⟨true, rfl, fun _ => rfl⟩
      · rw [if_neg hid]
        obtain ⟨b, hb, hiff⟩ := anyChildM_spec (fun child => IsDescendantOf fuel w self child)
          (fun c => IsDescendantOf fuel w self c = some true) (w.get t).children
          (fun c hc => by
            obtain ⟨bc, hbc, -⟩ := ih c (by have := hr t c hc; omega)
            refine ⟨bc, hbc, ?_⟩
            show bc = true ↔ IsDescendantOf fuel w self c = some true
            rw [hbc]
            simp)
        refine ⟨b, hb, fun h => ?_⟩
        obtain ⟨c, hc, hsc⟩ := h.first
        rcases hsc with e | hsc
        · subst e
          rw [hback t self hc] at hp
          cases hp
          exact absurd rfl hid
        · obtain ⟨bc, hbc, himp⟩ := ih c (by have := hr t c hc; omega)
          exact hiff.2 ⟨c, hc, by rw [hbc, himp hsc]⟩

/-- The relink returns when the children lists at and below the entity are ranked and the
new parent is not among them. -/
theorem SetParent_relink_returns (S : Nat → Prop) (rank : Nat → Nat) (fuel : Nat) (w : World)
    (self : Nat) (parent new_parent_in : Option Nat)
    (hS : ∀ a c, S a → c ∈ (w.get a).children → S c ∧ rank c < rank a)
    (hself : S self) (hq : ∀ q, new_parent_in = some q → ¬ S q) (hfuel : rank self < fuel) :
    ∃ w1, SetParent_relink fuel w self parent new_parent_in = some w1 := by
  rw [SetParent_relink_eq]
  refine UpdateTransform_returns S rank fuel _ self ?_ hself hfuel
  intro a c ha hc
  rcases ((relinked_links w self parent new_parent_in).2 a).2.2 c hc with h | ⟨-, h⟩
  · exact hS a c ha h
  · exact absurd ha (hq a h)

/-- `SetParent` returns in every world whose children lists are ranked and point back to
their lister, given a budget above the rank of the entity. -/
theorem SetParent_returns {w : World} {rank : Nat → Nat} (hr : w.ChildrenRanked rank)
    (hback : ∀ a c, c ∈ (w.get a).children → (w.get c).parent = some a)
    (self : Nat) (new_parent_in : Option Nat) (fuel : Nat) (hfuel : rank self < fuel) :
    ∃ w1, SetParent fuel w self new_parent_in = some w1 := by
  cases new_parent_in with
  | none =>
    obtain ⟨w1, h1, -⟩ := SetParent_none_links w rank hr self fuel hfuel
    exact ⟨w1, h1⟩
  | some q =>
    unfold SetParent
    simp only
    split
    · exact ⟨w, rfl⟩
    · rename_i hid
      split
      · exact ⟨w, rfl⟩
      · obtain ⟨b, hb, himp⟩ := IsDescendantOf_of_listed hr hback q fuel self hfuel
        have hqs : q ≠ self := fun e => hid (by rw [e])
        rw [hb]
        cases b with
        | true =>
          obtain ⟨wa, hwa⟩ := SetParent_promote_returns (fun _ => True) rank fuel w self
            (fun a c _ hc => ⟨trivial, hr a c hc⟩) trivial (by omega)
          obtain ⟨-, hla⟩ := SetParent_promote_links fuel w self wa hwa
          simp only [hwa]
          refine SetParent_relink_returns (fun k => k = self) rank fuel wa self _ _ ?_ rfl
            (fun q1 hq1 => by cases hq1; exact hqs) hfuel
          intro a c ha hc
          subst ha
          rw [(hla a).2.1] at hc
          simp at hc
        | false =>
          simp only
          refine SetParent_relink_returns (fun k => k = self ∨ IsListedBelow w self k) rank fuel
            w self _ _ ?_ (Or.inl rfl) ?_ hfuel
          · intro a c ha hc
            refine ⟨Or.inr ?_, hr a c hc⟩
            rcases ha with e | ha
            · subst e; exact IsListedBelow.child hc
            · exact IsListedBelow.step ha hc
          · intro q1 hq1 hS
            cases hq1
            rcases hS with e | hS
            · exact hqs e
            · have := himp hS
              cases this

/-- C29: `SetParent` leaves the local position, rotation and scale of every entity as they
were, whatever the new parent (none, the entity itself, a descendant or any other entity):
so it is for every call that returns, and the call does return in every world whose children
lists are ranked (a forest) and point back to their lister, given a budget above the rank of
the entity. -/
theorem SetParent_keeps_local_transform (w : World) (N : Nat) (Q : Option Nat) (fuel : Nat) :
    (∀ w1, SetParent fuel w N Q = some w1 →
      ∀ k, (w1.get k).position_local = (w.get k).position_local ∧
        (w1.get k).rotation_local = (w.get k).rotation_local ∧
        (w1.get k).scale_local = (w.get k).scale_local) ∧
    (∀ rank, w.ChildrenRanked rank →
      (∀ a c, c ∈ (w.get a).children → (w.get c).parent = some a) → rank N < fuel →
      ∃ w1, SetParent fuel w N Q = some w1) :=
  ⟨fun w1 h k => ((SetParent_sameButLinks fuel w N Q w1 h).2.2 k).local_eq,
    fun _ hr hback hfuel => SetParent_returns hr hback N Q fuel hfuel⟩

theorem chain3_back : ∀ a c, c ∈ (chain3.get a).children → (chain3.get c).parent = some a := by
  intro a c hc
  unfold chain3 at hc
  simp only at hc
  split_ifs at hc with h0 h1 h2
  · subst h0; simp at hc; subst hc; rfl
  · subst h1; simp at hc; subst hc; rfl
  · simp at hc
  · simp at hc

theorem SetParent_keeps_local_transform_witness :
    ∃ w1, SetParent 3 chain3 2 (some 0) = some w1 ∧
      ∀ k, (w1.get k).position_local = (chain3.get k).position_local ∧
        (w1.get k).rotation_local = (chain3.get k).rotation_local ∧
        (w1.get k).scale_local = (chain3.get k).scale_local := by
  obtain ⟨w1, h1⟩ := (SetParent_keeps_local_transform chain3 2 (some 0) 3).2 _ chain3_ranked
    chain3_back (by decide)
  exact ⟨w1, h1, (SetParent_keeps_local_transform chain3 2 (some 0) 3).1 w1 h1⟩

/-! ## The children lists in the states reached by `SetParent` -/

theorem World.ListsForest.of_links {w w1 : World} (h : w.ListsForest) (hsz : w1.size = w.size)
    (hl : ∀ k, (w1.get k).object_id = (w.get k).object_id ∧
      (w1.get k).parent = (w.get k).parent ∧ (w1.get k).children = (w.get k).children) :
    w1.ListsForest where
  distinct := by
    intro a ha b hb hab
    rw [(hl a).1, (hl b).1] at hab
    exact h.distinct a (hsz ▸ ha) b (hsz ▸ hb) hab
  entries_lt := by
    intro a c hc
    rw [(hl a).2.2] at hc
    rw [hsz]
    exact h.entries_lt a c hc
  parents_lt := by
    intro a p hp
    rw [(hl a).2.1] at hp
    rw [hsz]
    exact h.parents_lt a p hp
  back := by
    intro a c hc
    rw [(hl a).2.2] at hc
    rw [(hl c).2.1]
    exact h.back a c hc
  nodup := by
    intro a
    rw [(hl a).2.2]
    exact h.nodup a
  ranked := by
    obtain ⟨rank, hr⟩ := h.ranked
    exact ⟨rank, hr.mono (fun a c hc => by rw [(hl a).2.2] at hc; exact hc)⟩

theorem World.ListsForest.not_mem_self {w : World} (h : w.ListsForest) (a : Nat) :
    a ∉ (w.get a).children := by
  intro ha
  obtain ⟨rank, hr⟩ := h.ranked
  have := hr a a ha
  omega

theorem anyChildM_false (f : Nat → Option Bool) :
    ∀ cs, anyChildM f cs = some false → ∀ c ∈ cs, f c = some false := by
  intro cs
  induction cs with
  | nil => intro _ c hc; cases hc
  | cons d ds ih =>
    intro h c hc
    simp only [anyChildM] at h
    cases hd : f d with
    | none => rw [hd] at h; cases h
    | some b =>
      rw [hd] at h
      cases b with
      | true => cases h
      | false =>
        rcases List.mem_cons.1 hc with e | hc
        · rw [e]; exact hd
        · exact ih h c hc

/-- When `IsDescendantOf` answers `false` and the children lists point back to their lister,
the entity is not listed below `transform`, whatever the budget. -/
theorem IsDescendantOf_false_not_listed {w : World}
    (hback : ∀ a c, c ∈ (w.get a).children → (w.get c).parent = some a) (self : Nat) :
    ∀ (fuel transform : Nat), IsDescendantOf fuel w self transform = some false →
      ¬ IsListedBelow w transform self := by
  intro fuel
  induction fuel with
  | zero => intro t h; simp [IsDescendantOf] at h
  | succ fuel ih =>
    intro t h hl
    rw [IsDescendantOf] at h
    cases hp : (w.get self).parent with
    | none =>
      obtain ⟨a, ha, -⟩ := hl.last
      rw [hback a self ha] at hp
      cases hp
    | some parent =>
      rw [hp] at h
      simp only at h
      by_cases hid : (w.get parent).object_id = (w.get t).object_id
      · rw [if_pos hid] at h
        cases h
      · rw [if_neg hid] at h
        obtain ⟨c, hc, hsc⟩ := hl.first
        rcases hsc with e | hsc
        · subst e
          rw [hback t self hc] at hp
          cases hp
          exact hid rfl
        · exact ih c (anyChildM_false _ _ h c hc) hsc

/-- The promotion block keeps the forest and leaves the entity without children, with the
parent it had. -/
theorem SetParent_promote_forest {w : World} (h : w.ListsForest) (fuel self : Nat) (wa : World)
    (ha : SetParent_promote fuel w self = some wa) :
    wa.ListsForest ∧ wa.size = w.size ∧ (wa.get self).children = [] ∧
      (wa.get self).parent = (w.get self).parent ∧
      ∀ k, (wa.get k).object_id = (w.get k).object_id := by
  obtain ⟨hsz, hl⟩ := SetParent_promote_links fuel w self wa ha
  have hch : ∀ a c, c ∈ (wa.get a).children → a ≠ self ∧ c ∈ (w.get a).children := by
    intro a c hc
    rw [(hl a).2.1] at hc
    by_cases e : a = self
    · simp [e] at hc
    · simp only [e, if_false] at hc
      exact ⟨e, hc⟩
  refine ⟨?_, hsz, ?_, ?_, fun k => (hl k).1⟩
  · refine
      { distinct := ?_, entries_lt := ?_, parents_lt := ?_, back := ?_, nodup := ?_,
        ranked := ?_ }
    · intro a ha b hb hab
      rw [(hl a).1, (hl b).1] at hab
      exact h.distinct a (hsz ▸ ha) b (hsz ▸ hb) hab
    · intro a c hc
      rw [hsz]
      exact h.entries_lt a c (hch a c hc).2
    · intro a p hp
      rw [(hl a).2.2] at hp
      rw [hsz]
      split at hp
      · exact h.parents_lt self p hp
      · exact h.parents_lt a p hp
    · intro a c hc
      obtain ⟨hne, hc⟩ := hch a c hc
      rw [(hl c).2.2]
      have hb := h.back a c hc
      split
      · next hcs =>
        have := h.back self c hcs
        rw [hb] at this
        cases this
        exact absurd rfl hne
      · exact hb
    · intro a
      rw [(hl a).2.1]
      split
      · exact List.nodup_nil
      · exact h.nodup a
    · obtain ⟨rank, hr⟩ := h.ranked
      exact ⟨rank, hr.mono (fun a c hc => (hch a c hc).2)⟩
  · rw [(hl self).2.1]; simp
  · rw [(hl self).2.2, if_neg (h.not_mem_self self)]


theorem World.children_set_parent (w : World) (k : Nat) (par : Option Nat) (a : Nat) :
    ((w.set k { w.get k with parent := par }).get a).children = (w.get a).children := by
  simp only [World.get_set]
  split
  · next h => subst h; rfl
  · rfl

/-- After the erase in the list of its parent the entity is in no children list. -/
theorem RemoveChild_false_lists {w : World} (h : w.ListsForest) {self : Nat}
    (hself : self < w.size) {p : Nat} (hp : (w.get self).parent = some p) :
    (∀ a, self ∉ ((RemoveChild_false w p self).get a).children) ∧
      ∀ a, ((RemoveChild_false w p self).get a).children.Nodup := by
  have hpa : ∀ a, self ∈ (w.get a).children → a = p := by
    intro a ha
    have := h.back a self ha
    rw [hp] at this
    cases this
    rfl
  by_cases hid : (w.get self).object_id = (w.get p).object_id
  · have e : self = p := h.distinct self hself p (h.parents_lt self p hp) hid
    have hw : RemoveChild_false w p self = w := by
      unfold RemoveChild_false
      rw [if_pos hid]
    rw [hw]
    refine ⟨fun a ha => ?_, h.nodup⟩
    have := hpa a ha
    rw [this, ← e] at ha
    exact h.not_mem_self self ha
  · refine ⟨fun a ha => ?_, fun a => ?_⟩
    · rw [RemoveChild_false_get hid] at ha
      split at ha
      · simp at ha
      · next hne => exact hne (hpa a ha)
    · rw [RemoveChild_false_get hid]
      split
      · exact (h.nodup p).filter _
      · exact h.nodup a

/-- `AddChild` of an entity that is in no list puts it in the list of `q` only, and keeps
the lists free of repetitions. -/
theorem AddChild_lists (w : World) (q self : Nat) (hno : ∀ a, self ∉ (w.get a).children)
    (hnd : ∀ a, (w.get a).children.Nodup) :
    (∀ a, self ∈ ((AddChild w q self).get a).children → a = q) ∧
      ∀ a, ((AddChild w q self).get a).children.Nodup := by
  unfold AddChild
  split
  · exact ⟨fun a ha => absurd ha (hno a), hnd⟩
  · split
    · exact ⟨fun a ha => absurd ha (hno a), hnd⟩
    · refine ⟨fun a ha => ?_, fun a => ?_⟩
      · simp only [World.get_set] at ha
        split at ha
        · next e => exact e
        · exact absurd ha (hno a)
      · simp only [World.get_set]
        split
        · refine List.Nodup.append (hnd q) (List.nodup_singleton self) ?_
          intro x hx hx2
          rw [List.mem_singleton.1 hx2] at hx
          exact hno q hx
        · exact hnd a

/-- In the relinked world the entity is in the list of its new parent only, and no list
repeats an entry. -/
theorem relinked_lists {w : World} (h : w.ListsForest) {self : Nat} (hself : self < w.size)
    (Q : Option Nat) :
    (∀ a, self ∈ ((relinked w self (w.get self).parent Q).get a).children → Q = some a) ∧
      ∀ a, ((relinked w self (w.get self).parent Q).get a).children.Nodup := by
  -- the world after the erase
  have hb : ∀ wb : World, wb = (match (w.get self).parent with
        | some p => RemoveChild_false w p self
        | none => w) →
      (∀ a, self ∉ (wb.get a).children) ∧ ∀ a, (wb.get a).children.Nodup := by
    intro wb hwb
    cases hp : (w.get self).parent with
    | none =>
      rw [hp] at hwb
      subst hwb
      refine ⟨fun a ha => ?_, h.nodup⟩
      have := h.back a self ha
      rw [hp] at this
      cases this
    | some p =>
      rw [hp] at hwb
      subst hwb
      exact RemoveChild_false_lists h hself hp
  obtain ⟨hno, hnd⟩ := hb _ rfl
  cases Q with
  | none =>
    simp only [relinked, World.children_set_parent]
    exact ⟨fun a ha => absurd ha (hno a), hnd⟩
  | some q =>
    simp only [relinked, World.children_set_parent]
    obtain ⟨h1, h2⟩ := AddChild_lists _ q self hno hnd
    exact ⟨fun a ha => by rw [h1 a ha], h2⟩


/-- The relinked world is a forest again when the new parent is another entity that is not
listed below the entity. -/
theorem relinked_forest {w : World} (h : w.ListsForest) {self : Nat} (hself : self < w.size)
    (Q : Option Nat)
    (hQ : ∀ q, Q = some q → q < w.size ∧ q ≠ self ∧ ¬ IsListedBelow w self q) :
    (relinked w self (w.get self).parent Q).ListsForest := by
  obtain ⟨hsz, hl⟩ := relinked_links w self (w.get self).parent Q
  obtain ⟨hmem, hnd⟩ := relinked_lists h hself Q
  have hold : ∀ a c, c ∈ ((relinked w self (w.get self).parent Q).get a).children →
      c ≠ self → c ∈ (w.get a).children := by
    intro a c hc hne
    rcases (hl a).2.2 c hc with h1 | ⟨h1, -⟩
    · exact h1
    · exact absurd h1 hne
  refine
    { distinct := ?_, entries_lt := ?_, parents_lt := ?_, back := ?_, nodup := hnd,
      ranked := ?_ }
  · intro a ha b hb hab
    rw [(hl a).1, (hl b).1] at hab
    exact h.distinct a (hsz ▸ ha) b (hsz ▸ hb) hab
  · intro a c hc
    rw [hsz]
    rcases (hl a).2.2 c hc with h1 | ⟨h1, -⟩
    · exact h.entries_lt a c h1
    · rw [h1]; exact hself
  · intro a p hp
    rw [(hl a).2.1] at hp
    rw [hsz]
    split at hp
    · exact (hQ p hp).1
    · exact h.parents_lt a p hp
  · intro a c hc
    rw [(hl c).2.1]
    by_cases e : c = self
    · rw [if_pos e]
      exact hmem a (e ▸ hc)
    · rw [if_neg e]
      exact h.back a c (hold a c hc e)
  · obtain ⟨rank, hr⟩ := h.ranked
    cases Q with
    | none =>
      refine ⟨rank, hr.mono (fun a c hc => ?_)⟩
      rcases (hl a).2.2 c hc with h1 | ⟨-, h1⟩
      · exact h1
      · cases h1
    | some q =>
      obtain ⟨-, hqs, hqb⟩ := hQ q rfl
      classical
      refine ⟨fun k => if k = self ∨ IsListedBelow w self k then rank k
        else rank k + rank self + 1, ?_⟩
      intro a c hc
      have hDq : ¬ (q = self ∨ IsListedBelow w self q) := fun hD => hD.elim hqs hqb
      rcases (hl a).2.2 c hc with h1 | ⟨h1, h2⟩
      · have hlt := hr a c h1
        by_cases hDa : a = self ∨ IsListedBelow w self a
        · have hDc : c = self ∨ IsListedBelow w self c := by
            rcases hDa with e | hDa
            · exact Or.inr (e ▸ IsListedBelow.child h1)
            · exact Or.inr (IsListedBelow.step hDa h1)
          simp only [if_pos hDa, if_pos hDc]
          exact hlt
        · by_cases hDc : c = self ∨ IsListedBelow w self c
          · simp only [if_neg hDa, if_pos hDc]
            omega
          · simp only [if_neg hDa, if_neg hDc]
            omega
      · cases h2
        subst h1
        have hDc : c = c ∨ IsListedBelow w c c := Or.inl rfl
        beta_reduce
        rw [if_pos hDc, if_neg hDq]
        omega

theorem World.ListsForest.of_update {w w1 : World} (h : w.ListsForest) {fuel n : Nat}
    (hu : UpdateTransform fuel w n = some w1) : w1.ListsForest := by
  have hfr := UpdateTransform_frame _ _ _ _ hu
  exact h.of_links hfr.1
    (fun k => ⟨(hfr.2.2 k).object_id_eq, (hfr.2.2 k).parent_eq, (hfr.2.2 k).children_eq⟩)

/-- A `SetParent` call on a registered entity, with a registered entity or nothing as the new
parent, keeps the forest. -/
theorem SetParent_preserves_forest {w : World} (h : w.ListsForest) (fuel N : Nat)
    (Q : Option Nat) (hN : N < w.size) (hQ : ∀ q, Q = some q → q < w.size) (w1 : World)
    (h1 : SetParent fuel w N Q = some w1) : w1.ListsForest := by
  cases Q with
  | none =>
    simp only [SetParent, SetParent_relink_eq] at h1
    exact (relinked_forest h hN none (fun q hq => by cases hq)).of_update h1
  | some q =>
    unfold SetParent at h1
    simp only at h1
    split at h1
    · cases h1; exact h
    · rename_i hid
      have hqs : q ≠ N := fun e => hid (by rw [e])
      split at h1
      · cases h1; exact h
      · split at h1
        · cases h1
        · split at h1
          · cases h1
          · rename_i wa ha
            obtain ⟨hfa, hsa, hca, hpa, -⟩ := SetParent_promote_forest h fuel N wa ha
            rw [SetParent_relink_eq, ← hpa] at h1
            refine (relinked_forest hfa (hsa ▸ hN) (some q) ?_).of_update h1
            intro q1 hq1
            cases hq1
            refine ⟨hsa ▸ hQ q rfl, hqs, fun hb => ?_⟩
            obtain ⟨c, hc, -⟩ := hb.first
            rw [hca] at hc
            cases hc
        · rename_i hd
          rw [SetParent_relink_eq] at h1
          refine (relinked_forest h hN (some q) ?_).of_update h1
          intro q1 hq1
          cases hq1
          exact ⟨hQ q rfl, hqs, IsDescendantOf_false_not_listed h.back q fuel N hd⟩

theorem SetParentReachable.listsForest {w : World} (h : SetParentReachable w) :
    w.ListsForest := by
  induction h with
  | init w hd h0 =>
    exact
      { distinct := hd
        entries_lt := fun a c hc => by rw [(h0 a).2] at hc; cases hc
        parents_lt := fun a p hp => by rw [(h0 a).1] at hp; cases hp
        back := fun a c hc => by rw [(h0 a).2] at hc; cases hc
        nodup := fun a => by rw [(h0 a).2]; exact List.nodup_nil
        ranked := ⟨fun _ => 0, fun a c hc => by rw [(h0 a).2] at hc; cases hc⟩ }
  | step w w1 fuel N Q _ hN hQ h1 ih =>
    exact SetParent_preserves_forest ih fuel N Q hN hQ w1 h1

/-- C30: in every state reached from entities without parent and children, with pairwise
distinct identities, by `SetParent` calls, each entry of a children list has the lister as
its parent reference, no entity is in two lists and no list repeats an entry; the lists are
ranked, so that they form a forest, and with a budget above the rank of an entity
`UpdateTransform` and `GetDescendants` return on it (the latter with the pre-order listing),
and so does any further `SetParent` call. -/
theorem reachable_lists_form_forest (w : World) (h : SetParentReachable w) :
    (∀ X C, C ∈ (w.get X).children → (w.get C).parent = some X) ∧
    (∀ X Y C, C ∈ (w.get X).children → C ∈ (w.get Y).children → X = Y) ∧
    (∀ X, (w.get X).children.Nodup) ∧
    ∃ rank, w.ChildrenTree rank ∧
      ∀ n fuel, rank n < fuel →
        (∃ w1, UpdateTransform fuel w n = some w1) ∧
        (∀ out, GetDescendants fuel w n out = some (out ++ preorder w fuel n)) ∧
        ∀ Q, ∃ w1, SetParent fuel w n Q = some w1 := by
  have hf := h.listsForest
  have huniq : ∀ X Y C, C ∈ (w.get X).children → C ∈ (w.get Y).children → X = Y := by
    intro X Y C hX hY
    have h1 := hf.back X C hX
    rw [hf.back Y C hY] at h1
    cases h1
    rfl
  obtain ⟨rank, hr⟩ := hf.ranked
  refine ⟨hf.back, huniq, hf.nodup, rank, ⟨hr, hf.nodup, huniq⟩, fun n fuel hfuel => ?_⟩
  refine ⟨?_, ?_, ?_⟩
  · exact UpdateTransform_returns (fun _ => True) rank fuel w n
      (fun a c _ hc => ⟨trivial, hr a c hc⟩) trivial hfuel
  · intro out
    exact GetDescendants_eq hr fuel n out hfuel
  · intro Q
    exact SetParent_returns hr hf.back n Q fuel hfuel

theorem reachable_lists_form_forest_witness :
    ∃ w, SetParent 1 threeRoots 1 (some 0) = some w ∧
      (∀ X C, C ∈ (w.get X).children → (w.get C).parent = some X) ∧
      (∀ X Y C, C ∈ (w.get X).children → C ∈ (w.get Y).children → X = Y) ∧
      (∀ X, (w.get X).children.Nodup) ∧
      ∃ rank, w.ChildrenTree rank ∧
        ∀ n fuel, rank n < fuel →
          (∃ w1, UpdateTransform fuel w n = some w1) ∧
          (∀ out, GetDescendants fuel w n out = some (out ++ preorder w fuel n)) ∧
          ∀ Q, ∃ w1, SetParent fuel w n Q = some w1 := by
  have hs : (SetParent 1 threeRoots 1 (some 0)).isSome = true := by decide
  obtain ⟨w, hw⟩ := Option.isSome_iff_exists.1 hs
  refine ⟨w, hw, reachable_lists_form_forest w
    (SetParentReachable.step threeRoots w 1 1 (some 0)
      (SetParentReachable.init threeRoots (by decide) (fun k => ?_)) (by decide)
      (fun q hq => by cases hq; decide) hw)⟩
  unfold threeRoots
  simp only
  split_ifs <;> exact ⟨rfl, rfl⟩

/-! ## `AcquireChildren` -/

theorem Entity.SameButChildren.trans_children {e1 e2 e3 : Entity} (h12 : e1.SameButChildren e2)
    (h23 : e2.SameButChildren e3) : e1.SameButChildren e3 := by
  unfold Entity.SameButChildren at *
  rw [h23, h12]

theorem Entity.SameButChildren.links_eq {e1 e2 : Entity} (h : e1.SameButChildren e2) :
    e2.parent = e1.parent ∧ e2.object_id = e1.object_id := by
  unfold Entity.SameButChildren at h
  rw [h]
  exact ⟨rfl, rfl⟩

theorem parent_of_isChildByParent {w : World} (hd : w.DistinctIds)
    (hpar : ∀ a, a < w.size → ∀ p, (w.get a).parent = some p → p < w.size)
    {x k : Nat} (hx : x < w.size) (hk : k < w.size) (h : isChildByParent w x k = true) :
    k ≠ x ∧ (w.get k).parent = some x := by
  unfold isChildByParent at h
  simp only [Bool.and_eq_true, decide_eq_true_eq] at h
  obtain ⟨h1, h2⟩ := h
  refine ⟨h1, ?_⟩
  cases hp : (w.get k).parent with
  | none => rw [hp] at h2; cases h2
  | some p =>
    rw [hp] at h2
    simp only [decide_eq_true_eq] at h2
    rw [hd p (hpar k hk p hp) x hx h2]

theorem isChildByParent_of_parent {w : World} (hac : w.Acyclic) {x k : Nat} (hk : k < w.size)
    (h : (w.get k).parent = some x) : isChildByParent w x k = true := by
  unfold isChildByParent
  rw [h]
  simp only [Bool.and_eq_true, decide_eq_true_eq, and_true]
  intro e
  exact (IsAncestor.parent h).ne_of_reachesRoot _ (hac k hk) e.symm

theorem IsAncestor.lt_size_of_parents {w : World}
    (hpar : ∀ a, a < w.size → ∀ p, (w.get a).parent = some p → p < w.size) {a x : Nat}
    (h : IsAncestor w a x) (hx : x < w.size) : a < w.size := by
  induction h with
  | parent hp => exact hpar _ hx _ hp
  | step hp _ ih => exact ih (hpar _ hx _ hp)

/-- In an acyclic world a child by parent reference ranks below its parent, and the parent
is neither the child nor one of its descendants. -/
theorem child_by_parent_facts {w : World} (hac : w.Acyclic) {n c : Nat} (hc : c < w.size)
    (hp : (w.get c).parent = some n) :
    w.height c < w.height n ∧ n ≠ c ∧ ¬ IsAncestor w c n ∧
      ∀ k, (k = c ∨ IsAncestor w c k) → IsAncestor w n k := by
  refine ⟨?_, ?_, ?_, ?_⟩
  · have h1 := hac.depth_parent_lt hc hp
    have h2 := depth_le w w.size c
    unfold World.height
    omega
  · exact (IsAncestor.parent hp).ne_of_reachesRoot _ (hac c hc)
  · intro h
    exact (IsAncestor.step hp h).ne_of_reachesRoot _ (hac c hc) rfl
  · intro k hk
    rcases hk with e | hk
    · subst e; exact IsAncestor.parent hp
    · exact IsAncestor.of_parent_of_ancestor hp hk

theorem SameParents.of_sameButChildren {w0 w w1 : World} (h : SameParents w0 w)
    (hsz : w1.size = w.size) (hl : ∀ k, (w.get k).SameButChildren (w1.get k)) :
    SameParents w0 w1 :=
  ⟨hsz.trans h.1, fun k => ⟨((hl k).links_eq.1).trans (h.2 k).1,
    ((hl k).links_eq.2).trans (h.2 k).2⟩⟩

theorem World.sameButChildren_set (w : World) (n : Nat) (ch : List Nat) (k : Nat) :
    (w.get k).SameButChildren ((w.set n { w.get n with children := ch }).get k) := by
  simp only [World.get_set]
  split
  · next h => subst h; rfl
  · rfl

/-- What `AcquireChildren` does, stated against a world `w0` that fixes the parent
references: it returns, changes children lists only, and only those of the entity and its
descendants by parent reference, which become the lists the parent references give. -/
theorem AcquireChildren_spec {w0 : World} (hd : w0.DistinctIds) (hac : w0.Acyclic)
    (hpar : ∀ a, a < w0.size → ∀ p, (w0.get a).parent = some p → p < w0.size) :
    ∀ (fuel : Nat) (w : World) (n : Nat), SameParents w0 w → n < w0.size →
      w0.height n < fuel →
      ∃ w1, AcquireChildren fuel w n = some w1 ∧
        w1.size = w.size ∧ w1.next_id = w.next_id ∧
        (∀ k, (w.get k).SameButChildren (w1.get k)) ∧
        (∀ k, ¬ (k = n ∨ IsAncestor w0 n k) → (w1.get k).children = (w.get k).children) ∧
        ∀ k, k < w0.size → (k = n ∨ IsAncestor w0 n k) →
          (w1.get k).children = childrenByParent w0 k := by
  intro fuel
  induction fuel with
  | zero => intro w n _ _ h; omega
  | succ fuel ih =>
    intro w n hsp hn hfuel
    have hloop : ∀ (todo done : List Nat) (wc : World),
        (∀ c ∈ todo, c < w0.size) → (∀ c ∈ done, c < w0.size) →
        SameParents w0 wc → wc.next_id = w.next_id →
        (∀ k, (w.get k).SameButChildren (wc.get k)) →
        (wc.get n).children = done.filter (isChildByParent w0 n) →
        (∀ k, ¬ (k = n ∨ IsAncestor w0 n k) → (wc.get k).children = (w.get k).children) →
        (∀ c ∈ done, isChildByParent w0 n c = true → ∀ k, k < w0.size →
          (k = c ∨ IsAncestor w0 c k) → (wc.get k).children = childrenByParent w0 k) →
        ∃ w1, forEachM
            (fun w2 possible_child =>
              match (w2.get possible_child).parent with
              | none => some w2
              | some parent =>
                if (w2.get possible_child).object_id = (w2.get n).object_id then some w2
                else if (w2.get parent).object_id = (w2.get n).object_id then
                  AcquireChildren fuel
                    (w2.set n { w2.get n with
                      children := (w2.get n).children ++ [possible_child] })
                    possible_child
                else some w2)
            todo wc = some w1 ∧
          SameParents w0 w1 ∧ w1.next_id = w.next_id ∧
          (∀ k, (w.get k).SameButChildren (w1.get k)) ∧
          (w1.get n).children = (done ++ todo).filter (isChildByParent w0 n) ∧
          (∀ k, ¬ (k = n ∨ IsAncestor w0 n k) → (w1.get k).children = (w.get k).children) ∧
          ∀ c ∈ done ++ todo, isChildByParent w0 n c = true → ∀ k, k < w0.size →
            (k = c ∨ IsAncestor w0 c k) → (w1.get k).children = childrenByParent w0 k := by
      intro todo
      induction todo with
      | nil =>
        intro done wc _ _ h1 h2 h3 h4 h5 h6
        refine ⟨wc, rfl, h1, h2, h3, ?_, h5, ?_⟩
        · rw [List.append_nil]; exact h4
        · rw [List.append_nil]; exact h6
      | cons c todo ihl =>
        intro done wc hlt hdone h1 h2 h3 h4 h5 h6
        have hc : c < w0.size := hlt c (List.mem_cons_self c todo)
        have hdone2 : ∀ c1 ∈ done ++ [c], c1 < w0.size := by
          intro c1 hc1
          rcases List.mem_append.1 hc1 with h | h
          · exact hdone c1 h
          · rw [List.mem_singleton.1 h]; exact hc
        -- an iteration that changes nothing, for an entity that is no child
        have hskip : isChildByParent w0 n c = false →
            ∃ w1, forEachM
              (fun w2 possible_child =>
                match (w2.get possible_child).parent with
                | none => some w2
                | some parent =>
                  if (w2.get possible_child).object_id = (w2.get n).object_id then some w2
                  else if (w2.get parent).object_id = (w2.get n).object_id then
                    AcquireChildren fuel
                      (w2.set n { w2.get n with
                        children := (w2.get n).children ++ [possible_child] })
                      possible_child
                  else some w2)
              todo wc = some w1 ∧
            SameParents w0 w1 ∧ w1.next_id = w.next_id ∧
            (∀ k, (w.get k).SameButChildren (w1.get k)) ∧
            (w1.get n).children = (done ++ c :: todo).filter (isChildByParent w0 n) ∧
            (∀ k, ¬ (k = n ∨ IsAncestor w0 n k) →
              (w1.get k).children = (w.get k).children) ∧
            ∀ c1 ∈ done ++ c :: todo, isChildByParent w0 n c1 = true → ∀ k, k < w0.size →
              (k = c1 ∨ IsAncestor w0 c1 k) → (w1.get k).children = childrenByParent w0 k := by
          intro hno
          have e : done ++ c :: todo = (done ++ [c]) ++ todo := by simp
          rw [e]
          refine ihl (done ++ [c]) wc (fun c1 hc1 => hlt c1 (List.mem_cons_of_mem c hc1))
            hdone2 h1 h2 h3 ?_ h5 ?_
          · rw [List.filter_append, h4]
            simp [hno]
          · intro c1 hc1 hch
            rcases List.mem_append.1 hc1 with h | h
            · exact h6 c1 h hch
            · rw [List.mem_singleton.1 h, hno] at hch
              cases hch
        simp only [forEachM]
        cases hp : (wc.get c).parent with
        | none =>
          simp only
          apply hskip
          unfold isChildByParent
          rw [← (h1.2 c).1, hp]
          simp
        | some p =>
          have hp0 : (w0.get c).parent = some p := by rw [← (h1.2 c).1]; exact hp
          simp only
          by_cases hid : (wc.get c).object_id = (wc.get n).object_id
          · rw [if_pos hid]
            simp only
            apply hskip
            rw [(h1.2 c).2, (h1.2 n).2] at hid
            have e : c = n := hd c hc n hn hid
            unfold isChildByParent
            simp [e]
          · rw [if_neg hid]
            by_cases hpid : (wc.get p).object_id = (wc.get n).object_id
            · rw [if_pos hpid]
              rw [(h1.2 p).2, (h1.2 n).2] at hpid
              have e : p = n := hd p (hpar c hc p hp0) n hn hpid
              subst e
              have hcn : c ≠ p := fun e => hid (by rw [e])
              have hch : isChildByParent w0 p c = true := by
                unfold isChildByParent
                rw [hp0]
                simp [hcn]
              obtain ⟨f1, f2, f3, f4⟩ := child_by_parent_facts hac hc hp0
              have hsub : ¬ (p = c ∨ IsAncestor w0 c p) := fun h => h.elim f2 f3
              -- the recursive call
              have hsp2 : SameParents w0
                  (wc.set p { wc.get p with children := (wc.get p).children ++ [c] }) :=
                h1.of_sameButChildren rfl (fun k => World.sameButChildren_set wc p _ k)
              obtain ⟨w2, hw2, hsz2, hnx2, hsb2, hout2, hin2⟩ :=
                ih (wc.set p { wc.get p with children := (wc.get p).children ++ [c] }) c
                  hsp2 hc (by omega)
              rw [hw2]
              simp only
              have e : done ++ c :: todo = (done ++ [c]) ++ todo := by simp
              rw [e]
              refine ihl (done ++ [c]) w2 (fun c1 hc1 => hlt c1 (List.mem_cons_of_mem c hc1))
                hdone2 (hsp2.of_sameButChildren hsz2 hsb2) (by rw [hnx2]; exact h2) ?_ ?_ ?_ ?_
              · intro k
                exact ((h3 k).trans_children (World.sameButChildren_set wc p _ k)).trans_children
                  (hsb2 k)
              · rw [hout2 p hsub, List.filter_append, ← h4]
                simp [hch]
              · intro k hk
                have hk2 : ¬ (k = c ∨ IsAncestor w0 c k) := fun h => hk (Or.inr (f4 k h))
                have hkp : k ≠ p := fun e => hk (Or.inl e)
                rw [hout2 k hk2, ← h5 k hk]
                simp [hkp]
              · intro c1 hc1 hch1 k hk hsub1
                by_cases hkc : k = c ∨ IsAncestor w0 c k
                · exact hin2 k hk hkc
                · rcases List.mem_append.1 hc1 with h | h
                  · rw [hout2 k hkc, ← h6 c1 h hch1 k hk hsub1]
                    have hkp : k ≠ p := by
                      intro e
                      subst e
                      -- the parent is not below one of its children
                      obtain ⟨-, hp1⟩ :=
                        parent_of_isChildByParent hd hpar hn (hdone c1 h) hch1
                      obtain ⟨-, g2, g3, -⟩ := child_by_parent_facts hac (hdone c1 h) hp1
                      exact hsub1.elim g2 g3
                    simp [hkp]
                  · rw [List.mem_singleton.1 h] at hsub1
                    exact absurd hsub1 hkc
            · rw [if_neg hpid]
              simp only
              apply hskip
              unfold isChildByParent
              rw [hp0]
              rw [(h1.2 p).2, (h1.2 n).2] at hpid
              simp [hpid]
    obtain ⟨w1, hw1, hsp1, hnx1, hsb1, hn1, hout1, hin1⟩ := hloop (List.range w.size) []
      (w.set n { w.get n with children := [] })
      (fun c hc => by rw [← hsp.1]; exact List.mem_range.1 hc)
      (fun c hc => absurd hc (List.not_mem_nil c))
      (hsp.of_sameButChildren rfl (fun k => World.sameButChildren_set w n _ k)) rfl
      (fun k => World.sameButChildren_set w n _ k) (by simp)
      (fun k hk => by
        have hkn : k ≠ n := fun e => hk (Or.inl e)
        simp [hkn])
      (fun c hc => absurd hc (List.not_mem_nil c))
    refine ⟨w1, ?_, hsp1.1.trans hsp.1.symm, hnx1, hsb1, hout1, ?_⟩
    · rw [AcquireChildren]
      simp only [World.size_set]
      exact hw1
    · intro k hk hsub
      rcases hsub with e | hsub
      · rw [e, hn1, List.nil_append, hsp.1]
        rfl
      · have hmem : ∀ c, c < w0.size → c ∈ [] ++ List.range w.size := by
          intro c hc
          rw [List.nil_append, hsp.1]
          exact List.mem_range.2 hc
        rcases hsub.child_of_top with hp | ⟨c, hcp, hck⟩
        · exact hin1 k (hmem k hk) (isChildByParent_of_parent hac hk hp) k hk (Or.inl rfl)
        · have hc : c < w0.size := hck.lt_size_of_parents hpar hk
          exact hin1 c (hmem c hc) (isChildByParent_of_parent hac hc hcp) k hk (Or.inr hck)


theorem childrenByParent_congr {w0 w : World} (h : SameParents w0 w) (x : Nat) :
    childrenByParent w x = childrenByParent w0 x := by
  unfold childrenByParent
  rw [h.1]
  congr 1
  funext k
  unfold isChildByParent
  rw [(h.2 k).1]
  cases (w0.get k).parent with
  | none => rfl
  | some p => simp only [(h.2 p).2, (h.2 x).2]

/-- C22: in a registry with pairwise distinct identities, acyclic parent references and
registered parents, `AcquireChildren` on a registered entity N returns, given a budget above
the number of entities, whatever the children lists were; afterwards the list of N, and of
every entity listed below N, is the list of the registered entities other than itself whose
parent has its identity, in registry order.  Nothing but children lists has changed. -/
theorem AcquireChildren_rebuilds (w : World) (hd : w.DistinctIds) (hac : w.Acyclic)
    (hvp : w.ValidParents) (N : Nat) (hN : N < w.size) (fuel : Nat) (hfuel : w.size < fuel) :
    ∃ w1, AcquireChildren fuel w N = some w1 ∧
      (w1.get N).children = childrenByParent w1 N ∧
      (∀ k, IsListedBelow w1 N k →
        k < w1.size ∧ (w1.get k).children = childrenByParent w1 k) ∧
      (∀ k, (w.get k).SameButChildren (w1.get k)) ∧ w1.size = w.size ∧
      ∀ k, childrenByParent w1 k = childrenByParent w k := by
  have hpar : ∀ a, a < w.size → ∀ p, (w.get a).parent = some p → p < w.size :=
    fun a ha p hp => hvp a ha p hp
  have hsp0 : SameParents w w := ⟨rfl, fun _ => ⟨rfl, rfl⟩⟩
  obtain ⟨w1, h1, hsz, -, hsb, -, hin⟩ := AcquireChildren_spec hd hac hpar fuel w N hsp0 hN
    (by have := w.height_le N; omega)
  have hsp : SameParents w w1 := hsp0.of_sameButChildren hsz hsb
  have hcb := childrenByParent_congr hsp
  have hmem : ∀ a k, a < w.size → k ∈ childrenByParent w a →
      k < w.size ∧ (w.get k).parent = some a := by
    intro a k ha hk
    unfold childrenByParent at hk
    obtain ⟨hk1, hk2⟩ := List.mem_filter.1 hk
    have hk3 := List.mem_range.1 hk1
    exact ⟨hk3, (parent_of_isChildByParent hd hpar ha hk3 hk2).2⟩
  have hbelow : ∀ k, IsListedBelow w1 N k → k < w.size ∧ IsAncestor w N k := by
    intro k hk
    induction hk with
    | child hx =>
      rw [hin N hN (Or.inl rfl)] at hx
      obtain ⟨h2, h3⟩ := hmem N _ hN hx
      exact ⟨h2, IsAncestor.parent h3⟩
    | @step p x _ hx ih =>
      rw [hin p ih.1 (Or.inr ih.2)] at hx
      obtain ⟨h2, h3⟩ := hmem p _ ih.1 hx
      exact ⟨h2, IsAncestor.step h3 ih.2⟩
  refine ⟨w1, h1, ?_, ?_, hsb, hsz, hcb⟩
  · rw [hcb, hin N hN (Or.inl rfl)]
  · intro k hk
    obtain ⟨h2, h3⟩ := hbelow k hk
    exact ⟨hsz ▸ h2, by rw [hcb, hin k h2 (Or.inr h3)]⟩

theorem AcquireChildren_rebuilds_witness :
    ∃ w1, AcquireChildren 4 chain3 0 = some w1 ∧
      (w1.get 0).children = childrenByParent w1 0 ∧
      (∀ k, IsListedBelow w1 0 k →
        k < w1.size ∧ (w1.get k).children = childrenByParent w1 k) ∧
      (∀ k, (chain3.get k).SameButChildren (w1.get k)) ∧ w1.size = chain3.size ∧
      ∀ k, childrenByParent w1 k = childrenByParent chain3 k :=
  AcquireChildren_rebuilds chain3 (by decide) (by decide) (by decide) 0 (by decide) 4
    (by decide)

/-! ## The components of a clone -/

theorem find_range (p : Nat → Bool) : ∀ (n self : Nat), self < n → p self = true →
    ∃ q, (List.range n).find? p = some q ∧ q ≤ self ∧ p q = true ∧ ∀ k, k < q → p k = false := by
  intro n
  induction n with
  | zero => intro self h; omega
  | succ n ih =>
    intro self hself hp
    rw [List.range_succ, List.find?_append]
    by_cases hlt : self < n
    · obtain ⟨q, h1, h2, h3, h4⟩ := ih self hlt hp
      exact ⟨q, by rw [h1]; rfl, h2, h3, h4⟩
    · have e : self = n := by omega
      subst e
      cases hf : (List.range self).find? p with
      | some q =>
        have hq := List.find?_some hf
        have hmem := List.mem_of_find?_eq_some hf
        have hql : q < self := List.mem_range.1 hmem
        obtain ⟨q1, h1, h2, h3, h4⟩ := ih q hql hq
        rw [hf] at h1
        cases h1
        exact ⟨q, rfl, by omega, h3, h4⟩
      | none =>
        refine ⟨self, by simp [hp], Nat.le_refl _, hp, fun k hk => ?_⟩
        have := List.find?_eq_none.1 hf k (List.mem_range.2 hk)
        simpa using this

/-- The lookup of the identity of a registered entity finds an entity, at or before it in
registry order, that has this identity; it finds the entity itself when no earlier one has
the identity. -/
theorem GetEntityById_self (w : World) (self : Nat) (hself : self < w.size) :
    ∃ q, GetEntityById w (w.get self).object_id = some q ∧ q ≤ self ∧
      (w.get q).object_id = (w.get self).object_id ∧
      ((∀ k, k < self → (w.get k).object_id ≠ (w.get self).object_id) → q = self) := by
  obtain ⟨q, h1, h2, h3, h4⟩ := find_range
    (fun handle => decide ((w.get handle).object_id = (w.get self).object_id)) w.size self hself
    (by simp)
  refine ⟨q, h1, h2, by simpa using h3, fun hfirst => ?_⟩
  by_contra hne
  exact hfirst q (by omega) (by simpa using h3)

/-- `IsDescendantOf` returns when the children lists at and below `transform` are ranked. -/
theorem IsDescendantOf_returns (S : Nat → Prop) (rank : Nat → Nat) (w : World) (self : Nat)
    (hS : ∀ a c, S a → c ∈ (w.get a).children → S c ∧ rank c < rank a) :
    ∀ (fuel transform : Nat), S transform → rank transform < fuel →
      ∃ b, IsDescendantOf fuel w self transform = some b := by
  intro fuel
  induction fuel with
  | zero => intro t _ h; omega
  | succ fuel ih =>
    intro t ht hfuel
    rw [IsDescendantOf]
    cases (w.get self).parent with
    | none => exact ⟨false, rfl⟩
    | some parent =>
      simp only
      split
      · exact ⟨true, rfl⟩
      · obtain ⟨b, hb, -⟩ := anyChildM_spec (fun child => IsDescendantOf fuel w self child)
          (fun c => IsDescendantOf fuel w self c = some true) (w.get t).children
          (fun c hc => by
            obtain ⟨bc, hbc⟩ := ih c (hS t c ht hc).1 (by have := (hS t c ht hc).2; omega)
            refine ⟨bc, hbc, ?_⟩
            show bc = true ↔ IsDescendantOf fuel w self c = some true
            rw [hbc]
            simp)
        exact ⟨b, hb⟩

/-- The links of the world in which an entity without parent is attached to `q`. -/
theorem relinked_attach_links (w : World) (c q : Nat)
    (hne : (w.get c).object_id ≠ (w.get q).object_id) (hnm : c ∉ (w.get q).children)
    (hqc : q ≠ c) (k : Nat) :
    ((relinked w c none (some q)).get k).parent =
        (if k = c then some q else (w.get k).parent) ∧
      ((relinked w c none (some q)).get k).children =
        (if k = q then (w.get q).children ++ [c] else (w.get k).children) := by
  simp only [relinked, World.get_set]
  by_cases hk : k = c
  · subst hk
    have hkq : k ≠ q := fun e => hqc e.symm
    simp only [if_true, if_neg hkq]
    rw [AddChild_get hne hnm, if_neg hkq]
    exact ⟨trivial, rfl⟩
  · simp only [if_neg hk]
    rw [AddChild_get hne hnm]
    by_cases hkq : k = q
    · subst hkq; simp
    · simp [hkq]


/-- `SetParent` on an entity created by the load, which has no parent yet, with an earlier
entity `q` as the new parent: the call returns, and it changes the links of earlier entities
at most by appending the entity to the list of `q`, which it does when the identities
differ. -/
theorem SetParent_fresh {w : World} {B c q : Nat} (hinv : LoadInv B w) (hB : B ≤ c)
    (hc : c < w.size) (hq : q < c) (hpar : (w.get c).parent = none)
    (hnm : c ∉ (w.get q).children) (fuel : Nat) (hfuel : w.size - c < fuel) :
    ∃ w1, SetParent fuel w c (some q) = some w1 ∧ w1.size = w.size ∧ LoadInv B w1 ∧
      (∀ k, k < c → (w1.get k).parent = (w.get k).parent) ∧
      (∀ k, k < c → k ≠ q → (w1.get k).children = (w.get k).children) ∧
      (∃ extra, (w1.get q).children = (w.get q).children ++ extra ∧ ∀ x ∈ extra, x = c) ∧
      ((w.get c).object_id ≠ (w.get q).object_id →
        (w1.get q).children = (w.get q).children ++ [c] ∧ (w1.get c).parent = some q) := by
  have hqc : q ≠ c := by omega
  have hS : ∀ a x, (c ≤ a ∧ a < w.size) → x ∈ (w.get a).children →
      (c ≤ x ∧ x < w.size) ∧ w.size - x < w.size - a := by
    intro a x ha hx
    have h1 := hinv.fresh_up a (by omega) ha.2 x hx
    have h2 := hinv.entries_lt a ha.2 x hx
    exact ⟨⟨by omega, h2⟩, by omega⟩
  by_cases hid : (w.get c).object_id = (w.get q).object_id
  · refine ⟨w, by simp [SetParent, hid], rfl, hinv, fun _ _ => rfl, fun _ _ _ => rfl,
      ⟨[], by simp, by simp⟩, fun h => absurd hid h⟩
  · -- the relink, from the world `wa` the promotion block leaves or from `w` itself
    have hrel : ∀ wa : World, wa.size = w.size →
        (∀ k, (wa.get k).object_id = (w.get k).object_id) →
        (∀ k, k ≠ c → (wa.get k).children = (w.get k).children) →
        (∀ x ∈ (wa.get c).children, x ∈ (w.get c).children) →
        (∀ k, k < c → (wa.get k).parent = (w.get k).parent) →
        ∃ w1, SetParent_relink fuel wa c none (some q) = some w1 ∧ w1.size = w.size ∧
          LoadInv B w1 ∧
          (∀ k, k < c → (w1.get k).parent = (w.get k).parent) ∧
          (∀ k, k < c → k ≠ q → (w1.get k).children = (w.get k).children) ∧
          (w1.get q).children = (w.get q).children ++ [c] ∧ (w1.get c).parent = some q := by
      intro wa hsz hids hch hcc hpa
      have hsub : ∀ a x, x ∈ (wa.get a).children → x ∈ (w.get a).children := by
        intro a x hx
        by_cases e : a = c
        · subst e; exact hcc x hx
        · rw [hch a e] at hx; exact hx
      obtain ⟨w1, h1⟩ := SetParent_relink_returns (fun k => c ≤ k ∧ k < w.size)
        (fun k => w.size - k) fuel wa c none (some q)
        (fun a x ha hx => hS a x ha (hsub a x hx)) ⟨Nat.le_refl c, hc⟩
        (fun q1 hq1 hSq => by cases hq1; omega) hfuel
      have h2 := h1
      rw [SetParent_relink_eq] at h2
      have hfr := UpdateTransform_frame _ _ _ _ h2
      have hl := relinked_attach_links wa c q (by rw [hids c, hids q]; exact hid)
        (by rw [hch q hqc]; exact hnm) hqc
      have hsz1 : w1.size = w.size := by
        rw [hfr.1, (relinked_links wa c none (some q)).1, hsz]
      have hpar1 : ∀ k, (w1.get k).parent = if k = c then some q else (wa.get k).parent :=
        fun k => by rw [(hfr.2.2 k).parent_eq, (hl k).1]
      have hch1 : ∀ k, (w1.get k).children =
          if k = q then (wa.get q).children ++ [c] else (wa.get k).children :=
        fun k => by rw [(hfr.2.2 k).children_eq, (hl k).2]
      refine ⟨w1, h1, hsz1, ?_, ?_, ?_, ?_, ?_⟩
      · refine ⟨fun k hk x hx => ?_, fun k hkB hk x hx => ?_⟩
        · rw [hsz1] at hk ⊢
          rw [hch1] at hx
          split at hx
          · next e =>
            rcases List.mem_append.1 hx with h | h
            · exact hinv.entries_lt q (by omega) x (hsub q x h)
            · rw [List.mem_singleton.1 h]; exact hc
          · exact hinv.entries_lt k hk x (hsub k x hx)
        · rw [hsz1] at hk
          rw [hch1] at hx
          split at hx
          · next e =>
            rcases List.mem_append.1 hx with h | h
            · exact e ▸ hinv.fresh_up q (e ▸ hkB) (e ▸ hk) x (hsub q x h)
            · rw [List.mem_singleton.1 h, e]; exact hq
          · exact hinv.fresh_up k hkB hk x (hsub k x hx)
      · intro k hk
        rw [hpar1, if_neg (by omega), hpa k hk]
      · intro k hk hkq
        rw [hch1, if_neg hkq, hch k (by omega)]
      · rw [hch1, if_pos rfl, hch q hqc]
      · rw [hpar1, if_pos rfl]
    obtain ⟨b, hb⟩ := IsDescendantOf_returns (fun k => c ≤ k ∧ k < w.size)
      (fun k => w.size - k) w q hS fuel c ⟨Nat.le_refl c, hc⟩ hfuel
    have hSP : ∀ w1, (match b with
          | true =>
            match SetParent_promote fuel w c with
            | none => none
            | some wa => SetParent_relink fuel wa c none (some q)
          | false => SetParent_relink fuel w c none (some q)) = some w1 →
        SetParent fuel w c (some q) = some w1 := by
      intro w1 h
      unfold SetParent
      simp only [hpar, hid, if_false, hb]
      cases b <;> simpa using h
    cases b with
    | true =>
      obtain ⟨wa, hwa⟩ := SetParent_promote_returns (fun k => c ≤ k ∧ k < w.size)
        (fun k => w.size - k) fuel w c hS ⟨Nat.le_refl c, hc⟩
        (by show w.size - c ≤ fuel; omega)
      obtain ⟨hsa, hla⟩ := SetParent_promote_links fuel w c wa hwa
      obtain ⟨w1, h1, h2, h3, h4, h5, h6, h7⟩ := hrel wa hsa (fun k => (hla k).1)
        (fun k hk => by rw [(hla k).2.1, if_neg hk])
        (fun x hx => by rw [(hla c).2.1, if_pos rfl] at hx; cases hx)
        (fun k hk => by
          rw [(hla k).2.2]
          split
          · next hm =>
            have := hinv.fresh_up c hB hc k hm
            omega
          · rfl)
      exact ⟨w1, hSP w1 (by simp only [hwa]; exact h1), h2, h3, h4, h5,
        ⟨[c], h6, by simp⟩, fun _ => ⟨h6, h7⟩⟩
    | false =>
      obtain ⟨w1, h1, h2, h3, h4, h5, h6, h7⟩ := hrel w rfl (fun _ => rfl) (fun _ _ => rfl)
        (fun _ hx => hx) (fun _ _ => rfl)
      exact ⟨w1, hSP w1 h1, h2, h3, h4, h5, ⟨[c], h6, by simp⟩, fun _ => ⟨h6, h7⟩⟩


theorem Entity.SameButLinks.loadedValues_eq {e1 e2 : Entity} (h : e1.SameButLinks e2) :
    e2.loadedValues = e1.loadedValues := by
  unfold Entity.SameButLinks at h
  rw [h]
  rfl

theorem Entity.SameButLinks.id_eq {e1 e2 : Entity} (h : e1.SameButLinks e2) :
    e2.object_id = e1.object_id := by
  unfold Entity.SameButLinks at h
  rw [h]


theorem Record.countList_cons_mk (name : String) (id : Nat) (active : Bool) (position : Vector3)
    (rotation : Quaternion) (scale : Vector3) (cs rest : List Record) :
    Record.countList (Record.mk name id active position rotation scale cs :: rest) =
      1 + Record.countList cs + Record.countList rest := by
  simp only [Record.countList, Record.count]

theorem Record.idsList_cons_mk (name : String) (id : Nat) (active : Bool) (position : Vector3)
    (rotation : Quaternion) (scale : Vector3) (cs rest : List Record) :
    Record.idsList (Record.mk name id active position rotation scale cs :: rest) =
      (id :: Record.idsList cs) ++ Record.idsList rest := by
  simp only [Record.idsList, Record.ids]

/-- The loop of `Load` over child records: it returns, given a budget above the number of
entities the whole load creates; it creates one entity per record of the trees, keeps the
invariant of the load and the frame, gives every created child the values of its record,
and, when the lookup of the identity of `self` gives `self` and no record has that identity,
appends exactly the created children to the list of `self`, as children of `self`. -/
theorem Load_children_spec : ∀ (n : Nat) (rs : List Record), Record.countList rs ≤ n →
    ∀ (fuel : Nat) (w : World) (self B : Nat), self < w.size → B ≤ w.size → LoadInv B w →
      w.size + Record.countList rs - B < fuel →
      ∃ w1, Load_children fuel w self rs = some w1 ∧
        w1.size = w.size + Record.countList rs ∧ LoadInv B w1 ∧
        LoadFrame w w1 ((w.get self).object_id :: Record.idsList rs) ∧
        (∀ p ∈ (childHandles w.size rs).zip rs, (w1.get p.1).loadedValues = p.2.values) ∧
        ((∀ k, k < self → (w.get k).object_id ≠ (w.get self).object_id) →
          (w.get self).object_id ∉ Record.idsList rs →
          (w1.get self).children = (w.get self).children ++ childHandles w.size rs ∧
          ∀ c ∈ childHandles w.size rs, (w1.get c).parent = some self) := by
  have hnil : ∀ (fuel : Nat) (w : World) (self B : Nat), LoadInv B w →
      ∃ w1, Load_children fuel w self [] = some w1 ∧
        w1.size = w.size + Record.countList [] ∧ LoadInv B w1 ∧
        LoadFrame w w1 ((w.get self).object_id :: Record.idsList []) ∧
        (∀ p ∈ (childHandles w.size []).zip ([] : List Record),
          (w1.get p.1).loadedValues = p.2.values) ∧
        ((∀ k, k < self → (w.get k).object_id ≠ (w.get self).object_id) →
          (w.get self).object_id ∉ Record.idsList [] →
          (w1.get self).children = (w.get self).children ++ childHandles w.size [] ∧
          ∀ c ∈ childHandles w.size [], (w1.get c).parent = some self) := by
    intro fuel w self B hinv
    refine ⟨w, by simp [Load_children], by simp [Record.countList], hinv, ?_, ?_, ?_⟩
    · exact
        { links := fun k _ => Entity.SameButLinks.refl_links _
          parent_eq := fun _ _ => rfl
          children_ext := fun k _ => ⟨[], by simp, by simp⟩
          untouched := fun _ _ _ => rfl }
    · intro p hp
      simp [childHandles] at hp
    · intro _ _
      simp [childHandles]
  intro n
  induction n with
  | zero =>
    intro rs hrs fuel w self B _ _ hinv _
    cases rs with
    | nil => exact hnil fuel w self B hinv
    | cons r rest =>
      cases r with
      | mk name id active position rotation scale cs =>
        rw [Record.countList_cons_mk] at hrs
        omega
  | succ m ih =>
    intro rs hrs fuel w self B hself hB hinv hfuel
    cases rs with
    | nil => exact hnil fuel w self B hinv
    | cons r rest =>
      cases r with
      | mk name id active position rotation scale cs =>
        rw [Record.countList_cons_mk] at hrs hfuel ⊢
        rw [Record.idsList_cons_mk]
        obtain ⟨f, rfl⟩ : ∃ f, fuel = f + 1 := ⟨fuel - 1, by omega⟩
        -- the new entity, with the values of the record stored
        obtain ⟨w1, hw1⟩ : ∃ w1 : World, w1 =
            (({ size := w.size + 1, get := w.get, next_id := w.next_id + 1 } : World).set w.size
              { object_id := w.next_id,
                matrix_local := Matrix.trs ⟨0, 0, 0⟩ ⟨0, 0, 0, 1⟩ ⟨1, 1, 1⟩,
                matrix := Matrix.trs ⟨0, 0, 0⟩ ⟨0, 0, 0, 1⟩ ⟨1, 1, 1⟩ }) := ⟨_, rfl⟩
        obtain ⟨w1a, hw1a⟩ : ∃ w1a : World, w1a =
            w1.set w.size { w1.get w.size with
              is_active := active, object_id := id, object_name := name,
              position_local := position, rotation_local := rotation,
              scale_local := scale } := ⟨_, rfl⟩
        have hsz1 : w1a.size = w.size + 1 := by rw [hw1a, hw1]; rfl
        have hold1 : ∀ k, k ≠ w.size → w1a.get k = w.get k := by
          intro k hk
          rw [hw1a, hw1]
          simp [World.set, hk]
        have hnew1 : (w1a.get w.size).loadedValues =
              (name, id, active, position, rotation, scale) ∧
            (w1a.get w.size).parent = none ∧ (w1a.get w.size).children = [] := by
          rw [hw1a, hw1]
          simp [World.set, Entity.loadedValues]
        have hinv1 : LoadInv B w1a := by
          refine ⟨fun k hk x hx => ?_, fun k hkB hk x hx => ?_⟩
          · by_cases e : k = w.size
            · rw [e, hnew1.2.2] at hx; cases hx
            · rw [hold1 k e] at hx
              have := hinv.entries_lt k (by omega) x hx
              omega
          · by_cases e : k = w.size
            · rw [e, hnew1.2.2] at hx; cases hx
            · rw [hold1 k e] at hx
              exact hinv.fresh_up k hkB (by omega) x hx
        -- the nested records
        obtain ⟨w2, hw2, hsz2, hinv2, hfr2, -, -⟩ := ih cs (by omega) (f + 1) w1a w.size B
          (by omega) (by omega) hinv1 (by omega)
        have hid2 : ∀ k, k < w.size → (w2.get k).object_id = (w.get k).object_id := by
          intro k hk
          rw [(hfr2.links k (by omega)).id_eq, hold1 k (by omega)]
        have hidc1 : (w1a.get w.size).object_id = id := by
          have := hnew1.1
          simp only [Entity.loadedValues, Prod.mk.injEq] at this
          exact this.2.1
        have hidc : (w2.get w.size).object_id = id := by
          rw [(hfr2.links w.size (by omega)).id_eq]
          exact hidc1
        -- the lookup
        obtain ⟨q, hq1, hq2, hq3, hq4⟩ := GetEntityById_self w2 self (by omega)
        have hpar2 : (w2.get w.size).parent = none := by
          rw [hfr2.parent_eq w.size (by omega)]
          exact hnew1.2.1
        have hnm2 : w.size ∉ (w2.get q).children := by
          intro hmem
          obtain ⟨extra, he, hex⟩ := hfr2.children_ext q (by omega)
          rw [he, hold1 q (by omega)] at hmem
          rcases List.mem_append.1 hmem with h | h
          · have := hinv.entries_lt q (by omega) _ h
            omega
          · have := hex _ h
            omega
        obtain ⟨w3, hw3, hsz3, hinv3, hpar3, hch3, hq3c, hex3⟩ := SetParent_fresh hinv2
          (c := w.size) (q := q) hB (by omega) (by omega) hpar2 hnm2 (f + 1) (by omega)
        have hl3 := SetParent_sameButLinks _ _ _ _ _ hw3
        -- the remaining records
        obtain ⟨w4, hw4, hsz4, hinv4, hfr4, hval4, hex4⟩ := ih rest (by omega) (f + 1) w3 self B
          (by omega) (by omega) hinv3 (by omega)
        have hid3 : ∀ k, k < w.size → (w3.get k).object_id = (w.get k).object_id := by
          intro k hk
          rw [(hl3.2.2 k).id_eq, hid2 k hk]
        refine ⟨w4, ?_, by omega, hinv4, ?_, ?_, ?_⟩
        · simp only [Load_children, CreateEntity_eq, Load]
          rw [← hw1, ← hw1a, hw2]
          simp only [hq1, hw3]
          exact hw4
        · -- the frame
          refine
            { links := fun k hk => ?_, parent_eq := fun k hk => ?_,
              children_ext := fun k hk => ?_, untouched := fun k hk hni => ?_ }
          · have := ((hfr2.links k (by omega)).trans_links (hl3.2.2 k)).trans_links
              (hfr4.links k (by omega))
            rw [hold1 k (by omega)] at this
            exact this
          · rw [hfr4.parent_eq k (by omega), hpar3 k hk, hfr2.parent_eq k (by omega),
              hold1 k (by omega)]
          · obtain ⟨e2, he2, hx2⟩ := hfr2.children_ext k (by omega)
            obtain ⟨e4, he4, hx4⟩ := hfr4.children_ext k (by omega)
            rw [hold1 k (by omega)] at he2
            by_cases hkq : k = q
            · obtain ⟨e3, he3, hx3⟩ := hq3c
              refine ⟨e2 ++ e3 ++ e4, ?_, ?_⟩
              · rw [he4, hkq, he3, ← hkq, he2]
                simp
              · intro x hx
                simp only [List.mem_append] at hx
                rcases hx with (h | h) | h
                · have := hx2 x h; omega
                · have := hx3 x h; omega
                · have := hx4 x h; omega
            · refine ⟨e2 ++ e4, ?_, ?_⟩
              · rw [he4, hch3 k hk hkq, he2]
                simp
              · intro x hx
                simp only [List.mem_append] at hx
                rcases hx with h | h
                · have := hx2 x h; omega
                · have := hx4 x h; omega
          · simp only [List.mem_cons, List.mem_append, not_or] at hni
            obtain ⟨ha, ⟨hb, hc⟩, hd⟩ := hni
            have hkq : k ≠ q := by
              intro e
              rw [e, ← hid2 q (by omega), hq3, hid2 self hself] at ha
              exact ha rfl
            rw [hfr4.untouched k (by omega) (by
                rw [hid3 k hk, hid3 self hself]
                simp only [List.mem_cons, not_or]
                exact ⟨ha, hd⟩),
              hch3 k hk hkq,
              hfr2.untouched k (by omega) (by
                rw [hold1 k (by omega), hidc1]
                simp only [List.mem_cons, not_or]
                exact ⟨hb, hc⟩),
              hold1 k (by omega)]
        · -- the values of the created children
          intro p hp
          have hcnt : w3.size = w.size +
              (Record.mk name id active position rotation scale cs).count := by
            simp only [Record.count]
            omega
          simp only [childHandles, List.zip_cons_cons, List.mem_cons] at hp
          rcases hp with e | hp
          · rw [e]
            have := ((hfr2.links w.size (by omega)).trans_links (hl3.2.2 w.size)).trans_links
              (hfr4.links w.size (by omega))
            rw [this.loadedValues_eq, hnew1.1]
            rfl
          · rw [← hcnt] at hp
            exact hval4 p hp
        · -- the list of `self`
          intro hfirst hnot
          simp only [List.mem_cons, List.mem_append, not_or] at hnot
          obtain ⟨⟨hb, hc⟩, hd⟩ := hnot
          have hcnt : w3.size = w.size +
              (Record.mk name id active position rotation scale cs).count := by
            simp only [Record.count]
            omega
          have hqs : q = self := hq4 (fun k hk => by
            rw [hid2 k (by omega), hid2 self hself]
            exact hfirst k hk)
          subst hqs
          have h2 : (w2.get q).children = (w.get q).children := by
            rw [hfr2.untouched q (by omega) (by
              rw [hold1 q (by omega), hidc1]
              simp only [List.mem_cons, not_or]
              exact ⟨hb, hc⟩), hold1 q (by omega)]
          obtain ⟨h3, h3p⟩ := hex3 (by
            rw [hidc, hid2 q hself]
            exact fun e => hb e.symm)
          obtain ⟨h4, h4p⟩ := hex4
            (fun k hk => by
              rw [hid3 k (by omega), hid3 q hself]
              exact hfirst k hk)
            (by rw [hid3 q hself]; exact hd)
          refine ⟨?_, ?_⟩
          · rw [h4, h3, h2, hcnt]
            simp [childHandles]
          · intro c hc1
            simp only [childHandles, List.mem_cons] at hc1
            rcases hc1 with e | hc1
            · rw [e, hfr4.parent_eq w.size (by omega)]
              exact h3p
            · rw [← hcnt] at hc1
              exact h4p c hc1


/-- C27, evaluated: a new entity loads a record with identity 10 that nests one child record
with identity 10 as well.  One entity is created and the lookup of identity 10 gives entity
0, the loading entity, yet `SetParent` returns at its identity check: the children list of 0
does not gain the new entity 1, which stays without parent. -/
theorem Load_skips_child_with_own_identity :
    ((CreateEntity 1 World.empty).bind fun fresh =>
        (Load 2 fresh.1 0
          (Record.mk "root" 10 true ⟨0, 0, 0⟩ ⟨0, 0, 0, 1⟩ ⟨1, 1, 1⟩
            [Record.mk "child" 10 true ⟨0, 0, 0⟩ ⟨0, 0, 0, 1⟩ ⟨1, 1, 1⟩ []])).map fun w =>
          (w.size, GetEntityById w 10, (w.get 0).children, (w.get 1).parent)) =
      some (2, some 0, [], none) := by
  simp [Load, Load_children, CreateEntity, GenerateObjectId, Initialize, UpdateTransform,
    forEachM, World.set, World.empty, SetParent, GetEntityById, List.range, List.range.loop]

/-- C27, amended: in a registry whose children lists hold registered entities, `Load` of a
record R on a registered entity N returns, given a budget above the number of nested
records.  It stores the name, identity, activity flag and local position, rotation and scale
of R in N and creates one entity per nested record of R, at every depth; the entity created
for a child record of R carries the values of that record; every other entity registered
before keeps its parent and changes in links and matrices only.  The lookup of the identity
stored in R always finds an entity.  When no entity before N carries that identity, so that
the lookup gives N, and no nested record of R carries it, the children list of N gains
exactly the entities created for the child records of R, in record order, and each of them
has N as its parent. -/
theorem Load_attaches_children (w : World)
    (hv : ∀ k, k < w.size → ∀ c ∈ (w.get k).children, c < w.size)
    (N : Nat) (hN : N < w.size) (name : String) (id : Nat) (active : Bool)
    (position : Vector3) (rotation : Quaternion) (scale : Vector3) (children : List Record)
    (fuel : Nat) (hfuel : Record.countList children < fuel) :
    ∃ w1, Load fuel w N (Record.mk name id active position rotation scale children) =
        some w1 ∧
      (w1.get N).loadedValues = (name, id, active, position, rotation, scale) ∧
      w1.size = w.size + Record.countList children ∧
      (∀ p ∈ (childHandles w.size children).zip children,
        (w1.get p.1).loadedValues = p.2.values) ∧
      (∀ k, k < w.size → k ≠ N →
        (w.get k).SameButLinks (w1.get k) ∧ (w1.get k).parent = (w.get k).parent) ∧
      (∃ q, q ≤ N ∧ GetEntityById w1 id = some q) ∧
      ((∀ k, k < N → (w.get k).object_id ≠ id) → id ∉ Record.idsList children →
        (w1.get N).children = (w.get N).children ++ childHandles w.size children ∧
        ∀ c ∈ childHandles w.size children, (w1.get c).parent = some N) := by
  obtain ⟨wN, hwN⟩ : ∃ wN : World, wN =
      w.set N { w.get N with
        is_active := active, object_id := id, object_name := name,
        position_local := position, rotation_local := rotation, scale_local := scale } :=
    ⟨_, rfl⟩
  have hszN : wN.size = w.size := by rw [hwN]; rfl
  have holdN : ∀ k, k ≠ N → wN.get k = w.get k := by
    intro k hk
    rw [hwN]
    simp [hk]
  have hselfN : (wN.get N).loadedValues = (name, id, active, position, rotation, scale) ∧
      (wN.get N).children = (w.get N).children ∧ (wN.get N).parent = (w.get N).parent := by
    rw [hwN]
    simp [Entity.loadedValues]
  have hchN : ∀ k, (wN.get k).children = (w.get k).children := by
    intro k
    by_cases e : k = N
    · rw [e]; exact hselfN.2.1
    · rw [holdN k e]
  have hidN : (wN.get N).object_id = id := by
    have := hselfN.1
    simp only [Entity.loadedValues, Prod.mk.injEq] at this
    exact this.2.1
  have hinvN : LoadInv w.size wN :=
    ⟨fun k hk x hx => by rw [hszN] at hk ⊢; rw [hchN] at hx; exact hv k hk x hx,
      fun k hk1 hk2 => by omega⟩
  obtain ⟨w1, h1, hsz, -, hfr, hval, hex⟩ := Load_children_spec (Record.countList children)
    children (Nat.le_refl _) fuel wN N w.size (by omega) (by omega) hinvN (by omega)
  have hid1 : (w1.get N).object_id = id := by
    rw [(hfr.links N (by omega)).id_eq, hidN]
  refine ⟨w1, ?_, ?_, by omega, ?_, ?_, ?_, ?_⟩
  · simp only [Load]
    rw [← hwN]
    exact h1
  · rw [(hfr.links N (by omega)).loadedValues_eq, hselfN.1]
  · rw [← hszN]
    exact hval
  · intro k hk hkN
    have h2 := hfr.links k (by omega)
    have h3 := hfr.parent_eq k (by omega)
    rw [holdN k hkN] at h2 h3
    exact ⟨h2, h3⟩
  · obtain ⟨q, hq1, hq2, -, -⟩ := GetEntityById_self w1 N (by omega)
    rw [hid1] at hq1
    exact ⟨q, hq2, hq1⟩
  · intro hfirst hnot
    have := hex
      (fun k hk => by
        rw [holdN k (by omega), hidN]
        exact hfirst k hk)
      (by rw [hidN]; exact hnot)
    rw [hselfN.2.1, hszN] at this
    exact this

theorem Load_attaches_children_witness :
    ∃ w1, Load 4 threeRoots 0
        (Record.mk "root" 10 true ⟨0, 0, 0⟩ ⟨0, 0, 0, 1⟩ ⟨1, 1, 1⟩
          [Record.mk "a" 11 true ⟨1, 0, 0⟩ ⟨0, 0, 0, 1⟩ ⟨1, 1, 1⟩
            [Record.mk "b" 12 true ⟨0, 0, 0⟩ ⟨0, 0, 0, 1⟩ ⟨1, 1, 1⟩ []],
            Record.mk "c" 13 false ⟨0, 0, 0⟩ ⟨0, 0, 0, 1⟩ ⟨1, 1, 1⟩ []]) = some w1 ∧
      (w1.get 0).children = [3, 5] ∧ (w1.get 3).parent = some 0 ∧
      (w1.get 5).parent = some 0 := by
  obtain ⟨w1, h1, -, -, -, -, -, h2⟩ := Load_attaches_children threeRoots (by decide) 0
    (by decide) "root" 10 true ⟨0, 0, 0⟩ ⟨0, 0, 0, 1⟩ ⟨1, 1, 1⟩
    [Record.mk "a" 11 true ⟨1, 0, 0⟩ ⟨0, 0, 0, 1⟩ ⟨1, 1, 1⟩
      [Record.mk "b" 12 true ⟨0, 0, 0⟩ ⟨0, 0, 0, 1⟩ ⟨1, 1, 1⟩ []],
      Record.mk "c" 13 false ⟨0, 0, 0⟩ ⟨0, 0, 0, 1⟩ ⟨1, 1, 1⟩ []]
    4 (by simp [Record.countList, Record.count])
  obtain ⟨h3, h4⟩ := h2 (fun k hk => by omega) (by simp [Record.idsList, Record.ids])
  have hh : childHandles threeRoots.size
      [Record.mk "a" 11 true ⟨1, 0, 0⟩ ⟨0, 0, 0, 1⟩ ⟨1, 1, 1⟩
        [Record.mk "b" 12 true ⟨0, 0, 0⟩ ⟨0, 0, 0, 1⟩ ⟨1, 1, 1⟩ []],
        Record.mk "c" 13 false ⟨0, 0, 0⟩ ⟨0, 0, 0, 1⟩ ⟨1, 1, 1⟩ []] = [3, 5] := by
    simp [childHandles, Record.count, Record.countList, threeRoots]
  rw [hh] at h3 h4
  refine ⟨w1, h1, ?_, h4 3 (by simp), h4 5 (by simp)⟩
  rw [h3]
  simp [threeRoots]

/-! ## Lock scopes -/

theorem locksHeld_append : ∀ (t1 t2 : List LockEvent) (held : List (Nat × LockKind)),
    locksHeld held (t1 ++ t2) = (locksHeld held t1).bind (fun h => locksHeld h t2) := by
  intro t1
  induction t1 with
  | nil => intro t2 held; rfl
  | cons e t1 ih =>
    intro t2 held
    cases e with
    | acquire entity kind =>
      simp only [List.cons_append, locksHeld]
      split
      · rfl
      · exact ih t2 _
    | release entity kind =>
      cases held with
      | nil => rfl
      | cons top below =>
        simp only [List.cons_append, locksHeld]
        split
        · exact ih t2 _
        · rfl

/-- The scope of a guard: when the mutex is free and the body gives back what it takes, so
does the scope. -/
theorem locksHeld_guarded (entity : Nat) (kind : LockKind) (body : List LockEvent)
    (held : List (Nat × LockKind)) (hfree : (entity, kind) ∉ held)
    (hbody : locksHeld ((entity, kind) :: held) body = some ((entity, kind) :: held)) :
    locksHeld held (guarded entity kind body) = some held := by
  have e : guarded entity kind body =
      [LockEvent.acquire entity kind] ++ (body ++ [LockEvent.release entity kind]) := rfl
  have h1 : locksHeld held [LockEvent.acquire entity kind] = some ((entity, kind) :: held) := by
    simp [locksHeld, hfree]
  rw [e, locksHeld_append, h1, Option.some_bind, locksHeld_append, hbody]
  simp [locksHeld]

/-- The events of the relink: at most the children lock of the old parent and then that of
the new parent. -/
theorem SetParent_relink_locks_shape (w : World) (self : Nat)
    (parent new_parent_in : Option Nat) :
    ∃ l1 l2 : List LockEvent,
      SetParent_relink_locks w self parent new_parent_in = l1 ++ l2 ∧
      (l1 = [] ∨ ∃ k, l1 = guarded k LockKind.children []) ∧
      (l2 = [] ∨ ∃ k, l2 = guarded k LockKind.children []) := by
  refine ⟨_, _, rfl, ?_, ?_⟩
  · cases parent with
    | none => exact Or.inl rfl
    | some p =>
      simp only [RemoveChild_false_locks]
      split
      · exact Or.inl rfl
      · exact Or.inr ⟨p, rfl⟩
  · cases new_parent_in with
    | none => exact Or.inl rfl
    | some q => exact Or.inr ⟨q, rfl⟩

/-- The scope of the guard of `SetParent` around such events: only children locks are taken
inside, one at a time, every lock is given back, and none is taken twice. -/
theorem guarded_parent_scope (self : Nat) (l1 l2 : List LockEvent)
    (h1 : l1 = [] ∨ ∃ k, l1 = guarded k LockKind.children [])
    (h2 : l2 = [] ∨ ∃ k, l2 = guarded k LockKind.children []) :
    (∀ e ∈ l1 ++ l2, ∃ k, e = LockEvent.acquire k LockKind.children ∨
      e = LockEvent.release k LockKind.children) ∧
    maxHeld 0 (l1 ++ l2) ≤ 1 ∧
    maxHeld 0 (guarded self LockKind.parent (l1 ++ l2)) ≤ 2 ∧
    locksHeld [] (guarded self LockKind.parent (l1 ++ l2)) = some [] := by
  rcases h1 with e1 | ⟨k1, e1⟩ <;> rcases h2 with e2 | ⟨k2, e2⟩ <;> subst e1 <;> subst e2 <;>
    refine ⟨?_, ?_, ?_, ?_⟩ <;>
    simp [guarded, maxHeld, locksHeld]

/-- The lock events of `SetParent` exist exactly when the call returns; they are the scope
of the guard on the parent lock of the entity, in which children locks of other entities
are taken and given back one at a time. -/
theorem SetParent_locks_spec (fuel : Nat) (w : World) (self : Nat) (Q : Option Nat) :
    (SetParent_locks fuel w self Q).isSome = (SetParent fuel w self Q).isSome ∧
    ∀ t, SetParent_locks fuel w self Q = some t →
      ∃ body, t = guarded self LockKind.parent body ∧
        (∀ e ∈ body, ∃ k, e = LockEvent.acquire k LockKind.children ∨
          e = LockEvent.release k LockKind.children) ∧
        maxHeld 0 body ≤ 1 ∧ maxHeld 0 t ≤ 2 ∧ locksHeld [] t = some [] := by
  have hrel : ∀ (wa : World) (p : Option Nat) (t : List LockEvent),
      t = guarded self LockKind.parent (SetParent_relink_locks wa self p Q) →
      ∃ body, t = guarded self LockKind.parent body ∧
        (∀ e ∈ body, ∃ k, e = LockEvent.acquire k LockKind.children ∨
          e = LockEvent.release k LockKind.children) ∧
        maxHeld 0 body ≤ 1 ∧ maxHeld 0 t ≤ 2 ∧ locksHeld [] t = some [] := by
    intro wa p t ht
    obtain ⟨l1, l2, hl, h1, h2⟩ := SetParent_relink_locks_shape wa self p Q
    obtain ⟨g1, g2, g3, g4⟩ := guarded_parent_scope self l1 l2 h1 h2
    rw [hl] at ht
    subst ht
    exact ⟨l1 ++ l2, rfl, g1, g2, g3, g4⟩
  have hexit : ∀ t : List LockEvent, t = guarded self LockKind.parent [] →
      ∃ body, t = guarded self LockKind.parent body ∧
        (∀ e ∈ body, ∃ k, e = LockEvent.acquire k LockKind.children ∨
          e = LockEvent.release k LockKind.children) ∧
        maxHeld 0 body ≤ 1 ∧ maxHeld 0 t ≤ 2 ∧ locksHeld [] t = some [] := by
    intro t ht
    obtain ⟨g1, g2, g3, g4⟩ := guarded_parent_scope self [] [] (Or.inl rfl) (Or.inl rfl)
    subst ht
    exact ⟨[], rfl, g1, g2, g3, g4⟩
  unfold SetParent_locks SetParent
  cases Q with
  | none =>
    simp only
    refine ⟨by simp, fun t ht => ?_⟩
    simp only [Option.map_eq_some'] at ht
    obtain ⟨_, _, ht⟩ := ht
    exact hrel _ _ t ht.symm
  | some q =>
    simp only
    have hdesc : ((match IsDescendantOf fuel w q self with
          | none => none
          | some true =>
            match SetParent_promote fuel w self with
            | none => none
            | some w1 =>
              (SetParent_relink fuel w1 self (w.get self).parent (some q)).map fun _ =>
                guarded self LockKind.parent
                  (SetParent_relink_locks w1 self (w.get self).parent (some q))
          | some false =>
            (SetParent_relink fuel w self (w.get self).parent (some q)).map fun _ =>
              guarded self LockKind.parent
                (SetParent_relink_locks w self (w.get self).parent (some q))).isSome =
        (match IsDescendantOf fuel w q self with
          | none => none
          | some true =>
            match SetParent_promote fuel w self with
            | none => none
            | some w1 => SetParent_relink fuel w1 self (w.get self).parent (some q)
          | some false => SetParent_relink fuel w self (w.get self).parent (some q)).isSome) ∧
        ∀ t, (match IsDescendantOf fuel w q self with
          | none => none
          | some true =>
            match SetParent_promote fuel w self with
            | none => none
            | some w1 =>
              (SetParent_relink fuel w1 self (w.get self).parent (some q)).map fun _ =>
                guarded self LockKind.parent
                  (SetParent_relink_locks w1 self (w.get self).parent (some q))
          | some false =>
            (SetParent_relink fuel w self (w.get self).parent (some q)).map fun _ =>
              guarded self LockKind.parent
                (SetParent_relink_locks w self (w.get self).parent (some q))) = some t →
          ∃ body, t = guarded self LockKind.parent body ∧
            (∀ e ∈ body, ∃ k, e = LockEvent.acquire k LockKind.children ∨
              e = LockEvent.release k LockKind.children) ∧
            maxHeld 0 body ≤ 1 ∧ maxHeld 0 t ≤ 2 ∧ locksHeld [] t = some [] := by
      cases IsDescendantOf fuel w q self with
      | none => exact ⟨by rfl, fun t ht => by cases ht⟩
      | some b =>
        cases b with
        | true =>
          cases SetParent_promote fuel w self with
          | none => exact ⟨by rfl, fun t ht => by cases ht⟩
          | some wa =>
            refine ⟨by simp, fun t ht => ?_⟩
            simp only [Option.map_eq_some'] at ht
            obtain ⟨_, _, ht⟩ := ht
            exact hrel _ _ t ht.symm
        | false =>
          refine ⟨by simp, fun t ht => ?_⟩
          simp only [Option.map_eq_some'] at ht
          obtain ⟨_, _, ht⟩ := ht
          exact hrel _ _ t ht.symm
    by_cases h1 : (w.get self).object_id = (w.get q).object_id
    · simp only [if_pos h1]
      exact ⟨by rfl, fun t ht => hexit t (by cases ht; rfl)⟩
    · simp only [if_neg h1]
      cases hp : (w.get self).parent with
      | none =>
        rw [hp] at hdesc
        simp only [Bool.false_eq_true, if_false]
        exact hdesc
      | some p =>
        rw [hp] at hdesc
        simp only [decide_eq_true_eq]
        by_cases h2 : (w.get p).object_id = (w.get q).object_id
        · simp only [if_pos h2]
          exact ⟨by rfl, fun t ht => hexit t (by cases ht; rfl)⟩
        · simp only [if_neg h2]
          exact hdesc


/-- The lock events of `AcquireChildren` in an acyclic registry: the call returns, its events
are the scope of the guard on the children lock of the entity, the children lock of every
child found is taken inside that scope, and no lock is taken that is held already. -/
theorem AcquireChildren_locks_spec {w : World} (hd : w.DistinctIds) (hac : w.Acyclic)
    (hpar : ∀ a, a < w.size → ∀ p, (w.get a).parent = some p → p < w.size) :
    ∀ (fuel n : Nat), n < w.size → w.height n < fuel →
      ∃ body, AcquireChildren_locks fuel w n = some (guarded n LockKind.children body) ∧
        (∀ c ∈ childrenByParent w n, LockEvent.acquire c LockKind.children ∈ body) ∧
        ∀ held : List (Nat × LockKind),
          (∀ k kind, (k, kind) ∈ held → ¬ (k = n ∨ IsAncestor w n k)) →
          locksHeld held (guarded n LockKind.children body) = some held := by
  intro fuel
  induction fuel with
  | zero => intro n _ h; omega
  | succ fuel ih =>
    intro n hn hfuel
    have hloop : ∀ l : List Nat, (∀ c ∈ l, c < w.size) →
        ∃ events, collectM
            (fun possible_child =>
              match (w.get possible_child).parent with
              | none => some []
              | some parent =>
                if (w.get possible_child).object_id = (w.get n).object_id then some []
                else if (w.get parent).object_id = (w.get n).object_id then
                  AcquireChildren_locks fuel w possible_child
                else some [])
            l = some events ∧
          (∀ c ∈ l.filter (isChildByParent w n),
            LockEvent.acquire c LockKind.children ∈ events.flatten) ∧
          ∀ held : List (Nat × LockKind),
            (∀ k kind, (k, kind) ∈ held → ¬ IsAncestor w n k) →
            locksHeld held events.flatten = some held := by
      intro l
      induction l with
      | nil =>
        intro _
        exact ⟨[], rfl, fun c hc => by simp at hc, fun held _ => rfl⟩
      | cons c l ihl =>
        intro hlt
        have hc : c < w.size := hlt c (List.mem_cons_self c l)
        obtain ⟨events, hev, hmem, hheld⟩ := ihl (fun x hx => hlt x (List.mem_cons_of_mem c hx))
        have hfc : ∃ tc,
            (match (w.get c).parent with
              | none => some []
              | some parent =>
                if (w.get c).object_id = (w.get n).object_id then some []
                else if (w.get parent).object_id = (w.get n).object_id then
                  AcquireChildren_locks fuel w c
                else some []) = some tc ∧
            (isChildByParent w n c = true → LockEvent.acquire c LockKind.children ∈ tc) ∧
            ∀ held : List (Nat × LockKind),
              (∀ k kind, (k, kind) ∈ held → ¬ IsAncestor w n k) →
              locksHeld held tc = some held := by
          have hnone : isChildByParent w n c = false →
              ∃ tc : List LockEvent, some ([] : List LockEvent) = some tc ∧
                (isChildByParent w n c = true →
                  LockEvent.acquire c LockKind.children ∈ tc) ∧
                ∀ held : List (Nat × LockKind),
                  (∀ k kind, (k, kind) ∈ held → ¬ IsAncestor w n k) →
                  locksHeld held tc = some held := by
            intro hno
            refine ⟨[], rfl, fun h => ?_, fun held _ => rfl⟩
            rw [hno] at h
            cases h
          cases hp : (w.get c).parent with
          | none =>
            simp only
            apply hnone
            unfold isChildByParent
            rw [hp]
            simp
          | some p =>
            simp only
            by_cases hid : (w.get c).object_id = (w.get n).object_id
            · rw [if_pos hid]
              apply hnone
              have e : c = n := hd c hc n hn hid
              unfold isChildByParent
              simp [e]
            · rw [if_neg hid]
              by_cases hpid : (w.get p).object_id = (w.get n).object_id
              · rw [if_pos hpid]
                have e : p = n := hd p (hpar c hc p hp) n hn hpid
                subst e
                obtain ⟨f1, f2, f3, f4⟩ := child_by_parent_facts hac hc hp
                obtain ⟨body, hb1, -, hb3⟩ := ih c hc (by omega)
                refine ⟨_, hb1, fun _ => ?_, fun held hh => ?_⟩
                · simp [guarded]
                · exact hb3 held (fun k kind hk hsub => hh k kind hk (f4 k hsub))
              · rw [if_neg hpid]
                apply hnone
                unfold isChildByParent
                rw [hp]
                simp [hpid]
        obtain ⟨tc, htc, hacq, hrun⟩ := hfc
        refine ⟨tc :: events, ?_, ?_, ?_⟩
        · simp only [collectM, htc, hev]
        · intro x hx
          rw [List.flatten_cons]
          rw [List.filter_cons] at hx
          split at hx
          · next hch =>
            rcases List.mem_cons.1 hx with e | hx
            · rw [e]
              exact List.mem_append_left _ (hacq hch)
            · exact List.mem_append_right _ (hmem x hx)
          · exact List.mem_append_right _ (hmem x hx)
        · intro held hh
          rw [List.flatten_cons, locksHeld_append, hrun held hh]
          exact hheld held hh
    obtain ⟨events, hev, hmem, hheld⟩ := hloop (List.range w.size)
      (fun c hc => List.mem_range.1 hc)
    refine ⟨events.flatten, ?_, hmem, fun held hh => ?_⟩
    · rw [AcquireChildren_locks]
      simp only [hev]
    · refine locksHeld_guarded n LockKind.children _ held
        (fun hmem1 => hh n LockKind.children hmem1 (Or.inl rfl)) (hheld _ ?_)
      intro k kind hk hanc
      rcases List.mem_cons.1 hk with e | hk
      · cases e
        exact hanc.ne_of_reachesRoot _ (hac n hn) rfl
      · exact hh k kind hk (Or.inr hanc)


/-- The lock events of `AcquireChildren` depend on the size, the parent references and the
identities only, not on the children lists that the call rewrites. -/
theorem AcquireChildren_locks_congr {w0 w : World} (h : SameParents w0 w) :
    ∀ (fuel n : Nat), AcquireChildren_locks fuel w n = AcquireChildren_locks fuel w0 n := by
  have hp : ∀ k, (w.get k).parent = (w0.get k).parent := fun k => (h.2 k).1
  have hi : ∀ k, (w.get k).object_id = (w0.get k).object_id := fun k => (h.2 k).2
  intro fuel
  induction fuel with
  | zero => intro n; rfl
  | succ fuel ih =>
    intro n
    rw [AcquireChildren_locks, AcquireChildren_locks]
    simp only [h.1, hp, hi, ih]

/-- C24, evaluated: `SetParent` of entity 2 under entity 0 in the chain 0 - 1 - 2 takes the
parent lock of 2 first and gives it back last; in between it takes the children lock of the
old parent 1 and then that of the new parent 0, so it holds its own lock while it calls
`RemoveChild` and `AddChild` on them.  `AcquireChildren` on 0 holds three children locks at
once: its own, that of its child 1 and that of 2. -/
theorem SetParent_holds_lock_across_calls :
    SetParent_locks 3 chain3 2 (some 0) =
      some [LockEvent.acquire 2 LockKind.parent, LockEvent.acquire 1 LockKind.children,
        LockEvent.release 1 LockKind.children, LockEvent.acquire 0 LockKind.children,
        LockEvent.release 0 LockKind.children, LockEvent.release 2 LockKind.parent] ∧
      (SetParent_locks 3 chain3 2 (some 0)).map (maxHeld 0) = some 2 ∧
      (AcquireChildren_locks 4 chain3 0).map (maxHeld 0) = some 3 := by
  decide

/-- C24, amended: every guard spans the rest of its function.  The events of `SetParent`,
which exist exactly when the call returns, are the scope of the guard on the parent lock of
the entity; inside it only children locks are taken (by `RemoveChild` on the old parent and
`AddChild` on the new one), one at a time, so that at most two locks are held at once, every
lock is given back and none is taken while it is held.  `AddChild` and `RemoveChild` with
the flag off hold one lock and call nothing that takes a lock.  In a registry with distinct
identities, acyclic parent references and registered parents, `AcquireChildren` returns and
holds the children lock of the entity while it recurses into each child found, whose
children lock is taken inside the scope; every lock is given back and none is taken while it
is held. -/
theorem lock_guards_span_calls (fuel : Nat) (w : World) (N : Nat) :
    (∀ Q, (SetParent_locks fuel w N Q).isSome = (SetParent fuel w N Q).isSome ∧
      ∀ t, SetParent_locks fuel w N Q = some t →
        ∃ body, t = guarded N LockKind.parent body ∧
          (∀ e ∈ body, ∃ k, e = LockEvent.acquire k LockKind.children ∨
            e = LockEvent.release k LockKind.children) ∧
          maxHeld 0 body ≤ 1 ∧ maxHeld 0 t ≤ 2 ∧ locksHeld [] t = some []) ∧
    (maxHeld 0 (AddChild_locks N) = 1 ∧ ∀ C, maxHeld 0 (RemoveChild_false_locks w N C) ≤ 1) ∧
    (w.DistinctIds → w.Acyclic → w.ValidParents → N < w.size → w.size < fuel →
      (∃ w1, AcquireChildren fuel w N = some w1) ∧
      ∃ body, AcquireChildren_locks fuel w N = some (guarded N LockKind.children body) ∧
        (∀ c ∈ childrenByParent w N, LockEvent.acquire c LockKind.children ∈ body) ∧
        locksHeld [] (guarded N LockKind.children body) = some []) := by
  refine ⟨fun Q => SetParent_locks_spec fuel w N Q, ⟨by simp [AddChild_locks, guarded, maxHeld],
    fun C => ?_⟩, fun hd hac hvp hN hfuel => ?_⟩
  · unfold RemoveChild_false_locks
    split <;> simp [guarded, maxHeld]
  · have hpar : ∀ a, a < w.size → ∀ p, (w.get a).parent = some p → p < w.size :=
      fun a ha p hp => hvp a ha p hp
    have hh : w.height N < fuel := by have := w.height_le N; omega
    obtain ⟨w1, h1, -⟩ := AcquireChildren_spec hd hac hpar fuel w N
      ⟨rfl, fun _ => ⟨rfl, rfl⟩⟩ hN hh
    obtain ⟨body, hb1, hb2, hb3⟩ := AcquireChildren_locks_spec hd hac hpar fuel N hN hh
    exact ⟨⟨w1, h1⟩, body, hb1, hb2, hb3 [] (fun k kind hk => by cases hk)⟩

theorem lock_guards_span_calls_witness :
    (∃ w1, AcquireChildren 4 chain3 0 = some w1) ∧
      ∃ body, AcquireChildren_locks 4 chain3 0 = some (guarded 0 LockKind.children body) ∧
        (∀ c ∈ childrenByParent chain3 0, LockEvent.acquire c LockKind.children ∈ body) ∧
        locksHeld [] (guarded 0 LockKind.children body) = some [] :=
  (lock_guards_span_calls 4 chain3 0).2.2 (by decide) (by decide) (by decide) (by decide)
    (by decide)

end Spartan
